import Mathlib

/-!
Verification development for the zlog structured-log encoder.

Strings and byte buffers are modelled as `List Nat` (each element one byte,
0..255).  Pure Lean functions mirror the Go functions of the repository; in
the doc comment of each definition the source location is given.  The
`jsonEncoder` of `src/unnamed/part_017` appends into a `buffer.Buffer`; here
every `add*` function is modelled as a state transformer on the encoder
state (buffer contents plus open-group stack), or, for the leaf helpers, as
a pure function returning the appended bytes.
-/

namespace Zlog

/-- The set of bytes that pass through JSON string encoding unescaped,
transcribed entry by entry from the literal table `safeSet` in
`src/encode.go` (lines 429-526): every listed byte whose entry is `true`.
Note that the table marks both `<` (60) and `>` (62) as safe. -/
def safeSetList : List Nat :=
  [32, 33,
   35, 36, 37, 38, 39, 40, 41, 42, 43, 44, 45, 46, 47,
   48, 49, 50, 51, 52, 53, 54, 55, 56, 57,
   58, 59, 60, 61, 62, 63, 64,
   65, 66, 67, 68, 69, 70, 71, 72, 73, 74, 75, 76, 77,
   78, 79, 80, 81, 82, 83, 84, 85, 86, 87, 88, 89, 90,
   91,
   93, 94, 95, 96,
   97, 98, 99, 100, 101, 102, 103, 104, 105, 106, 107, 108, 109,
   110, 111, 112, 113, 114, 115, 116, 117, 118, 119, 120, 121, 122,
   123, 124, 125, 126, 127]

/-- `safeSet[b]` of `src/encode.go`: membership in the transcribed table. -/
def safeSet (b : Nat) : Bool := safeSetList.contains b

/-- Model of Go `utf8.DecodeRune` restricted to what the repository uses:
returns the decoded rune and its byte size; on an invalid or truncated
encoding returns `(0xFFFD, 1)` (and `(0xFFFD, 0)` on empty input), exactly
as the Go function does.  The accept ranges (overlong and surrogate
rejection) follow `unicode/utf8`. -/
def utf8DecodeFirst (l : List Nat) : Nat × Nat :=
  match l with
  | [] => (0xFFFD, 0)
  | b0 :: rest =>
    if b0 < 0x80 then (b0, 1)
    else if 0xC2 ≤ b0 ∧ b0 ≤ 0xDF then
      match rest with
      | b1 :: _ =>
        if 0x80 ≤ b1 ∧ b1 ≤ 0xBF then ((b0 - 0xC0) * 64 + (b1 - 0x80), 2)
        else (0xFFFD, 1)
      | _ => (0xFFFD, 1)
    else if 0xE0 ≤ b0 ∧ b0 ≤ 0xEF then
      let lo := if b0 = 0xE0 then 0xA0 else 0x80
      let hi := if b0 = 0xED then 0x9F else 0xBF
      match rest with
      | b1 :: b2 :: _ =>
        if lo ≤ b1 ∧ b1 ≤ hi ∧ 0x80 ≤ b2 ∧ b2 ≤ 0xBF then
          ((b0 - 0xE0) * 4096 + (b1 - 0x80) * 64 + (b2 - 0x80), 3)
        else (0xFFFD, 1)
      | _ => (0xFFFD, 1)
    else if 0xF0 ≤ b0 ∧ b0 ≤ 0xF4 then
      let lo := if b0 = 0xF0 then 0x90 else 0x80
      let hi := if b0 = 0xF4 then 0x8F else 0xBF
      match rest with
      | b1 :: b2 :: b3 :: _ =>
        if lo ≤ b1 ∧ b1 ≤ hi ∧ 0x80 ≤ b2 ∧ b2 ≤ 0xBF ∧ 0x80 ≤ b3 ∧ b3 ≤ 0xBF then
          ((b0 - 0xF0) * 262144 + (b1 - 0x80) * 4096 + (b2 - 0x80) * 64 + (b3 - 0x80), 4)
        else (0xFFFD, 1)
      | _ => (0xFFFD, 1)
    else (0xFFFD, 1)

/-- Standard UTF-8 encoding of a code point (used by the JSON string
decoder when it expands a `\uXXXX` escape, mirroring what a JSON consumer
such as Go `encoding/json` produces). -/
def utf8Encode (c : Nat) : List Nat :=
  if c < 0x80 then [c]
  else if c < 0x800 then [0xC0 + c / 64, 0x80 + c % 64]
  else if c < 0x10000 then [0xE0 + c / 4096, 0x80 + c / 64 % 64, 0x80 + c % 64]
  else [0xF0 + c / 262144, 0x80 + c / 4096 % 64, 0x80 + c / 64 % 64, 0x80 + c % 64]

/-- The `hex` lookup string "0123456789abcdef" of `src/encode.go`. -/
def hexDigit (d : Nat) : Nat := if d < 10 then 48 + d else 87 + d

/-- The escape emitted by `jsonEncodeString` for an unsafe ASCII byte:
the `switch b` statement of `src/encode.go` lines 368-389
(backslash/quote get a two-byte escape, tab/newline/carriage-return get
their short escapes, anything else gets `\u00XX`). -/
def escByte (b : Nat) : List Nat :=
  if b = 0x5C ∨ b = 0x22 then [0x5C, b]
  else if b = 9 then [0x5C, 0x74]
  else if b = 10 then [0x5C, 0x6E]
  else if b = 13 then [0x5C, 0x72]
  else [0x5C, 0x75, 48, 48, hexDigit (b / 16), hexDigit (b % 16)]

/-- The escape `\u202X` emitted for U+2028 / U+2029
(`src/encode.go` lines 411-419). -/
def esc202X (c : Nat) : List Nat :=
  [0x5C, 0x75, 50, 48, 50, hexDigit (c % 16)]

/-- The `�` replacement emitted for an invalid UTF-8 byte
(`src/encode.go` lines 395-403). -/
def escFFFD : List Nat := [0x5C, 0x75, 102, 102, 102, 100]

/-- Fuel-indexed worker for `jsonEncodeStringBody`; every step consumes at
least one input byte, so fuel equal to the input length suffices, and the
fuel-exhausted arm is unreachable. -/
def jesbGo : Nat → List Nat → List Nat
  | _, [] => []
  | 0, _ :: _ => []
  | fuel + 1, b :: bs =>
    if b < 0x80 then
      (if safeSet b then [b] else escByte b) ++ jesbGo fuel bs
    else
      let cn := utf8DecodeFirst (b :: bs)
      if cn.1 = 0xFFFD ∧ cn.2 = 1 then escFFFD ++ jesbGo fuel bs
      else if cn.1 = 0x2028 ∨ cn.1 = 0x2029 then
        esc202X cn.1 ++ jesbGo fuel (bs.drop (cn.2 - 1))
      else
        (b :: bs).take cn.2 ++ jesbGo fuel (bs.drop (cn.2 - 1))

/-- Body of `jsonEncodeString` (`src/encode.go` lines 353-427) without the
surrounding quotes.  The Go loop tracks a `start` index and copies
unescaped runs in blocks; the emitted byte sequence is identical to this
per-byte/per-rune recursion:  a safe ASCII byte is copied, an unsafe ASCII
byte is escaped via `escByte`, an invalid UTF-8 byte becomes `�`,
U+2028/U+2029 become `\u202X`, and any other multi-byte rune is copied
verbatim. -/
def jsonEncodeStringBody (l : List Nat) : List Nat := jesbGo l.length l

/-- `jsonEncodeString` of `src/encode.go`: the full JSON string literal,
quotes included, appended for input `s`. -/
def jsonEncodeString (s : List Nat) : List Nat :=
  34 :: jsonEncodeStringBody s ++ [34]

theorem jesbGo_congr : ∀ (f1 : Nat) (l : List Nat) (f2 : Nat),
    l.length ≤ f1 → l.length ≤ f2 → jesbGo f1 l = jesbGo f2 l := by
  intro f1
  induction f1 with
  | zero =>
      intro l f2 h1 _
      have : l = [] := List.length_eq_zero.mp (Nat.le_zero.mp h1)
      subst this
      cases f2 <;> rfl
  | succ f ih =>
      intro l f2 h1 h2
      match l, h1, h2 with
      | [], _, _ => cases f2 <;> rfl
      | b :: bs, h1, h2 =>
        match f2, h2 with
        | g + 1, h2 =>
          have hbs : bs.length ≤ f := by simp at h1; omega
          have hbs2 : bs.length ≤ g := by simp at h2; omega
          have hdrop : ∀ k, (bs.drop k).length ≤ f := by
            intro k
            simp [List.length_drop]
            omega
          have hdrop2 : ∀ k, (bs.drop k).length ≤ g := by
            intro k
            simp [List.length_drop]
            omega
          simp only [jesbGo]
          by_cases hb : b < 0x80
          · rw [if_pos hb, if_pos hb, ih bs g hbs hbs2]
          · rw [if_neg hb, if_neg hb]
            by_cases hf : (utf8DecodeFirst (b :: bs)).1 = 0xFFFD
                ∧ (utf8DecodeFirst (b :: bs)).2 = 1
            · simp only [if_pos hf, ih bs g hbs hbs2]
            · simp only [if_neg hf]
              by_cases h28 : (utf8DecodeFirst (b :: bs)).1 = 0x2028
                  ∨ (utf8DecodeFirst (b :: bs)).1 = 0x2029
              · simp only [if_pos h28,
                  ih (bs.drop ((utf8DecodeFirst (b :: bs)).2 - 1)) g (hdrop _) (hdrop2 _)]
              · simp only [if_neg h28,
                  ih (bs.drop ((utf8DecodeFirst (b :: bs)).2 - 1)) g (hdrop _) (hdrop2 _)]

/-- The one-step recurrence of `jsonEncodeStringBody`. -/
theorem jsonEncodeStringBody_cons (b : Nat) (bs : List Nat) :
    jsonEncodeStringBody (b :: bs)
      = (if b < 0x80 then
          (if safeSet b then [b] else escByte b) ++ jsonEncodeStringBody bs
        else
          let cn := utf8DecodeFirst (b :: bs)
          if cn.1 = 0xFFFD ∧ cn.2 = 1 then escFFFD ++ jsonEncodeStringBody bs
          else if cn.1 = 0x2028 ∨ cn.1 = 0x2029 then
            esc202X cn.1 ++ jsonEncodeStringBody (bs.drop (cn.2 - 1))
          else
            (b :: bs).take cn.2 ++ jsonEncodeStringBody (bs.drop (cn.2 - 1))) := by
  unfold jsonEncodeStringBody
  have hdrop : ∀ k, (bs.drop k).length ≤ bs.length := by
    intro k
    simp [List.length_drop]
  simp only [List.length_cons, jesbGo]
  by_cases hb : b < 0x80
  · rw [if_pos hb, if_pos hb, jesbGo_congr bs.length bs bs.length le_rfl le_rfl]
  · rw [if_neg hb, if_neg hb]
    by_cases hf : (utf8DecodeFirst (b :: bs)).1 = 0xFFFD
        ∧ (utf8DecodeFirst (b :: bs)).2 = 1
    · simp only [if_pos hf]
    · simp only [if_neg hf]
      by_cases h28 : (utf8DecodeFirst (b :: bs)).1 = 0x2028
          ∨ (utf8DecodeFirst (b :: bs)).1 = 0x2029
      · simp only [if_pos h28,
          jesbGo_congr bs.length (bs.drop ((utf8DecodeFirst (b :: bs)).2 - 1)) _
            (hdrop _) le_rfl]
      · simp only [if_neg h28,
          jesbGo_congr bs.length (bs.drop ((utf8DecodeFirst (b :: bs)).2 - 1)) _
            (hdrop _) le_rfl]

-- Sanity examples matching the repository test
-- `TestJSONEncoder/escapedstring` (src/encode_json_test.go):
-- "z\n" encodes as "z\n", "\x00" as "\u0000", "\xff" as "�".
example : jsonEncodeString [122, 10] = [34, 122, 0x5C, 0x6E, 34] := by decide
example : jsonEncodeString [0] = [34, 0x5C, 0x75, 48, 48, 48, 48, 34] := by decide
example : jsonEncodeString [0xFF] = [34, 0x5C, 0x75, 102, 102, 102, 100, 34] := by decide
example : jsonEncodeString [0xE2, 0x80, 0xA8]
    = [34, 0x5C, 0x75, 50, 48, 50, 56, 34] := by decide

/-- C6: the escaping engine does NOT escape `<` and `>`: the transcribed
`safeSet` table marks both as safe, so `jsonEncodeString` emits them
verbatim — contradicting the in-code comment (`src/encode.go` lines
381-385, “This encodes … as well as < and >”) and the claim; control
characters other than tab/newline/CR do get `\u00XX` (shown for 0x01),
which is the part of the claim the code satisfies. -/
theorem ltGt_not_escaped :
    jsonEncodeString [60] = [34, 60, 34]
    ∧ jsonEncodeString [62] = [34, 62, 34]
    ∧ safeSet 60 = true ∧ safeSet 62 = true
    ∧ jsonEncodeString [1] = [34, 92, 117, 48, 48, 48, 49, 34] := by
  refine ⟨by decide, by decide, by decide, by decide, by decide⟩

/-! ## Decimal rendering (model of strconv.AppendInt / AppendUint) -/

/-- Digits of `n` in reverse order, fuel-bounded (fuel `n` suffices since
`n / 10 < n` for `n > 0`).  Helper for `natToDecimal`. -/
def digitsAux : Nat → Nat → List Nat
  | 0, _ => []
  | fuel + 1, n => if n = 0 then [] else (48 + n % 10) :: digitsAux fuel (n / 10)

/-- Decimal rendering of a natural number, as produced by Go
`strconv.AppendUint(buf, n, 10)`. -/
def natToDecimal (n : Nat) : List Nat :=
  if n = 0 then [48] else (digitsAux n n).reverse

/-- Decimal rendering of an integer, as produced by Go
`strconv.AppendInt(buf, i, 10)`. -/
def intToDecimal (i : Int) : List Nat :=
  if i < 0 then 45 :: natToDecimal (-i).toNat else natToDecimal i.toNat

example : intToDecimal (-120) = [45, 49, 50, 48] := by decide
example : natToDecimal 10000000000 = [49, 48, 48, 48, 48, 48, 48, 48, 48, 48, 48] := by decide

/-! ## slog levels -/

/-- `slog.Level.String()` helper: `base` when the offset is zero, otherwise
`base` followed by the `%+d`-formatted offset. -/
def levelStr (base : List Nat) (val : Int) : List Nat :=
  if val = 0 then base
  else base ++ (if 0 < val then 43 :: natToDecimal val.toNat
                else 45 :: natToDecimal (-val).toNat)

/-- Model of `log/slog` `Level.String()`: levels are integers with
DEBUG = -4, INFO = 0, WARN = 4, ERROR = 8; a level below the next named
level renders as the previous name plus an offset. -/
def levelString (l : Int) : List Nat :=
  if l < 0 then levelStr [68, 69, 66, 85, 71] (l + 4)
  else if l < 4 then levelStr [73, 78, 70, 79] l
  else if l < 8 then levelStr [87, 65, 82, 78] (l - 4)
  else levelStr [69, 82, 82, 79, 82] (l - 8)

-- "INFO", "ERROR+1", "DEBUG-3" (matching slog and the repository tests)
example : levelString 0 = [73, 78, 70, 79] := by decide
example : levelString 9 = [69, 82, 82, 79, 82, 43, 49] := by decide
example : levelString (-7) = [68, 69, 66, 85, 71, 45, 51] := by decide

/-! ## Encoder state and separator / group bookkeeping

The `jsonEncoder` of `src/unnamed/part_017` owns a byte buffer and the
stack of open group names; every `add*` method appends to the buffer. -/

/-- The mutable fields `buf` and `openGroups` of the `jsonEncoder` struct
(`src/unnamed/part_017` lines 17-23). -/
structure EncSt where
  buf : List Nat
  openGroups : List (List Nat)
  deriving Repr, DecidableEq

/-- The bytes after which no comma is needed: the `case` list of
`addSeparator` (`src/unnamed/part_017` lines 723-724). -/
def sepSet : List Nat := [123, 91, 58, 44, 32]

/-- `addSeparator` (`src/unnamed/part_017` lines 718-729): append a comma
unless the buffer is empty or ends in one of `sepSet`. -/
def addSeparator (st : EncSt) : EncSt :=
  match st.buf.getLast? with
  | none => st
  | some b => if sepSet.contains b then st else { st with buf := st.buf ++ [44] }

/-- `addKey` (`src/unnamed/part_017` lines 712-716): separator, escaped
key, colon. -/
def addKey (st : EncSt) (key : List Nat) : EncSt :=
  let st1 := addSeparator st
  { st1 with buf := st1.buf ++ jsonEncodeString key ++ [58] }

/-- `AppendFormatted` (`src/unnamed/part_017` lines 116-122): no-op on an
empty span, otherwise separator then the raw bytes. -/
def appendFormatted (st : EncSt) (formatted : List Nat) : EncSt :=
  if formatted = [] then st
  else
    let st1 := addSeparator st
    { st1 with buf := st1.buf ++ formatted }

/-- `OpenGroup` (`src/unnamed/part_017` lines 133-137). -/
def openGroup (st : EncSt) (g : List Nat) : EncSt :=
  let st1 := addKey st g
  { buf := st1.buf ++ [123], openGroups := st1.openGroups ++ [g] }

/-- `CloseGroup` (`src/unnamed/part_017` lines 139-145): no-op when no
group is open. -/
def closeGroup (st : EncSt) : EncSt :=
  if st.openGroups = [] then st
  else { buf := st.buf ++ [125], openGroups := st.openGroups.dropLast }

/-- `CloseGroups` (`src/unnamed/part_017` lines 147-151): the loop
`for i := len(openGroups); i >= 0; i--` calls `CloseGroup` exactly
`len + 1` times (the final call is a no-op on the empty stack). -/
def closeGroups (st : EncSt) : EncSt :=
  Nat.iterate closeGroup (st.openGroups.length + 1) st

/-- Whether `addSeparator` writes a comma for the current buffer:
non-empty and not ending in `{`, `[`, `:`, `,` or space. -/
def commaNeeded (bs : List Nat) : Bool :=
  match bs.getLast? with
  | none => false
  | some b => ¬ sepSet.contains b

/-! ## Group-brace bookkeeping (claim C8) -/

/-- An `OpenGroup` or `CloseGroup` call made against the encoder. -/
inductive GOp where
  | opn (g : List Nat)
  | cls
  deriving Repr, DecidableEq

/-- Number of bytes `CloseGroup` writes from state `st` (its only write is
the single `}`, so this is 0 or 1). -/
def closeDelta (st : EncSt) : Nat := (closeGroup st).buf.length - st.buf.length

/-- Run a sequence of group calls, also counting the structural `{` bytes
written by `OpenGroup` (one per call, line 135) and the structural `}`
bytes written by `CloseGroup` (measured as the byte-length growth of the
buffer, since the `}` on line 143 is the only byte `CloseGroup` writes). -/
def runOpsCount : EncSt → List GOp → EncSt × Nat × Nat
  | st, [] => (st, 0, 0)
  | st, GOp.opn g :: rest =>
      let r := runOpsCount (openGroup st g) rest
      (r.1, r.2.1 + 1, r.2.2)
  | st, GOp.cls :: rest =>
      let r := runOpsCount (closeGroup st) rest
      (r.1, r.2.1, r.2.2 + closeDelta st)

/-- Number of `}` bytes written by the final `CloseGroups` call. -/
def closeGroupsDelta (st : EncSt) : Nat := (closeGroups st).buf.length - st.buf.length

theorem closeDelta_eq (st : EncSt) :
    closeDelta st = if st.openGroups = [] then 0 else 1 := by
  unfold closeDelta closeGroup
  by_cases h : st.openGroups = [] <;> simp [h]

theorem closeGroup_openGroups_length (st : EncSt) :
    (closeGroup st).openGroups.length =
      st.openGroups.length - (if st.openGroups = [] then 0 else 1) := by
  unfold closeGroup
  by_cases h : st.openGroups = [] <;> simp [h, List.length_dropLast]

theorem closeGroup_buf_length (st : EncSt) :
    (closeGroup st).buf.length = st.buf.length + closeDelta st := by
  rw [closeDelta_eq]
  unfold closeGroup
  by_cases h : st.openGroups = [] <;> simp [h]

theorem addSeparator_openGroups (s : EncSt) :
    (addSeparator s).openGroups = s.openGroups := by
  unfold addSeparator
  cases h : s.buf.getLast? with
  | none => rfl
  | some b => by_cases hb : b ∈ sepSet <;> simp [hb]

theorem openGroup_openGroups_length (st : EncSt) (g : List Nat) :
    (openGroup st g).openGroups.length = st.openGroups.length + 1 := by
  unfold openGroup addKey
  simp [addSeparator_openGroups]

theorem iterate_closeGroup_spec :
    ∀ (n : Nat) (st : EncSt), st.openGroups.length ≤ n →
      (Nat.iterate closeGroup n st).buf.length
          = st.buf.length + st.openGroups.length
      ∧ (Nat.iterate closeGroup n st).openGroups = [] := by
  intro n
  induction n with
  | zero =>
      intro st h
      have : st.openGroups = [] := List.length_eq_zero.mp (Nat.le_zero.mp h)
      simp [Nat.iterate, this]
  | succ n ih =>
      intro st h
      rw [Function.iterate_succ_apply]
      by_cases hz : st.openGroups = []
      · have hcg : closeGroup st = st := by simp [closeGroup, hz]
        rw [hcg]
        have := ih st (by simp [hz])
        simpa [hz] using this
      · have hpos : 0 < st.openGroups.length := List.length_pos.mpr hz
        have h1 : (closeGroup st).buf.length = st.buf.length + 1 := by
          rw [closeGroup_buf_length, closeDelta_eq]
          simp [hz]
        have h2 : (closeGroup st).openGroups.length = st.openGroups.length - 1 := by
          rw [closeGroup_openGroups_length]
          simp [hz]
        have hrec := ih (closeGroup st) (by omega)
        refine ⟨?_, hrec.2⟩
        rw [hrec.1]
        omega

theorem closeGroupsDelta_eq (st : EncSt) :
    closeGroupsDelta st = st.openGroups.length := by
  unfold closeGroupsDelta closeGroups
  have := iterate_closeGroup_spec (st.openGroups.length + 1) st (by omega)
  omega

theorem runOpsCount_invariant :
    ∀ (ops : List GOp) (st : EncSt),
      (runOpsCount st ops).2.1 + st.openGroups.length
        = (runOpsCount st ops).2.2 + (runOpsCount st ops).1.openGroups.length := by
  intro ops
  induction ops with
  | nil => intro st; simp [runOpsCount]
  | cons op rest ih =>
      intro st
      cases op with
      | opn g =>
          have := ih (openGroup st g)
          have hlen := openGroup_openGroups_length st g
          simp only [runOpsCount]
          omega
      | cls =>
          have := ih (closeGroup st)
          have h2 := closeGroup_openGroups_length st
          have h3 := closeDelta_eq st
          simp only [runOpsCount]
          by_cases hz : st.openGroups = []
          · rw [hz] at h2 h3
            rw [if_pos rfl] at h2 h3
            rw [hz]
            simp only [List.length_nil] at h2 ⊢
            omega
          · have hpos : 0 < st.openGroups.length := List.length_pos.mpr hz
            rw [if_neg hz] at h2 h3
            omega

/-- C8: for every sequence of `OpenGroup`/`CloseGroup` calls starting from
an encoder with no open groups — any nesting depth, including more closes
than opens — the number of structural `{` bytes written by the opens
equals the number of structural `}` bytes written by the closes plus the
final `CloseGroups`; and a `CloseGroup` with no group open writes nothing
and leaves the encoder state unchanged. -/
theorem closeGroups_balances_braces (ops : List GOp) (st : EncSt)
    (h : st.openGroups = []) :
    (runOpsCount st ops).2.1
        = (runOpsCount st ops).2.2 + closeGroupsDelta (runOpsCount st ops).1
    ∧ ∀ s : EncSt, s.openGroups = [] → closeGroup s = s := by
  constructor
  · have hinv := runOpsCount_invariant ops st
    have h0 : st.openGroups.length = 0 := by rw [h]; rfl
    rw [closeGroupsDelta_eq]
    omega
  · intro s hs
    simp [closeGroup, hs]

theorem closeGroups_balances_braces_witness :
    (EncSt.mk [] []).openGroups = []
    ∧ ((runOpsCount ⟨[], []⟩ [GOp.opn [103], GOp.cls, GOp.cls]).2.1
        = (runOpsCount ⟨[], []⟩ [GOp.opn [103], GOp.cls, GOp.cls]).2.2
          + closeGroupsDelta (runOpsCount ⟨[], []⟩ [GOp.opn [103], GOp.cls, GOp.cls]).1
       ∧ ∀ s : EncSt, s.openGroups = [] → closeGroup s = s) :=
  ⟨rfl, closeGroups_balances_braces [GOp.opn [103], GOp.cls, GOp.cls] ⟨[], []⟩ rfl⟩

/-- C7: whenever the encoder begins a new field (`addKey`) or splices a
non-empty preformatted span (`AppendFormatted`), a comma is inserted if
and only if the buffer is non-empty and its last byte is none of
`{`, `[`, `:`, `,`, space; the decision is a function of the buffer's
actual last byte. -/
theorem separator_comma_iff (st : EncSt) (k fm : List Nat) (hfm : fm ≠ []) :
    (addKey st k).buf
        = st.buf ++ (if commaNeeded st.buf then [44] else [])
            ++ jsonEncodeString k ++ [58]
    ∧ (appendFormatted st fm).buf
        = st.buf ++ (if commaNeeded st.buf then [44] else []) ++ fm
    ∧ (commaNeeded st.buf = true
        ↔ st.buf ≠ [] ∧ ∀ b, st.buf.getLast? = some b → sepSet.contains b = false) := by
  have hsep : (addSeparator st).buf
      = st.buf ++ (if commaNeeded st.buf then [44] else []) := by
    unfold addSeparator commaNeeded
    cases h : st.buf.getLast? with
    | none => simp
    | some b =>
        by_cases hb : b ∈ sepSet <;> simp [hb]
  refine ⟨?_, ?_, ?_⟩
  · simp [addKey, hsep]
  · simp [appendFormatted, hfm, hsep]
  · unfold commaNeeded
    cases h : st.buf.getLast? with
    | none =>
        have : st.buf = [] := by simpa using h
        simp [this]
    | some b =>
        have hne : st.buf ≠ [] := by
          intro hcontra
          rw [hcontra] at h
          simp at h
        by_cases hb : b ∈ sepSet
        · constructor
          · intro hfalse
            simp [hb] at hfalse
          · intro hall
            exact absurd hb (by simpa using hall.2 b rfl)
        · constructor
          · intro _
            refine ⟨hne, ?_⟩
            intro b2 hb2
            injection hb2 with hb2
            rw [← hb2]
            simpa using hb
          · intro _
            simpa using hb

theorem separator_comma_iff_witness :
    ([65] : List Nat) ≠ []
    ∧ ((addKey ⟨[48], []⟩ [107]).buf
        = [48] ++ (if commaNeeded [48] then [44] else [])
            ++ jsonEncodeString [107] ++ [58]
       ∧ (appendFormatted ⟨[48], []⟩ [65]).buf
        = [48] ++ (if commaNeeded [48] then [44] else []) ++ [65]
       ∧ (commaNeeded [48] = true
           ↔ ([48] : List Nat) ≠ []
              ∧ ∀ b, ([48] : List Nat).getLast? = some b
                  → sepSet.contains b = false)) :=
  ⟨by decide, separator_comma_iff ⟨[48], []⟩ [107] [65] (by decide)⟩

/-! ## Value model

`slog.Value` is a tagged union; the encoder dispatches on its kind
(`addValue`, `src/unnamed/part_017` lines 154-175) and, for `KindAny`, on
the dynamic type (`addAny`, lines 177-361).  Values are modelled by the
kinds and `addAny` arms the claims exercise; the omitted slice arms
(`[]int`, `[]bool`, ...) are structurally identical to the modelled
`[]string` / `[]float64` arms. -/

/-- A Go `float64` as seen by `strconv.AppendFloat(buf, f, 102, -1, 64)`:
either finite — carrying the digits of the shortest decimal rendering in
fixed-point form — or one of the three non-finite values. -/
inductive GoFloat where
  | finite (neg : Bool) (ip : Nat) (frac : List (Fin 10))
  | nan
  | posInf
  | negInf
  deriving Repr, DecidableEq

/-- Output of `strconv.AppendFloat(buf, f, 102, -1, 64)` (`addFloat64`,
`src/unnamed/part_017` lines 674-676): fixed-point decimal for finite
values, and the strings `NaN`, `+Inf`, `-Inf` otherwise. -/
def strconvFloat : GoFloat → List Nat
  | .finite neg ip frac =>
      (if neg then [45] else []) ++ natToDecimal ip
        ++ (if frac = [] then [] else 46 :: frac.map (fun d => 48 + d.val))
  | .nan => [78, 97, 78]
  | .posInf => [43, 73, 110, 102]
  | .negInf => [45, 73, 110, 102]

/-- A non-zero `time.Time`, by its calendar fields (year, month, day,
hour, minute, second, nanosecond, and the UTC-offset minutes). -/
structure GoTime where
  y : Nat
  mo : Nat
  d : Nat
  h : Nat
  mi : Nat
  s : Nat
  ns : Nat
  tzMin : Int
  deriving Repr, DecidableEq

/-- Left-pad a decimal rendering with zeros to width `w`. -/
def padDec (w n : Nat) : List Nat :=
  let s := natToDecimal n
  List.replicate (w - s.length) 48 ++ s

/-- Drop trailing `0` digits (the `.999`-style fraction of a Go time
layout trims trailing zeros). -/
def dropTrailingZeros (l : List Nat) : List Nat :=
  (l.reverse.dropWhile (fun b => b = 48)).reverse

/-- Fraction part of a Go time layout with `digits` fractional digits,
trailing zeros removed, empty when the fraction is zero. -/
def timeFrac (digits value : Nat) : List Nat :=
  if value = 0 then [] else 46 :: dropTrailingZeros (padDec digits value)

/-- Timezone suffix `Z07:00`: `Z` for UTC, otherwise a signed `hh:mm`. -/
def timeZoneSuffix (tzMin : Int) : List Nat :=
  if tzMin = 0 then [90]
  else (if tzMin < 0 then [45] else [43])
    ++ padDec 2 (tzMin.natAbs / 60) ++ [58] ++ padDec 2 (tzMin.natAbs % 60)

/-- Model of `t.AppendFormat(buf, RFC3339Milli)` — the default
`TimeFormatter` of `src/handler.go` (layout
`2006-01-02T15:04:05.999Z07:00`, millisecond precision). -/
def rfc3339Milli (t : GoTime) : List Nat :=
  padDec 4 t.y ++ [45] ++ padDec 2 t.mo ++ [45] ++ padDec 2 t.d ++ [84]
    ++ padDec 2 t.h ++ [58] ++ padDec 2 t.mi ++ [58] ++ padDec 2 t.s
    ++ timeFrac 3 (t.ns / 1000000) ++ timeZoneSuffix t.tzMin

/-- Model of `t.AppendFormat(buf, time.RFC3339Nano)` (`addTime`,
`src/unnamed/part_017` lines 682-686). -/
def rfc3339Nano (t : GoTime) : List Nat :=
  padDec 4 t.y ++ [45] ++ padDec 2 t.mo ++ [45] ++ padDec 2 t.d ++ [84]
    ++ padDec 2 t.h ++ [58] ++ padDec 2 t.mi ++ [58] ++ padDec 2 t.s
    ++ timeFrac 9 t.ns ++ timeZoneSuffix t.tzMin

/-- Partial model of Go `unicode.IsPrint`, exact on the code points this
development depends on: ASCII (printable iff `0x20..0x7E`), the
replacement character U+FFFD (printable, category So), the C1 control
range and U+2028/U+2029 (not printable).  Other non-ASCII code points are
treated as printable; the round-trip theorems below do not depend on
which branch of `addBytes` such inputs take. -/
def goIsPrint (c : Nat) : Bool :=
  if c < 0x80 then decide (0x20 ≤ c ∧ c ≤ 0x7E)
  else ! decide ((0x80 ≤ c ∧ c ≤ 0x9F) ∨ c = 0x2028 ∨ c = 0x2029 ∨ c = 0xAD)

/-- The printability scan of `addBytes` (`src/unnamed/part_017` lines
392-398): `for _, r := range string(bytes)` decodes UTF-8 runes (an
invalid byte yields U+FFFD) and requires `unicode.IsPrint` of each. -/
def bytesPrintableGo : Nat → List Nat → Bool
  | _, [] => true
  | 0, _ :: _ => true
  | fuel + 1, b :: bs =>
    if b < 0x80 then goIsPrint b && bytesPrintableGo fuel bs
    else
      let cn := utf8DecodeFirst (b :: bs)
      goIsPrint cn.1 && bytesPrintableGo fuel (bs.drop (cn.2 - 1))

def bytesPrintable (l : List Nat) : Bool := bytesPrintableGo l.length l

/-- Character of the standard base64 alphabet. -/
def b64Char (n : Nat) : Nat :=
  if n < 26 then 65 + n
  else if n < 52 then 97 + (n - 26)
  else if n < 62 then 48 + (n - 52)
  else if n = 62 then 43
  else 47

/-- `base64.StdEncoding.Encode`: 3-byte groups to 4 characters, with
`=` padding for a 1- or 2-byte tail. -/
def base64Encode : List Nat → List Nat
  | [] => []
  | [b1] => [b64Char (b1 / 4), b64Char (b1 % 4 * 16), 61, 61]
  | [b1, b2] =>
      [b64Char (b1 / 4), b64Char (b1 % 4 * 16 + b2 / 16), b64Char (b2 % 16 * 4), 61]
  | b1 :: b2 :: b3 :: rest =>
      [b64Char (b1 / 4), b64Char (b1 % 4 * 16 + b2 / 16),
       b64Char (b2 % 16 * 4 + b3 / 64), b64Char (b3 % 64)] ++ base64Encode rest

example : base64Encode [0, 1, 2, 3, 52] = [65, 65, 69, 67, 65, 122, 81, 61] := by decide

/-- `addBytes` (`src/unnamed/part_017` lines 386-410): empty input becomes
the raw empty string `""`; an all-printable byte slice is emitted through
`safeAddString`; anything else is emitted as standard base64 inside
quotes (the Go code base64-encodes in place via `Grow`/`Truncate`; the
bytes produced are exactly quote, base64, quote). -/
def addBytes (bs : List Nat) : List Nat :=
  if bs = [] then [34, 34]
  else if bytesPrintable bs then jsonEncodeString bs
  else 34 :: base64Encode bs ++ [34]

/-- Result of a custom `MarshalJSON` call, together with the recorded
verdict of the Go stdlib `json.Valid` on the returned bytes (the stdlib
function is treated as an oracle; claims needing its accuracy carry the
corresponding hypothesis). -/
structure MarshalResult where
  data : List Nat
  valid : Bool
  deriving Repr, DecidableEq

mutual
/-- The `addAny` arms modelled (`src/unnamed/part_017` lines 177-361). -/
inductive GoAny where
  /-- An untyped `nil` interface: falls to the reflective default arm,
  which renders `null`. -/
  | untypedNil : GoAny
  /-- A typed nil pointer: every pointer arm checks nil and renders
  `null` (also a nil `json.Marshaler` / `TextMarshaler`). -/
  | nilPtr : GoAny
  /-- `[]byte`. -/
  | bytes (bs : List Nat) : GoAny
  /-- `json.Marshaler`: error message, or data plus `json.Valid` verdict. -/
  | jsonMarshaler (res : Except (List Nat) MarshalResult) : GoAny
  /-- `encoding.TextMarshaler`: error message or text. -/
  | textMarshaler (res : Except (List Nat) (List Nat)) : GoAny
  /-- `error`: its message. -/
  | err (msg : List Nat) : GoAny
  /-- `[]string` (`none` = nil slice). -/
  | strArr (xs : Option StrList) : GoAny
  /-- `[]float64` (`none` = nil slice). -/
  | floatArr (xs : Option FloatList) : GoAny
  /-- Default arm: reflective `json.Encoder.Encode` — error message, or
  the marshalled bytes (newline already stripped by `ioWriter`). -/
  | reflected (res : Except (List Nat) (List Nat)) : GoAny

inductive StrList where
  | nil : StrList
  | cons (s : List Nat) (rest : StrList) : StrList

inductive FloatList where
  | nil : FloatList
  | cons (f : GoFloat) (rest : FloatList) : FloatList

/-- `slog.Value` kinds (`addValue` dispatch, lines 154-175). -/
inductive GoVal where
  | str (s : List Nat) : GoVal
  | int (i : Int) : GoVal
  | uint (n : Nat) : GoVal
  | bool (b : Bool) : GoVal
  | float (f : GoFloat) : GoVal
  | duration (d : Int) : GoVal
  | time (t : GoTime) : GoVal
  | group (attrs : AttrList) : GoVal
  | any (a : GoAny) : GoVal

/-- `slog.Attr`: key and value. -/
inductive Attr where
  | mk (key : List Nat) (value : GoVal) : Attr

/-- Attribute list (part of the mutual inductive so that the encoder can
recurse structurally through nested groups). -/
inductive AttrList where
  | nil : AttrList
  | cons (a : Attr) (rest : AttrList) : AttrList
end

def AttrList.isNil : AttrList → Bool
  | .nil => true
  | .cons _ _ => false

def Attr.key : Attr → List Nat
  | .mk k _ => k

def Attr.value : Attr → GoVal
  | .mk _ v => v

/-- `a.Value.Kind() == slog.KindGroup` together with the zero test: an
attr equals the zero `slog.Attr` iff its key is empty and its value is
the zero `slog.Value` (kind `KindAny` holding the untyped nil). -/
def attrIsZero : Attr → Bool
  | .mk k (.any .untypedNil) => k == []
  | _ => false

/-- The `!ERROR:` prefix used for contained marshal failures. -/
def errPrefix : List Nat := [33, 69, 82, 82, 79, 82, 58]

/-- The `!ERROR: invalid MarshalJSON output:` prefix (the `%v` of the
offending value is abstracted as the raw marshal output). -/
def errInvalidPrefix : List Nat :=
  errPrefix ++ [105, 110, 118, 97, 108, 105, 100, 32, 77, 97, 114, 115,
    104, 97, 108, 74, 83, 79, 78, 32, 111, 117, 116, 112, 117, 116, 58]

mutual
/-- Bytes appended by `addAny` for the modelled arms
(`src/unnamed/part_017` lines 177-361). -/
def addAnyBytes : GoAny → List Nat
  | .untypedNil => [110, 117, 108, 108]
  | .nilPtr => [110, 117, 108, 108]
  | .bytes bs => addBytes bs
  | .jsonMarshaler (.error e) => jsonEncodeString (errPrefix ++ e)
  | .jsonMarshaler (.ok r) =>
      if r.valid then r.data
      else jsonEncodeString (errInvalidPrefix ++ r.data)
  | .textMarshaler (.error e) => jsonEncodeString (errPrefix ++ e)
  | .textMarshaler (.ok data) => jsonEncodeString data
  | .err msg => jsonEncodeString msg
  | .strArr none => [110, 117, 108, 108]
  | .strArr (some xs) => 91 :: strArrBody true xs ++ [93]
  | .floatArr none => [110, 117, 108, 108]
  | .floatArr (some xs) => 91 :: floatArrBody true xs ++ [93]
  | .reflected (.error e) => jsonEncodeString (errPrefix ++ e)
  | .reflected (.ok data) => data

/-- `addStringArray` loop body (lines 412-425). -/
def strArrBody (first : Bool) : StrList → List Nat
  | .nil => []
  | .cons s rest =>
      (if first then [] else [44]) ++ jsonEncodeString s ++ strArrBody false rest

/-- `addFloat64Array` loop body (lines 592-605). -/
def floatArrBody (first : Bool) : FloatList → List Nat
  | .nil => []
  | .cons f rest =>
      (if first then [] else [44]) ++ strconvFloat f ++ floatArrBody false rest
end

/-- Bytes appended by `addValue` (`src/unnamed/part_017` lines 154-175)
for a non-group value.  The group arm is unreachable: `AppendAttr`
handles `KindGroup` before calling `addValue` (the Go code panics on it),
so it is mapped to the empty emission. -/
def addValueBytes : GoVal → List Nat
  | .any a => addAnyBytes a
  | .bool b => if b then [116, 114, 117, 101] else [102, 97, 108, 115, 101]
  | .duration d => intToDecimal d
  | .float f => strconvFloat f
  | .int i => intToDecimal i
  | .str s => jsonEncodeString s
  | .time t => 34 :: rfc3339Nano t ++ [34]
  | .uint n => natToDecimal n
  | .group _ => []

mutual
/-- `AppendAttr` (`src/unnamed/part_017` lines 34-67) with the modelled
configuration `ReplaceAttr == nil` (so the rewrite block at lines 35-42
is skipped).  A zero attr is dropped; a group is inlined when its key is
empty, dropped when it has no children, and otherwise wrapped in
`OpenGroup`/`CloseGroup`; any other kind becomes `addKey` + `addValue`. -/
def appendAttr (st : EncSt) (a : Attr) : EncSt :=
  if attrIsZero a then st
  else
    match a with
    | .mk key (.group groupAttrs) =>
        let ne := !groupAttrs.isNil && !(key == [])
        let st1 := if ne then openGroup st key else st
        let st2 := appendAttrs st1 groupAttrs
        if ne then closeGroup st2 else st2
    | .mk key v =>
        let st1 := addKey st key
        { st1 with buf := st1.buf ++ addValueBytes v }

/-- The `for i := range groupAttrs` loop of `AppendAttr` and the
per-record attribute iteration of `Handle`. -/
def appendAttrs (st : EncSt) : AttrList → EncSt
  | .nil => st
  | .cons a rest => appendAttrs (appendAttr st a) rest
end

/-- The configuration fields of `Config` (`src/handler.go` lines 34-72)
the encoder claims refer to, with the defaults of `defaultConfig`
(lines 86-104). -/
structure Config where
  addSource : Bool := false
  level : Int := 0
  development : Bool := false
  timeDurationAsInt : Bool := false
  ignoreEmptyGroup : Bool := false
  stacktraceEnabled : Bool := false
  stacktraceLevel : Int := 8
  timeKey : List Nat := [116, 105, 109, 101]
  levelKey : List Nat := [108, 101, 118, 101, 108]
  messageKey : List Nat := [109, 115, 103]
  sourceKey : List Nat := [115, 111, 117, 114, 99, 101]
  deriving Repr, DecidableEq

/-- A `slog.Record` as consumed by `Handle`:  `time = none` models the
zero `r.Time`; the call-site PC is taken as 0 (not captured), so the
source and stacktrace fields — whose rendering walks the Go runtime —
are skipped by `encode` regardless of configuration. -/
structure Record where
  time : Option GoTime := none
  level : Int := 0
  message : List Nat := []
  attrs : AttrList := .nil

/-- `AppendTime` (`src/unnamed/part_017` lines 69-87) with
`ReplaceAttr == nil`: key, then the configured time formatter (default
RFC3339Milli) between quotes. -/
def appendTime (st : EncSt) (key : List Nat) (t : GoTime) : EncSt :=
  let st1 := addKey st key
  { st1 with buf := st1.buf ++ 34 :: rfc3339Milli t ++ [34] }

/-- `AppendLevel` (lines 89-96) with `ReplaceAttr == nil`: key, then the
level string between raw quotes (`addString`, not `safeAddString`). -/
def appendLevel (st : EncSt) (key : List Nat) (l : Int) : EncSt :=
  let st1 := addKey st key
  { st1 with buf := st1.buf ++ 34 :: levelString l ++ [34] }

/-- Modelled from the spec: `AppendMessage` is called by
`src/handler.go` line 288 but its body is not among the source files
(the sibling `AppendString`, lines 98-105, and the spec §6 JSON-mode
example `"msg":"hello"` fix its behaviour): key, then the escaped
message string. -/
def appendMessage (st : EncSt) (key : List Nat) (msg : List Nat) : EncSt :=
  let st1 := addKey st key
  { st1 with buf := st1.buf ++ jsonEncodeString msg }

/-- `encode` (`src/handler.go` lines 272-308) for a record with PC 0:
open brace, time (skipped when zero), level, message, preformatted
span, context attributes, record attributes, `CloseGroups`, close brace,
newline.  `pre`/`groups` are the handler's `preformattedGroupAttrs` and
`groups` fields, `ctxAttrs` the attributes produced by the context
extractors. -/
def encode (c : Config) (pre : List Nat) (groups : List (List Nat))
    (ctxAttrs : AttrList) (r : Record) : List Nat :=
  let st0 : EncSt := ⟨[123], groups⟩
  let st1 := match r.time with
    | none => st0
    | some t => appendTime st0 c.timeKey t
  let st2 := appendLevel st1 c.levelKey r.level
  let st3 := appendMessage st2 c.messageKey r.message
  let st4 := appendFormatted st3 pre
  let st5 := appendAttrs st4 ctxAttrs
  let st6 := appendAttrs st5 r.attrs
  let st7 := closeGroups st6
  st7.buf ++ [125, 10]

-- The spec §8 concrete scenario: encoding {level=INFO, msg="hello world",
-- attrs={"progress":95}} with default config yields exactly
-- {"level":"INFO","msg":"hello world","progress":95}\n.
example :
    encode {} [] [] .nil
      { level := 0,
        message := [104, 101, 108, 108, 111, 32, 119, 111, 114, 108, 100],
        attrs := .cons (.mk [112, 114, 111, 103, 114, 101, 115, 115] (.int 95)) .nil }
    = [123, 34, 108, 101, 118, 101, 108, 34, 58, 34, 73, 78, 70, 79, 34, 44,
       34, 109, 115, 103, 34, 58, 34, 104, 101, 108, 108, 111, 32, 119, 111,
       114, 108, 100, 34, 44, 34, 112, 114, 111, 103, 114, 101, 115, 115, 34,
       58, 57, 53, 125, 10] := by decide

/-! ## Claim C4: empty groups -/

theorem appendAttr_emptyGroup (st : EncSt) (k : List Nat) :
    appendAttr st (.mk k (.group .nil)) = st := by
  simp [appendAttr, attrIsZero, appendAttrs, AttrList.isNil]

/-- C4 (amended): a group attribute with zero child attributes is dropped
by the JSON-mode encoder for every configuration — the
`IgnoreEmptyGroup` field is not consulted (`AppendAttr`,
`src/unnamed/part_017` lines 48-63, tests only `len(groupAttrs) != 0`);
in particular it is never emitted as `{}`. -/
theorem emptyGroup_always_dropped (c : Config) (pre : List Nat)
    (groups : List (List Nat)) (ctx : AttrList) (r : Record) (k : List Nat) :
    encode c pre groups ctx
      { r with attrs := .cons (.mk k (.group .nil)) r.attrs }
    = encode c pre groups ctx r := by
  unfold encode
  simp only [appendAttrs, appendAttr_emptyGroup]

/-- C4 counterexample: with the ignore-empty-group policy disabled and a
non-empty key `g`, the encoder drops the empty group instead of emitting
`"g":{}` — the encoded line is exactly the line without the attribute,
and differs from the line the claim predicts. -/
theorem emptyGroup_not_emitted_when_policy_disabled :
    encode { ignoreEmptyGroup := false } [] [] .nil
      { level := 0, message := [109],
        attrs := .cons (.mk [103] (.group .nil)) .nil }
      = [123, 34, 108, 101, 118, 101, 108, 34, 58, 34, 73, 78, 70, 79, 34,
         44, 34, 109, 115, 103, 34, 58, 34, 109, 34, 125, 10]
    ∧ ([123, 34, 108, 101, 118, 101, 108, 34, 58, 34, 73, 78, 70, 79, 34,
        44, 34, 109, 115, 103, 34, 58, 34, 109, 34, 125, 10] : List Nat)
      ≠ [123, 34, 108, 101, 118, 101, 108, 34, 58, 34, 73, 78, 70, 79, 34,
         44, 34, 109, 115, 103, 34, 58, 34, 109, 34, 44, 34, 103, 34, 58,
         123, 125, 125, 10] := by
  constructor
  · decide
  · decide

/-! ## Claim C5: durations -/

/-- C5: `addDuration` (`src/unnamed/part_017` lines 678-680) always
appends the raw integer nanosecond count; the `TimeDurationAsInt`
configuration flag (documented in `src/handler.go` lines 49-50 as
switching to `time.Duration.String` formatting) is never consulted —
the encoded line for a 30m10s duration is byte-identical under both flag
values and shows `1810000000000`, not `30m10s`. -/
theorem addDuration_ignores_TimeDurationAsInt :
    (∀ b : Bool,
      encode { timeDurationAsInt := b } [] [] .nil
        { level := 0, message := [],
          attrs := .cons (.mk [100] (.duration 1810000000000)) .nil }
      = [123, 34, 108, 101, 118, 101, 108, 34, 58, 34, 73, 78, 70, 79, 34,
         44, 34, 109, 115, 103, 34, 58, 34, 34, 44, 34, 100, 34, 58,
         49, 56, 49, 48, 48, 48, 48, 48, 48, 48, 48, 48, 48, 125, 10])
    ∧ addValueBytes (.duration 1810000000000) = intToDecimal 1810000000000
    ∧ intToDecimal 1810000000000 ≠ [51, 48, 109, 49, 48, 115] := by
  refine ⟨?_, rfl, by decide⟩
  intro b
  cases b <;> decide

/-! ## Claim C10: level colors -/

/-- ANSI reset escape `\033[0m` (`src/encode_level.go` line 20). -/
def resetEsc : List Nat := [27, 91, 48, 109]

/-- An entry of the level-color table: threshold level plus ANSI escape
(`lvlEscape`, `src/encode_level.go` lines 23-26). -/
structure LvlEscape where
  level : Int
  esc : List Nat
  deriving Repr, DecidableEq

/-- The loop of `formatColorLevelValue` (`src/encode_level.go` lines
36-41): `for _, mode = range levelColorList { if l >= mode.Level break }`
— Go leaves `mode` holding the first entry whose threshold is at or
below `l`, or the last assigned entry when no entry matches, or the zero
`lvlEscape` on an empty table. -/
def scanMode : List LvlEscape → Int → LvlEscape
  | [], _ => ⟨0, []⟩
  | m :: rest, l =>
      if l ≥ m.level then m
      else
        match rest with
        | [] => m
        | _ :: _ => scanMode rest l

/-- `formatColorLevelValue` (`src/encode_level.go` lines 35-45). -/
def formatColorLevelValue (list : List LvlEscape) (l : Int) : List Nat :=
  (scanMode list l).esc ++ levelString l ++ resetEsc

/-- The table installed by `UseDefaultLevelColors`
(`src/encode_level.go` lines 48-55): descending thresholds
ERROR/red, WARN/yellow, INFO/blue, DEBUG/magenta. -/
def defaultLevelColorList : List LvlEscape :=
  [⟨8, [27, 91, 51, 49, 109]⟩, ⟨4, [27, 91, 51, 51, 109]⟩,
   ⟨0, [27, 91, 51, 52, 109]⟩, ⟨-4, [27, 91, 51, 53, 109]⟩]

/-- C10: when the record level is strictly below every threshold in the
level-color table, the descending scan falls through to the table's last
(lowest-threshold) entry, whose ANSI escape still wraps the level name —
the level is not emitted uncolored. -/
theorem scanMode_below_all (l : Int) :
    ∀ (list : List LvlEscape) (hne : list ≠ []),
      (∀ m ∈ list, l < m.level) → scanMode list l = list.getLast hne := by
  intro list
  induction list with
  | nil => intro h; exact absurd rfl h
  | cons m rest ih =>
      intro hne hbelow
      have hm : l < m.level := hbelow m (by simp)
      cases rest with
      | nil => simp [scanMode, not_le.mpr hm]
      | cons m2 rest2 =>
          have hrec := ih (by simp) (fun x hx => hbelow x (by simp [hx]))
          have step : scanMode (m :: m2 :: rest2) l = scanMode (m2 :: rest2) l := by
            simp only [scanMode, ge_iff_le]
            rw [if_neg (not_le.mpr hm)]
          rw [step, hrec]
          exact (List.getLast_cons (by simp)).symm

theorem formatColorLevelValue_below_all (list : List LvlEscape) (l : Int)
    (hne : list ≠ []) (hbelow : ∀ m ∈ list, l < m.level) :
    formatColorLevelValue list l
      = (list.getLast hne).esc ++ levelString l ++ resetEsc := by
  unfold formatColorLevelValue
  rw [scanMode_below_all l list hne hbelow]

theorem formatColorLevelValue_below_all_witness :
    defaultLevelColorList ≠ []
    ∧ (∀ m ∈ defaultLevelColorList, (-5 : Int) < m.level)
    ∧ formatColorLevelValue defaultLevelColorList (-5)
        = (defaultLevelColorList.getLast (by decide)).esc
            ++ levelString (-5) ++ resetEsc :=
  ⟨by decide, by decide,
   formatColorLevelValue_below_all defaultLevelColorList (-5) (by decide) (by decide)⟩

/-! ## Claim C3: handler derivation is copy-on-write

Go slices share mutable backing arrays, so the non-mutation claim is
stated over an explicit store: a `World` maps backing-array ids to
contents, a `GoSlice` is a view (id, length, capacity).  `append` writes
in place when capacity allows and otherwise allocates a fresh array —
exactly Go's semantics; `slices.Clip` shrinks capacity to length so any
later append through the clipped view must reallocate. -/

structure GoSlice where
  id : Nat
  len : Nat
  cap : Nat
  deriving Repr, DecidableEq

structure World (α : Type) where
  mem : Nat → List α
  next : Nat

/-- The elements visible through a slice view. -/
def readSlice {α : Type} (w : World α) (s : GoSlice) : List α :=
  (w.mem s.id).take s.len

/-- Go `append`: within capacity it overwrites the backing array beyond
the view's length; beyond capacity it copies into a fresh array. -/
def appendSlice {α : Type} (w : World α) (s : GoSlice) (bs : List α) :
    World α × GoSlice :=
  if s.len + bs.length ≤ s.cap then
    (⟨fun i => if i = s.id
        then (w.mem s.id).take s.len ++ bs ++ (w.mem s.id).drop (s.len + bs.length)
        else w.mem i, w.next⟩,
     ⟨s.id, s.len + bs.length, s.cap⟩)
  else
    (⟨fun i => if i = w.next then (w.mem s.id).take s.len ++ bs else w.mem i,
      w.next + 1⟩,
     ⟨w.next, s.len + bs.length, s.len + bs.length⟩)

/-- `slices.Clip`: capacity reduced to length. -/
def clip (s : GoSlice) : GoSlice := ⟨s.id, s.len, s.len⟩

/-- The two stores a handler's slices live in: group-name arrays
(`[]string`) and preformatted-byte arrays (`[]byte`). -/
structure HWorld where
  gw : World (List Nat)
  bw : World Nat

/-- `JSONHandler` (`src/handler.go` lines 21-28): configuration, group
stack and preformatted attribute bytes (the latter two as slice views). -/
structure JSONHandler where
  c : Config
  groups : GoSlice
  pre : GoSlice

/-- `clone` (`src/handler.go` lines 345-354): the config struct is
copied by value (`c.copy`), and both slices are `slices.Clip`-ped. -/
def cloneH (h : JSONHandler) : JSONHandler := ⟨h.c, clip h.groups, clip h.pre⟩

/-- `WithAttrs` (`src/handler.go` lines 312-326): unchanged handler for an
empty attr list, otherwise clone plus `addAttrs`, which runs the JSON
encoder over the clone's preformatted bytes (with the handler's groups as
the encoder's open-group stack) and appends the newly produced bytes. -/
def withAttrs (w : HWorld) (h : JSONHandler) (attrs : AttrList) :
    HWorld × JSONHandler :=
  if attrs.isNil then (w, h)
  else
    let nh := cloneH h
    let newBuf := (appendAttrs ⟨readSlice w.bw nh.pre, readSlice w.gw nh.groups⟩ attrs).buf
    let appended := newBuf.drop nh.pre.len
    let r := appendSlice w.bw nh.pre appended
    (⟨w.gw, r.1⟩, ⟨nh.c, nh.groups, r.2⟩)

/-- `WithGroup` (`src/handler.go` lines 330-343): clone; for a non-empty
name, `addGroup` runs `OpenGroup` on the clone's preformatted bytes and
appends the name to the group stack. -/
def withGroup (w : HWorld) (h : JSONHandler) (name : List Nat) :
    HWorld × JSONHandler :=
  let nh := cloneH h
  if name = [] then (w, nh)
  else
    let newBuf := (openGroup ⟨readSlice w.bw nh.pre, readSlice w.gw nh.groups⟩ name).buf
    let appended := newBuf.drop nh.pre.len
    let rb := appendSlice w.bw nh.pre appended
    let rg := appendSlice w.gw nh.groups [name]
    (⟨rg.1, rb.1⟩, ⟨nh.c, rg.2, rb.2⟩)

/-- `WithOptions` (`src/handler.go` lines 166-173): clone, then apply each
option to the clone's config copy. -/
def withOptions (w : HWorld) (h : JSONHandler) (opts : List (Config → Config)) :
    HWorld × JSONHandler :=
  let nh := cloneH h
  (w, ⟨opts.foldl (fun c o => o c) nh.c, nh.groups, nh.pre⟩)

/-- A slice view is well-formed in a world: within its backing array, and
its backing id already allocated. -/
def sliceWF {α : Type} (w : World α) (s : GoSlice) : Prop :=
  s.len ≤ (w.mem s.id).length ∧ s.id < w.next

theorem readSlice_appendSlice_same {α : Type} (w : World α) (s : GoSlice)
    (bs : List α) (t : GoSlice) (hid : t.id = s.id) (hlen : t.len = s.len)
    (hwf : sliceWF w s) :
    readSlice (appendSlice w s bs).1 t = readSlice w t := by
  obtain ⟨hle, hlt⟩ := hwf
  unfold appendSlice readSlice
  by_cases hc : s.len + bs.length ≤ s.cap
  · rw [if_pos hc]
    simp only [hid, hlen, eq_self_iff_true, if_true]
    have hlen2 : s.len ≤ ((w.mem s.id).take s.len).length := by
      simp [List.length_take, hle]
    rw [List.append_assoc, List.take_append_of_le_length hlen2, List.take_take]
    simp
  · have hne : s.id ≠ w.next := Nat.ne_of_lt hlt
    rw [if_neg hc]
    simp only [hid, hlen]
    rw [if_neg hne]

theorem readSlice_appendSlice_other {α : Type} (w : World α) (s : GoSlice)
    (bs : List α) (t : GoSlice) (hid : t.id ≠ s.id) (htn : t.id < w.next) :
    readSlice (appendSlice w s bs).1 t = readSlice w t := by
  unfold appendSlice readSlice
  by_cases hc : s.len + bs.length ≤ s.cap
  · simp only [if_pos hc, if_neg hid]
  · simp only [if_neg hc, if_neg (Nat.ne_of_lt htn)]

/-- Appending through a clipped view always reallocates: the result lives
in the fresh array `w.next`, never in the parent's backing array. -/
theorem appendSlice_clipped_fresh {α : Type} (w : World α) (s : GoSlice)
    (bs : List α) (hclip : s.cap = s.len) (hbs : bs ≠ []) :
    (appendSlice w s bs).2.id = w.next
    ∧ (appendSlice w s bs).1.next = w.next + 1 := by
  have hlen : 0 < bs.length := List.length_pos.mpr hbs
  have hc : ¬ s.len + bs.length ≤ s.cap := by omega
  unfold appendSlice
  rw [if_neg hc]
  exact ⟨rfl, rfl⟩

/-- C3: deriving a handler via `WithAttrs`, `WithGroup` or `WithOptions`
leaves the parent's observable state — its configuration value, the
bytes visible through its group stack and through its preformatted span —
exactly as before; the clone used by every derivation copies the config
by value and length-clips both slices, so any non-empty append through a
derived handler's clipped view lands in a freshly allocated backing
array, never in the parent's. -/
theorem derivation_preserves_parent (w : HWorld) (h : JSONHandler)
    (attrs : AttrList) (name : List Nat) (opts : List (Config → Config))
    (hwfp : sliceWF w.bw h.pre) (hwfg : sliceWF w.gw h.groups) :
    (readSlice (withAttrs w h attrs).1.bw h.pre = readSlice w.bw h.pre
      ∧ readSlice (withAttrs w h attrs).1.gw h.groups = readSlice w.gw h.groups)
    ∧ (readSlice (withGroup w h name).1.bw h.pre = readSlice w.bw h.pre
      ∧ readSlice (withGroup w h name).1.gw h.groups = readSlice w.gw h.groups)
    ∧ (withOptions w h opts).1 = w
    ∧ ((cloneH h).c = h.c
      ∧ readSlice w.bw (cloneH h).pre = readSlice w.bw h.pre
      ∧ readSlice w.gw (cloneH h).groups = readSlice w.gw h.groups
      ∧ (cloneH h).pre.cap = (cloneH h).pre.len
      ∧ (cloneH h).groups.cap = (cloneH h).groups.len)
    ∧ (∀ (wb : World Nat) (s : GoSlice) (bs : List Nat),
        s.cap = s.len → bs ≠ [] → (appendSlice wb s bs).2.id = wb.next) := by
  refine ⟨⟨?_, ?_⟩, ⟨?_, ?_⟩, rfl, ⟨rfl, rfl, rfl, rfl, rfl⟩, ?_⟩
  · unfold withAttrs
    by_cases hn : attrs.isNil
    · simp [hn]
    · simp only [hn, Bool.false_eq_true, if_neg, ite_false]
      exact readSlice_appendSlice_same w.bw (clip h.pre) _ h.pre rfl rfl hwfp
  · unfold withAttrs
    by_cases hn : attrs.isNil
    · simp [hn]
    · simp only [hn, Bool.false_eq_true, if_neg, ite_false]
  · unfold withGroup
    by_cases hn : name = []
    · simp [hn]
    · simp only [if_neg hn]
      exact readSlice_appendSlice_same w.bw (clip h.pre) _ h.pre rfl rfl hwfp
  · unfold withGroup
    by_cases hn : name = []
    · simp [hn]
    · simp only [if_neg hn]
      exact readSlice_appendSlice_same w.gw (clip h.groups) _ h.groups rfl rfl hwfg
  · intro wb s bs hclip hbs
    exact (appendSlice_clipped_fresh wb s bs hclip hbs).1

theorem derivation_preserves_parent_witness :
    (sliceWF (World.mk (fun _ => ([] : List Nat)) 1) (GoSlice.mk 0 0 0)
      ∧ sliceWF (World.mk (fun _ => ([] : List (List Nat))) 1) (GoSlice.mk 0 0 0))
    ∧ (let w : HWorld := ⟨⟨fun _ => [], 1⟩, ⟨fun _ => [], 1⟩⟩
       let h : JSONHandler := ⟨{}, ⟨0, 0, 0⟩, ⟨0, 0, 0⟩⟩
       readSlice (withAttrs w h (.cons (.mk [97] (.bool true)) .nil)).1.bw h.pre
         = readSlice w.bw h.pre) := by
  constructor
  · exact ⟨⟨Nat.zero_le _, Nat.one_pos⟩, ⟨Nat.zero_le _, Nat.one_pos⟩⟩
  · exact (derivation_preserves_parent ⟨⟨fun _ => [], 1⟩, ⟨fun _ => [], 1⟩⟩
      ⟨{}, ⟨0, 0, 0⟩, ⟨0, 0, 0⟩⟩ (.cons (.mk [97] (.bool true)) .nil) [103] []
      ⟨Nat.zero_le _, Nat.one_pos⟩ ⟨Nat.zero_le _, Nat.one_pos⟩).1.1

/-! ## Claim C2: byte-slice round-trip

`addBytes` routes an all-printable slice through `safeAddString` and any
other slice through base64.  The claim is about decoding the emitted JSON
string back; the decoders below model what a JSON consumer (e.g. Go
`encoding/json` for a string value, `base64.StdEncoding` for the base64
text) produces. -/

/-- Fuel-indexed worker for `validUtf8`. -/
def validUtf8Go : Nat → List Nat → Bool
  | _, [] => true
  | 0, _ :: _ => false
  | fuel + 1, b :: bs =>
    if b < 0x80 then validUtf8Go fuel bs
    else
      let cn := utf8DecodeFirst (b :: bs)
      if cn.2 ≤ 1 then false
      else validUtf8Go fuel (bs.drop (cn.2 - 1))

/-- Go `utf8.Valid`: every rune decodes, i.e. `DecodeRune` never reports
the `(RuneError, 1)` invalid-encoding result. -/
def validUtf8 (l : List Nat) : Bool := validUtf8Go l.length l

example : validUtf8 [0xE2, 0x80, 0xA8] = true := by decide
example : validUtf8 [0xFF] = false := by decide

/-- Value of a hexadecimal digit character. -/
def hexVal (b : Nat) : Option Nat :=
  if 48 ≤ b ∧ b ≤ 57 then some (b - 48)
  else if 97 ≤ b ∧ b ≤ 102 then some (b - 87)
  else if 65 ≤ b ∧ b ≤ 70 then some (b - 55)
  else none

/-- Code point of a `\uXXXX` escape's four hex digits. -/
def decodeUEscape (h1 h2 h3 h4 : Nat) : Option Nat :=
  match hexVal h1, hexVal h2, hexVal h3, hexVal h4 with
  | some a, some b, some c, some d => some (a * 4096 + b * 256 + c * 16 + d)
  | _, _, _, _ => none

/-- JSON string-body decoder: expands the standard escapes (including
`\uXXXX`) and passes other non-control bytes through, producing the
UTF-8 bytes of the decoded string.  Surrogate escapes are rejected: the
escaping engine only ever emits `\u00XX`, `\u202X` and `�`, so they
never arise from `addBytes` output. -/
def jsonDecodeBody : List Nat → Option (List Nat)
  | [] => some []
  | b :: rest =>
    if b = 92 then
      match rest with
      | [] => none
      | e :: t =>
        if e = 34 then (jsonDecodeBody t).map (fun r => 34 :: r)
        else if e = 92 then (jsonDecodeBody t).map (fun r => 92 :: r)
        else if e = 47 then (jsonDecodeBody t).map (fun r => 47 :: r)
        else if e = 98 then (jsonDecodeBody t).map (fun r => 8 :: r)
        else if e = 102 then (jsonDecodeBody t).map (fun r => 12 :: r)
        else if e = 110 then (jsonDecodeBody t).map (fun r => 10 :: r)
        else if e = 114 then (jsonDecodeBody t).map (fun r => 13 :: r)
        else if e = 116 then (jsonDecodeBody t).map (fun r => 9 :: r)
        else if e = 117 then
          match t with
          | h1 :: h2 :: h3 :: h4 :: t2 =>
            (match decodeUEscape h1 h2 h3 h4 with
            | some cp =>
              if 0xD800 ≤ cp ∧ cp < 0xE000 then none
              else (jsonDecodeBody t2).map (fun r => utf8Encode cp ++ r)
            | none => none)
          | _ => none
        else none
    else if b = 34 then none
    else if b < 0x20 then none
    else (jsonDecodeBody rest).map (fun r => b :: r)

/-- Decode a full JSON string literal (quote, body, quote). -/
def jsonStrDecode (l : List Nat) : Option (List Nat) :=
  match l with
  | b :: rest =>
      if b = 34 then
        if rest.getLast? = some 34 then jsonDecodeBody rest.dropLast else none
      else none
  | [] => none

/-- Value of a standard base64 alphabet character. -/
def b64Val (c : Nat) : Option Nat :=
  if 65 ≤ c ∧ c ≤ 90 then some (c - 65)
  else if 97 ≤ c ∧ c ≤ 122 then some (c - 71)
  else if 48 ≤ c ∧ c ≤ 57 then some (c + 4)
  else if c = 43 then some 62
  else if c = 47 then some 63
  else none

/-- `base64.StdEncoding` decoding, 4-character groups with `=` padding. -/
def base64Decode : List Nat → Option (List Nat)
  | [] => some []
  | [c1, c2, 61, 61] =>
      (match b64Val c1, b64Val c2 with
      | some v1, some v2 =>
          if v2 % 16 = 0 then some [v1 * 4 + v2 / 16] else none
      | _, _ => none)
  | [c1, c2, c3, 61] =>
      (match b64Val c1, b64Val c2, b64Val c3 with
      | some v1, some v2, some v3 =>
          if v3 % 4 = 0 then some [v1 * 4 + v2 / 16, v2 % 16 * 16 + v3 / 4]
          else none
      | _, _, _ => none)
  | c1 :: c2 :: c3 :: c4 :: rest =>
      (match b64Val c1, b64Val c2, b64Val c3, b64Val c4 with
      | some v1, some v2, some v3, some v4 =>
          (base64Decode rest).map
            (fun r => (v1 * 4 + v2 / 16) :: (v2 % 16 * 16 + v3 / 4) :: (v3 % 4 * 64 + v4) :: r)
      | _, _, _, _ => none)
  | _ => none

example : base64Decode (base64Encode [0, 1, 2, 3, 52]) = some [0, 1, 2, 3, 52] := by decide

/-- What a consumer recovers from `addBytes` output: JSON-decode the
string; when the slice was routed through base64 (not all printable),
additionally base64-decode the text. -/
def decodedBack (bs : List Nat) : Option (List Nat) :=
  if bytesPrintable bs then jsonStrDecode (addBytes bs)
  else (jsonStrDecode (addBytes bs)).bind base64Decode

example : decodedBack [116, 101, 115, 116] = some [116, 101, 115, 116] := by decide
example : decodedBack [0, 1, 2] = some [0, 1, 2] := by decide
example : decodedBack [255] = some [239, 191, 189] := by decide

theorem b64Val_b64Char (v : Nat) (hv : v < 64) : b64Val (b64Char v) = some v := by
  unfold b64Char b64Val
  split_ifs <;> simp_all <;> omega

theorem b64Char_range (n : Nat) :
    32 ≤ b64Char n ∧ b64Char n ≠ 34 ∧ b64Char n ≠ 92 ∧ b64Char n ≠ 61 := by
  unfold b64Char
  split_ifs <;> omega

theorem base64_roundtrip : ∀ (bs : List Nat), (∀ b ∈ bs, b < 256) →
    base64Decode (base64Encode bs) = some bs
  | [], _ => rfl
  | [b1], hb => by
      have h1 : b1 < 256 := hb b1 (by simp)
      simp only [base64Encode, base64Decode]
      rw [b64Val_b64Char _ (by omega), b64Val_b64Char _ (by omega)]
      simp only []
      rw [if_pos (by omega)]
      congr 2
      omega
  | [b1, b2], hb => by
      have h1 : b1 < 256 := hb b1 (by simp)
      have h2 : b2 < 256 := hb b2 (by simp)
      have hne : b64Char (b2 % 16 * 4) ≠ 61 := (b64Char_range _).2.2.2
      simp only [base64Encode]
      have hstep : base64Decode
          [b64Char (b1 / 4), b64Char (b1 % 4 * 16 + b2 / 16), b64Char (b2 % 16 * 4), 61]
          = (match b64Val (b64Char (b1 / 4)), b64Val (b64Char (b1 % 4 * 16 + b2 / 16)),
                  b64Val (b64Char (b2 % 16 * 4)) with
             | some v1, some v2, some v3 =>
                 if v3 % 4 = 0 then some [v1 * 4 + v2 / 16, v2 % 16 * 16 + v3 / 4]
                 else none
             | _, _, _ => none) := by
        simp [base64Decode, hne]
      rw [hstep, b64Val_b64Char _ (by omega), b64Val_b64Char _ (by omega),
        b64Val_b64Char _ (by omega)]
      simp only []
      rw [if_pos (by omega)]
      have e1 : b1 / 4 * 4 + b1 % 4 * 16 / 16 = b1 := by omega
      have e2 : (b1 % 4 * 16 + b2 / 16) % 16 * 16 + b2 % 16 * 4 / 4 = b2 := by omega
      have e1b : b1 / 4 * 4 + (b1 % 4 * 16 + b2 / 16) / 16 = b1 := by omega
      rw [e1b, e2]
  | b1 :: b2 :: b3 :: rest, hb => by
      have h1 : b1 < 256 := hb b1 (by simp)
      have h2 : b2 < 256 := hb b2 (by simp)
      have h3 : b3 < 256 := hb b3 (by simp)
      have ih := base64_roundtrip rest (fun b h => hb b (by simp [h]))
      have hne3 : b64Char (b2 % 16 * 4 + b3 / 64) ≠ 61 := (b64Char_range _).2.2.2
      have hne4 : b64Char (b3 % 64) ≠ 61 := (b64Char_range _).2.2.2
      simp only [base64Encode, List.cons_append, List.nil_append]
      have hstep : base64Decode
          (b64Char (b1 / 4) :: b64Char (b1 % 4 * 16 + b2 / 16)
            :: b64Char (b2 % 16 * 4 + b3 / 64) :: b64Char (b3 % 64)
            :: base64Encode rest)
          = (match b64Val (b64Char (b1 / 4)), b64Val (b64Char (b1 % 4 * 16 + b2 / 16)),
                  b64Val (b64Char (b2 % 16 * 4 + b3 / 64)), b64Val (b64Char (b3 % 64)) with
             | some v1, some v2, some v3, some v4 =>
                 (base64Decode (base64Encode rest)).map
                   (fun r => (v1 * 4 + v2 / 16) :: (v2 % 16 * 16 + v3 / 4)
                     :: (v3 % 4 * 64 + v4) :: r)
             | _, _, _, _ => none) := by
        simp [base64Decode, hne3, hne4]
      rw [hstep, b64Val_b64Char _ (by omega), b64Val_b64Char _ (by omega),
        b64Val_b64Char _ (by omega), b64Val_b64Char _ (by omega)]
      simp only [ih, Option.map_some]
      have e1 : b1 / 4 * 4 + (b1 % 4 * 16 + b2 / 16) / 16 = b1 := by omega
      have e2 : (b1 % 4 * 16 + b2 / 16) % 16 * 16 + (b2 % 16 * 4 + b3 / 64) / 4 = b2 := by
        omega
      have e3 : (b2 % 16 * 4 + b3 / 64) % 4 * 64 + b3 % 64 = b3 := by omega
      rw [e1, e2, e3]
      rfl

theorem safeSet_bytes (b : Nat) (h : safeSet b = true) :
    0x20 ≤ b ∧ b ≤ 0x7F ∧ b ≠ 34 ∧ b ≠ 92 := by
  have hall : safeSetList.all
      (fun x => decide (0x20 ≤ x ∧ x ≤ 0x7F ∧ x ≠ 34 ∧ x ≠ 92)) = true := by decide
  have hmem : b ∈ safeSetList := by
    have := h
    unfold safeSet at this
    simpa using this
  have := List.all_eq_true.mp hall b hmem
  simpa using this

theorem hexVal_hexDigit (x : Nat) (h : x < 16) : hexVal (hexDigit x) = some x := by
  unfold hexVal hexDigit
  split_ifs <;> simp_all <;> omega

theorem utf8Encode_range (c : Nat) (hc : 0x80 ≤ c) :
    ∀ b ∈ utf8Encode c, 0x20 ≤ b ∧ b ≠ 34 ∧ b ≠ 92 := by
  intro b hb
  unfold utf8Encode at hb
  split_ifs at hb with h1 h2 h3
  · omega
  · simp at hb
    rcases hb with h | h <;> omega
  · simp at hb
    rcases hb with h | h | h <;> omega
  · simp at hb
    rcases hb with h | h | h | h <;> omega

/-- For a non-ASCII leading byte, `DecodeRune` either reports the invalid
encoding `(RuneError, 1)` or decodes a rune of size at least 2. -/
theorem utf8DecodeFirst_cases (b0 : Nat) (bs : List Nat) (h : ¬ b0 < 0x80) :
    utf8DecodeFirst (b0 :: bs) = (0xFFFD, 1)
    ∨ 2 ≤ (utf8DecodeFirst (b0 :: bs)).2 := by
  simp only [utf8DecodeFirst]
  rw [if_neg h]
  match bs with
  | [] => dsimp only; split_ifs <;> simp
  | [b1] => dsimp only; split_ifs <;> simp
  | [b1, b2] => dsimp only; split_ifs <;> simp
  | b1 :: b2 :: b3 :: r => dsimp only; split_ifs <;> simp

theorem canon2 (b0 b1 : Nat) (h2 : 194 ≤ b0 ∧ b0 ≤ 223)
    (hc : 128 ≤ b1 ∧ b1 ≤ 191) :
    [b0, b1] = utf8Encode ((b0 - 192) * 64 + (b1 - 128))
    ∧ 128 ≤ (b0 - 192) * 64 + (b1 - 128) := by
  have hge : 128 ≤ (b0 - 192) * 64 + (b1 - 128) := by omega
  have hlt : (b0 - 192) * 64 + (b1 - 128) < 2048 := by omega
  refine ⟨?_, hge⟩
  unfold utf8Encode
  rw [if_neg (by omega), if_pos hlt]
  have e0 : b0 = 192 + ((b0 - 192) * 64 + (b1 - 128)) / 64 := by omega
  have e1 : b1 = 128 + ((b0 - 192) * 64 + (b1 - 128)) % 64 := by omega
  rw [List.cons.injEq, List.cons.injEq]
  exact ⟨e0, e1, rfl⟩

theorem canon3 (b0 b1 b2 : Nat) (h3 : 224 ≤ b0 ∧ b0 ≤ 239)
    (hlo : (if b0 = 224 then 160 else 128) ≤ b1)
    (hhi : b1 ≤ (if b0 = 237 then 159 else 191))
    (hc2 : 128 ≤ b2 ∧ b2 ≤ 191) :
    [b0, b1, b2] = utf8Encode ((b0 - 224) * 4096 + (b1 - 128) * 64 + (b2 - 128))
    ∧ 128 ≤ (b0 - 224) * 4096 + (b1 - 128) * 64 + (b2 - 128) := by
  have hb1 : 128 ≤ b1 ∧ b1 ≤ 191 := by
    constructor
    · by_cases hb0 : b0 = 224 <;> simp [hb0] at hlo <;> omega
    · by_cases hb0 : b0 = 237 <;> simp [hb0] at hhi <;> omega
  have hge : 2048 ≤ (b0 - 224) * 4096 + (b1 - 128) * 64 + (b2 - 128) := by
    by_cases hb0 : b0 = 224
    · simp [hb0] at hlo
      omega
    · omega
  have hlt : (b0 - 224) * 4096 + (b1 - 128) * 64 + (b2 - 128) < 65536 := by omega
  refine ⟨?_, by omega⟩
  unfold utf8Encode
  rw [if_neg (by omega), if_neg (by omega), if_pos hlt]
  have e0 : b0 = 224 + ((b0 - 224) * 4096 + (b1 - 128) * 64 + (b2 - 128)) / 4096 := by
    omega
  have e1 : b1 = 128 + ((b0 - 224) * 4096 + (b1 - 128) * 64 + (b2 - 128)) / 64 % 64 := by
    omega
  have e2 : b2 = 128 + ((b0 - 224) * 4096 + (b1 - 128) * 64 + (b2 - 128)) % 64 := by
    omega
  rw [List.cons.injEq, List.cons.injEq, List.cons.injEq]
  exact ⟨e0, e1, e2, rfl⟩

theorem canon4 (b0 b1 b2 b3 : Nat) (h4 : 240 ≤ b0 ∧ b0 ≤ 244)
    (hlo : (if b0 = 240 then 144 else 128) ≤ b1)
    (hhi : b1 ≤ (if b0 = 244 then 143 else 191))
    (hc2 : 128 ≤ b2 ∧ b2 ≤ 191) (hc3 : 128 ≤ b3 ∧ b3 ≤ 191) :
    [b0, b1, b2, b3]
      = utf8Encode ((b0 - 240) * 262144 + (b1 - 128) * 4096 + (b2 - 128) * 64 + (b3 - 128))
    ∧ 128 ≤ (b0 - 240) * 262144 + (b1 - 128) * 4096 + (b2 - 128) * 64 + (b3 - 128) := by
  have hb1 : 128 ≤ b1 ∧ b1 ≤ 191 := by
    constructor
    · by_cases hb0 : b0 = 240 <;> simp [hb0] at hlo <;> omega
    · by_cases hb0 : b0 = 244 <;> simp [hb0] at hhi <;> omega
  have hge : 65536 ≤ (b0 - 240) * 262144 + (b1 - 128) * 4096 + (b2 - 128) * 64 + (b3 - 128) := by
    by_cases hb0 : b0 = 240
    · simp [hb0] at hlo
      omega
    · omega
  refine ⟨?_, by omega⟩
  unfold utf8Encode
  rw [if_neg (by omega), if_neg (by omega), if_neg (by omega)]
  have e0 : b0 = 240 + ((b0 - 240) * 262144 + (b1 - 128) * 4096 + (b2 - 128) * 64 + (b3 - 128)) / 262144 := by
    omega
  have e1 : b1 = 128 + ((b0 - 240) * 262144 + (b1 - 128) * 4096 + (b2 - 128) * 64 + (b3 - 128)) / 4096 % 64 := by
    omega
  have e2 : b2 = 128 + ((b0 - 240) * 262144 + (b1 - 128) * 4096 + (b2 - 128) * 64 + (b3 - 128)) / 64 % 64 := by
    omega
  have e3 : b3 = 128 + ((b0 - 240) * 262144 + (b1 - 128) * 4096 + (b2 - 128) * 64 + (b3 - 128)) % 64 := by
    omega
  rw [List.cons.injEq, List.cons.injEq, List.cons.injEq, List.cons.injEq]
  exact ⟨e0, e1, e2, e3, rfl⟩

/-- Unfolding of `utf8DecodeFirst` for a non-ASCII leading byte. -/
theorem utf8DecodeFirst_nonascii (b0 : Nat) (rest : List Nat) (h0 : ¬ b0 < 0x80) :
    utf8DecodeFirst (b0 :: rest)
      = (if 0xC2 ≤ b0 ∧ b0 ≤ 0xDF then
          match rest with
          | b1 :: _ =>
            if 0x80 ≤ b1 ∧ b1 ≤ 0xBF then ((b0 - 0xC0) * 64 + (b1 - 0x80), 2)
            else (0xFFFD, 1)
          | _ => (0xFFFD, 1)
        else if 0xE0 ≤ b0 ∧ b0 ≤ 0xEF then
          match rest with
          | b1 :: b2 :: _ =>
            if (if b0 = 0xE0 then 0xA0 else 0x80) ≤ b1
                ∧ b1 ≤ (if b0 = 0xED then 0x9F else 0xBF)
                ∧ 0x80 ≤ b2 ∧ b2 ≤ 0xBF then
              ((b0 - 0xE0) * 4096 + (b1 - 0x80) * 64 + (b2 - 0x80), 3)
            else (0xFFFD, 1)
          | _ => (0xFFFD, 1)
        else if 0xF0 ≤ b0 ∧ b0 ≤ 0xF4 then
          match rest with
          | b1 :: b2 :: b3 :: _ =>
            if (if b0 = 0xF0 then 0x90 else 0x80) ≤ b1
                ∧ b1 ≤ (if b0 = 0xF4 then 0x8F else 0xBF)
                ∧ 0x80 ≤ b2 ∧ b2 ≤ 0xBF ∧ 0x80 ≤ b3 ∧ b3 ≤ 0xBF then
              ((b0 - 0xF0) * 262144 + (b1 - 0x80) * 4096 + (b2 - 0x80) * 64 + (b3 - 0x80), 4)
            else (0xFFFD, 1)
          | _ => (0xFFFD, 1)
        else (0xFFFD, 1)) := by
  simp only [utf8DecodeFirst]
  rw [if_neg h0]

/-- Canonicity of UTF-8: when `DecodeRune` accepts a multi-byte rune, the
consumed bytes are exactly the standard encoding of the decoded code
point (the accept ranges exclude overlong forms), the size fits in the
input, and the code point is at least 0x80. -/
theorem utf8DecodeFirst_canon (l : List Nat)
    (hn : 2 ≤ (utf8DecodeFirst l).2) :
    l.take (utf8DecodeFirst l).2 = utf8Encode (utf8DecodeFirst l).1
    ∧ (utf8DecodeFirst l).2 ≤ l.length
    ∧ 0x80 ≤ (utf8DecodeFirst l).1 := by
  match l with
  | [] => simp [utf8DecodeFirst] at hn
  | b0 :: rest =>
    by_cases h0 : b0 < 0x80
    · simp [utf8DecodeFirst, h0] at hn
    · rw [utf8DecodeFirst_nonascii b0 rest h0] at hn ⊢
      by_cases h2 : 0xC2 ≤ b0 ∧ b0 ≤ 0xDF
      · rw [if_pos h2] at hn ⊢
        match rest with
        | [] => simp at hn
        | b1 :: r2 =>
          dsimp only at hn ⊢
          by_cases hc : 0x80 ≤ b1 ∧ b1 ≤ 0xBF
          · rw [if_pos hc] at hn ⊢
            have := canon2 b0 b1 h2 hc
            exact ⟨by simpa using this.1, by simp, this.2⟩
          · rw [if_neg hc] at hn
            simp at hn
      · rw [if_neg h2] at hn ⊢
        by_cases h3 : 0xE0 ≤ b0 ∧ b0 ≤ 0xEF
        · rw [if_pos h3] at hn ⊢
          match rest with
          | [] => simp at hn
          | [b1] => simp at hn
          | b1 :: b2 :: r2 =>
            dsimp only at hn ⊢
            by_cases hc : (if b0 = 0xE0 then 0xA0 else 0x80) ≤ b1
                ∧ b1 ≤ (if b0 = 0xED then 0x9F else 0xBF)
                ∧ 0x80 ≤ b2 ∧ b2 ≤ 0xBF
            · rw [if_pos hc] at hn ⊢
              have := canon3 b0 b1 b2 h3 hc.1 hc.2.1 hc.2.2
              exact ⟨by simpa using this.1, by simp, this.2⟩
            · rw [if_neg hc] at hn
              simp at hn
        · rw [if_neg h3] at hn ⊢
          by_cases h4 : 0xF0 ≤ b0 ∧ b0 ≤ 0xF4
          · rw [if_pos h4] at hn ⊢
            match rest with
            | [] => simp at hn
            | [b1] => simp at hn
            | [b1, b2] => simp at hn
            | b1 :: b2 :: b3 :: r2 =>
              dsimp only at hn ⊢
              by_cases hc : (if b0 = 0xF0 then 0x90 else 0x80) ≤ b1
                  ∧ b1 ≤ (if b0 = 0xF4 then 0x8F else 0xBF)
                  ∧ 0x80 ≤ b2 ∧ b2 ≤ 0xBF ∧ 0x80 ≤ b3 ∧ b3 ≤ 0xBF
              · rw [if_pos hc] at hn ⊢
                obtain ⟨ha, hb, hc2a, hc2b, hc3a, hc3b⟩ := hc
                have := canon4 b0 b1 b2 b3 h4 ha hb ⟨hc2a, hc2b⟩ ⟨hc3a, hc3b⟩
                exact ⟨by simpa using this.1, by simp, this.2⟩
              · rw [if_neg hc] at hn
                simp at hn
          · rw [if_neg h4] at hn
            simp at hn

set_option maxHeartbeats 1000000 in
/-- Unfolding of the decoder at a plain (non-backslash, non-quote) byte. -/
theorem jsonDecodeBody_cons_plain (b : Nat) (l : List Nat)
    (h92 : b ≠ 92) (h34 : b ≠ 34) :
    jsonDecodeBody (b :: l)
      = if b < 0x20 then none
        else (jsonDecodeBody l).map (fun r => b :: r) := by
  rw [jsonDecodeBody.eq_def]
  dsimp only
  rw [if_neg h92, if_neg h34]

/-- A run of plain bytes (printable, no quote, no backslash) passes
through the JSON string decoder unchanged. -/
theorem jsonDecodeBody_plain_run (pre rest : List Nat)
    (h : ∀ b ∈ pre, 0x20 ≤ b ∧ b ≠ 34 ∧ b ≠ 92) :
    jsonDecodeBody (pre ++ rest) = (jsonDecodeBody rest).map (fun r => pre ++ r) := by
  induction pre with
  | nil =>
      simp only [List.nil_append]
      cases jsonDecodeBody rest <;> simp
  | cons b pre2 ih =>
      have hb := h b (by simp)
      have ih2 := ih (fun x hx => h x (by simp [hx]))
      simp only [List.cons_append,
        jsonDecodeBody_cons_plain b (pre2 ++ rest) hb.2.2 hb.2.1,
        if_neg (by omega : ¬ b < 0x20), ih2]
      cases jsonDecodeBody rest <;> simp

theorem jsonDecodeBody_esc34 (t : List Nat) :
    jsonDecodeBody (92 :: 34 :: t) = (jsonDecodeBody t).map (fun r => 34 :: r) := by
  rw [jsonDecodeBody.eq_def]
  simp

theorem jsonDecodeBody_esc92 (t : List Nat) :
    jsonDecodeBody (92 :: 92 :: t) = (jsonDecodeBody t).map (fun r => 92 :: r) := by
  rw [jsonDecodeBody.eq_def]
  simp

theorem jsonDecodeBody_escT (t : List Nat) :
    jsonDecodeBody (92 :: 116 :: t) = (jsonDecodeBody t).map (fun r => 9 :: r) := by
  rw [jsonDecodeBody.eq_def]
  simp

theorem jsonDecodeBody_escN (t : List Nat) :
    jsonDecodeBody (92 :: 110 :: t) = (jsonDecodeBody t).map (fun r => 10 :: r) := by
  rw [jsonDecodeBody.eq_def]
  simp

theorem jsonDecodeBody_escR (t : List Nat) :
    jsonDecodeBody (92 :: 114 :: t) = (jsonDecodeBody t).map (fun r => 13 :: r) := by
  rw [jsonDecodeBody.eq_def]
  simp

theorem jsonDecodeBody_u00 (b : Nat) (t : List Nat) (hb : b < 0x80) :
    jsonDecodeBody (92 :: 117 :: 48 :: 48 :: hexDigit (b / 16) :: hexDigit (b % 16) :: t)
      = (jsonDecodeBody t).map (fun r => b :: r) := by
  rw [jsonDecodeBody.eq_def]
  simp only [decodeUEscape, hexVal_hexDigit (b / 16) (by omega),
    hexVal_hexDigit (b % 16) (by omega), show hexVal 48 = some 0 from rfl]
  norm_num
  have hcp : b / 16 * 16 + b % 16 = b := by omega
  rw [hcp]
  rw [if_neg (by omega : ¬ (55296 ≤ b ∧ b < 57344))]
  have henc : utf8Encode b = [b] := by
    unfold utf8Encode
    rw [if_pos hb]
  simp [henc]

theorem jsonDecodeBody_u2028 (t : List Nat) :
    jsonDecodeBody (esc202X 0x2028 ++ t)
      = (jsonDecodeBody t).map (fun r => [226, 128, 168] ++ r) := by
  have he : esc202X 0x2028 = [92, 117, 50, 48, 50, 56] := by decide
  rw [he]
  rw [show ([92, 117, 50, 48, 50, 56] : List Nat) ++ t
      = 92 :: 117 :: 50 :: 48 :: 50 :: 56 :: t from rfl]
  rw [jsonDecodeBody.eq_def]
  simp only [decodeUEscape]
  have h50 : hexVal 50 = some 2 := rfl
  have h48 : hexVal 48 = some 0 := rfl
  have h56 : hexVal 56 = some 8 := rfl
  simp only [h50, h48, h56]
  simp [show utf8Encode (2 * 4096 + 0 * 256 + 2 * 16 + 8) = [226, 128, 168] from by decide]

theorem jsonDecodeBody_u2029 (t : List Nat) :
    jsonDecodeBody (esc202X 0x2029 ++ t)
      = (jsonDecodeBody t).map (fun r => [226, 128, 169] ++ r) := by
  have he : esc202X 0x2029 = [92, 117, 50, 48, 50, 57] := by decide
  rw [he]
  rw [show ([92, 117, 50, 48, 50, 57] : List Nat) ++ t
      = 92 :: 117 :: 50 :: 48 :: 50 :: 57 :: t from rfl]
  rw [jsonDecodeBody.eq_def]
  simp only [decodeUEscape]
  have h50 : hexVal 50 = some 2 := rfl
  have h48 : hexVal 48 = some 0 := rfl
  have h57 : hexVal 57 = some 9 := rfl
  simp only [h50, h48, h57]
  simp [show utf8Encode (2 * 4096 + 0 * 256 + 2 * 16 + 9) = [226, 128, 169] from by decide]

theorem utf8Encode_length (c : Nat) (h : 0x80 ≤ c) :
    (utf8Encode c).length = 2 ∨ (utf8Encode c).length = 3
    ∨ (utf8Encode c).length = 4 := by
  unfold utf8Encode
  split_ifs with h1 h2 h3
  · omega
  · simp
  · simp
  · simp

theorem validUtf8Go_congr : ∀ (f1 : Nat) (l : List Nat) (f2 : Nat),
    l.length ≤ f1 → l.length ≤ f2 → validUtf8Go f1 l = validUtf8Go f2 l := by
  intro f1
  induction f1 with
  | zero =>
      intro l f2 h1 _
      have : l = [] := List.length_eq_zero.mp (Nat.le_zero.mp h1)
      subst this
      cases f2 <;> rfl
  | succ f ih =>
      intro l f2 h1 h2
      match l, h1, h2 with
      | [], _, _ => cases f2 <;> rfl
      | b :: bs, h1, h2 =>
        match f2, h2 with
        | g + 1, h2 =>
          have hbs : bs.length ≤ f := by simp at h1; omega
          have hbs2 : bs.length ≤ g := by simp at h2; omega
          have hdrop : ∀ k, (bs.drop k).length ≤ f := by
            intro k; simp [List.length_drop]; omega
          have hdrop2 : ∀ k, (bs.drop k).length ≤ g := by
            intro k; simp [List.length_drop]; omega
          simp only [validUtf8Go]
          by_cases hb : b < 0x80
          · rw [if_pos hb, if_pos hb, ih bs g hbs hbs2]
          · rw [if_neg hb, if_neg hb]
            by_cases hs : (utf8DecodeFirst (b :: bs)).2 ≤ 1
            · simp only [if_pos hs]
            · simp only [if_neg hs,
                ih (bs.drop ((utf8DecodeFirst (b :: bs)).2 - 1)) g (hdrop _) (hdrop2 _)]

/-- The one-step recurrence of `validUtf8`. -/
theorem validUtf8_cons (b : Nat) (bs : List Nat) :
    validUtf8 (b :: bs)
      = (if b < 0x80 then validUtf8 bs
         else if (utf8DecodeFirst (b :: bs)).2 ≤ 1 then false
         else validUtf8 (bs.drop ((utf8DecodeFirst (b :: bs)).2 - 1))) := by
  unfold validUtf8
  have hdrop : ∀ k, (bs.drop k).length ≤ bs.length := by
    intro k; simp [List.length_drop]
  simp only [List.length_cons, validUtf8Go]
  by_cases hb : b < 0x80
  · rw [if_pos hb, if_pos hb]
  · rw [if_neg hb, if_neg hb]
    by_cases hs : (utf8DecodeFirst (b :: bs)).2 ≤ 1
    · simp only [if_pos hs]
    · simp only [if_neg hs,
        validUtf8Go_congr bs.length (bs.drop ((utf8DecodeFirst (b :: bs)).2 - 1)) _
          (hdrop _) le_rfl]

theorem bytesPrintableGo_congr : ∀ (f1 : Nat) (l : List Nat) (f2 : Nat),
    l.length ≤ f1 → l.length ≤ f2 → bytesPrintableGo f1 l = bytesPrintableGo f2 l := by
  intro f1
  induction f1 with
  | zero =>
      intro l f2 h1 _
      have : l = [] := List.length_eq_zero.mp (Nat.le_zero.mp h1)
      subst this
      cases f2 <;> rfl
  | succ f ih =>
      intro l f2 h1 h2
      match l, h1, h2 with
      | [], _, _ => cases f2 <;> rfl
      | b :: bs, h1, h2 =>
        match f2, h2 with
        | g + 1, h2 =>
          have hbs : bs.length ≤ f := by simp at h1; omega
          have hbs2 : bs.length ≤ g := by simp at h2; omega
          have hdrop : ∀ k, (bs.drop k).length ≤ f := by
            intro k; simp [List.length_drop]; omega
          have hdrop2 : ∀ k, (bs.drop k).length ≤ g := by
            intro k; simp [List.length_drop]; omega
          simp only [bytesPrintableGo]
          by_cases hb : b < 0x80
          · rw [if_pos hb, if_pos hb, ih bs g hbs hbs2]
          · rw [if_neg hb, if_neg hb,
              ih (bs.drop ((utf8DecodeFirst (b :: bs)).2 - 1)) g (hdrop _) (hdrop2 _)]

/-- The one-step recurrence of `bytesPrintable`. -/
theorem bytesPrintable_cons (b : Nat) (bs : List Nat) :
    bytesPrintable (b :: bs)
      = (if b < 0x80 then goIsPrint b && bytesPrintable bs
         else goIsPrint (utf8DecodeFirst (b :: bs)).1
              && bytesPrintable (bs.drop ((utf8DecodeFirst (b :: bs)).2 - 1))) := by
  unfold bytesPrintable
  have hdrop : ∀ k, (bs.drop k).length ≤ bs.length := by
    intro k; simp [List.length_drop]
  simp only [List.length_cons, bytesPrintableGo]
  by_cases hb : b < 0x80
  · rw [if_pos hb, if_pos hb]
  · rw [if_neg hb, if_neg hb,
      bytesPrintableGo_congr bs.length (bs.drop ((utf8DecodeFirst (b :: bs)).2 - 1)) _
        (hdrop _) le_rfl]

/-- The escaping engine followed by the JSON string decoder is the
identity on valid UTF-8 input (fuel-indexed strong induction). -/
theorem roundtrip_body : ∀ (fuel : Nat) (bs : List Nat), bs.length ≤ fuel →
    validUtf8 bs = true →
    jsonDecodeBody (jsonEncodeStringBody bs) = some bs := by
  intro fuel
  induction fuel with
  | zero =>
      intro bs hlen _
      have : bs = [] := List.length_eq_zero.mp (Nat.le_zero.mp hlen)
      subst this
      rfl
  | succ f ih =>
      intro bs hlen hv
      match bs with
      | [] => rfl
      | b :: bs2 =>
        by_cases hb : b < 0x80
        · -- ASCII byte
          have hv2 : validUtf8 bs2 = true := by
            rw [validUtf8_cons] at hv
            rwa [if_pos hb] at hv
          have ihr := ih bs2 (by simp at hlen; omega) hv2
          rw [jsonEncodeStringBody_cons]
          dsimp only
          rw [if_pos hb]
          by_cases hsafe : safeSet b
          · rw [if_pos hsafe]
            have hfacts := safeSet_bytes b hsafe
            rw [jsonDecodeBody_plain_run [b] _
              (by intro x hx; simp at hx; subst hx; exact ⟨hfacts.1, hfacts.2.2.1, hfacts.2.2.2⟩)]
            rw [ihr]
            rfl
          · rw [if_neg hsafe]
            by_cases h92 : b = 92
            · subst h92
              rw [show escByte 92 ++ jsonEncodeStringBody bs2
                  = 92 :: 92 :: jsonEncodeStringBody bs2 from rfl]
              rw [jsonDecodeBody_esc92, ihr]
              rfl
            · by_cases h34 : b = 34
              · subst h34
                rw [show escByte 34 ++ jsonEncodeStringBody bs2
                    = 92 :: 34 :: jsonEncodeStringBody bs2 from rfl]
                rw [jsonDecodeBody_esc34, ihr]
                rfl
              · by_cases h9 : b = 9
                · subst h9
                  rw [show escByte 9 ++ jsonEncodeStringBody bs2
                      = 92 :: 116 :: jsonEncodeStringBody bs2 from rfl]
                  rw [jsonDecodeBody_escT, ihr]
                  rfl
                · by_cases h10 : b = 10
                  · subst h10
                    rw [show escByte 10 ++ jsonEncodeStringBody bs2
                        = 92 :: 110 :: jsonEncodeStringBody bs2 from rfl]
                    rw [jsonDecodeBody_escN, ihr]
                    rfl
                  · by_cases h13 : b = 13
                    · subst h13
                      rw [show escByte 13 ++ jsonEncodeStringBody bs2
                          = 92 :: 114 :: jsonEncodeStringBody bs2 from rfl]
                      rw [jsonDecodeBody_escR, ihr]
                      rfl
                    · have hesc : escByte b
                          = [92, 117, 48, 48, hexDigit (b / 16), hexDigit (b % 16)] := by
                        unfold escByte
                        rw [if_neg (by tauto), if_neg h9, if_neg h10, if_neg h13]
                      rw [hesc]
                      rw [show ([92, 117, 48, 48, hexDigit (b / 16), hexDigit (b % 16)] : List Nat)
                          ++ jsonEncodeStringBody bs2
                          = 92 :: 117 :: 48 :: 48 :: hexDigit (b / 16) :: hexDigit (b % 16)
                            :: jsonEncodeStringBody bs2 from rfl]
                      rw [jsonDecodeBody_u00 b _ hb, ihr]
                      rfl
        · -- multi-byte rune
          rcases hu : utf8DecodeFirst (b :: bs2) with ⟨c, n⟩
          have hvv := hv
          rw [validUtf8_cons, if_neg hb, hu] at hvv
          dsimp only at hvv
          have hn2 : ¬ n ≤ 1 := by
            by_contra hc
            rw [if_pos hc] at hvv
            exact Bool.noConfusion hvv
          rw [if_neg hn2] at hvv
          have hcanon := utf8DecodeFirst_canon (b :: bs2) (by rw [hu]; omega)
          rw [hu] at hcanon
          dsimp only at hcanon
          obtain ⟨htake, hnlen, hc128⟩ := hcanon
          have hlenenc : n = (utf8Encode c).length := by
            have h := congrArg List.length htake
            rw [List.length_take, Nat.min_eq_left hnlen] at h
            exact h
          rw [jsonEncodeStringBody_cons]
          dsimp only
          rw [if_neg hb, hu]
          dsimp only
          rw [if_neg (by omega : ¬ (c = 0xFFFD ∧ n = 1))]
          by_cases h2028 : c = 0x2028 ∨ c = 0x2029
          · rw [if_pos h2028]
            have hn3 : n = 3 := by
              rcases h2028 with h | h <;> subst h <;> simpa using hlenenc
            subst hn3
            match bs2, hlen, hvv, htake, hnlen with
            | x :: y :: t, hlen, hvv, htake, hnlen =>
              dsimp only [List.drop] at hvv ⊢
              have ihr := ih t (by simp only [List.length_cons] at hlen; omega) hvv
              have htk : ([b, x, y] : List Nat) = utf8Encode c := by
                simpa using htake
              rcases h2028 with h | h
              · subst h
                rw [jsonDecodeBody_u2028, ihr]
                have h3 : ([b, x, y] : List Nat) = [226, 128, 168] := by
                  rw [htk]; decide
                simp at h3
                simp [h3.1, h3.2.1, h3.2.2]
              · subst h
                rw [jsonDecodeBody_u2029, ihr]
                have h3 : ([b, x, y] : List Nat) = [226, 128, 169] := by
                  rw [htk]; decide
                simp at h3
                simp [h3.1, h3.2.1, h3.2.2]
          · rw [if_neg h2028]
            have hrange := utf8Encode_range c hc128
            rcases utf8Encode_length c hc128 with hl | hl | hl
            · have hn : n = 2 := by omega
              subst hn
              match bs2, hlen, hvv, htake, hnlen with
              | x :: t, hlen, hvv, htake, hnlen =>
                dsimp only [List.drop] at hvv ⊢
                have ihr := ih t (by simp only [List.length_cons] at hlen; omega) hvv
                have hpre : ([b, x] : List Nat) = utf8Encode c := by simpa using htake
                rw [show ((b :: x :: t).take 2) = [b, x] from rfl]
                rw [jsonDecodeBody_plain_run [b, x] _
                  (by intro z hz; rw [hpre] at hz; exact hrange z hz)]
                rw [ihr]
                rfl
            · have hn : n = 3 := by omega
              subst hn
              match bs2, hlen, hvv, htake, hnlen with
              | x :: y :: t, hlen, hvv, htake, hnlen =>
                dsimp only [List.drop] at hvv ⊢
                have ihr := ih t (by simp only [List.length_cons] at hlen; omega) hvv
                have hpre : ([b, x, y] : List Nat) = utf8Encode c := by simpa using htake
                rw [show ((b :: x :: y :: t).take 3) = [b, x, y] from rfl]
                rw [jsonDecodeBody_plain_run [b, x, y] _
                  (by intro z hz; rw [hpre] at hz; exact hrange z hz)]
                rw [ihr]
                rfl
            · have hn : n = 4 := by omega
              subst hn
              match bs2, hlen, hvv, htake, hnlen with
              | x :: y :: z :: t, hlen, hvv, htake, hnlen =>
                dsimp only [List.drop] at hvv ⊢
                have ihr := ih t (by simp only [List.length_cons] at hlen; omega) hvv
                have hpre : ([b, x, y, z] : List Nat) = utf8Encode c := by simpa using htake
                rw [show ((b :: x :: y :: z :: t).take 4) = [b, x, y, z] from rfl]
                rw [jsonDecodeBody_plain_run [b, x, y, z] _
                  (by intro w hw; rw [hpre] at hw; exact hrange w hw)]
                rw [ihr]
                rfl

theorem base64Encode_chars : ∀ (bs : List Nat),
    ∀ x ∈ base64Encode bs, 0x20 ≤ x ∧ x ≠ 34 ∧ x ≠ 92
  | [] => by simp [base64Encode]
  | [b1] => by
      intro x hx
      simp [base64Encode] at hx
      rcases hx with h | h | h
      · rw [h]
        exact ⟨(b64Char_range _).1, (b64Char_range _).2.1, (b64Char_range _).2.2.1⟩
      · rw [h]
        exact ⟨(b64Char_range _).1, (b64Char_range _).2.1, (b64Char_range _).2.2.1⟩
      · omega
  | [b1, b2] => by
      intro x hx
      simp [base64Encode] at hx
      rcases hx with h | h | h | h
      · rw [h]
        exact ⟨(b64Char_range _).1, (b64Char_range _).2.1, (b64Char_range _).2.2.1⟩
      · rw [h]
        exact ⟨(b64Char_range _).1, (b64Char_range _).2.1, (b64Char_range _).2.2.1⟩
      · rw [h]
        exact ⟨(b64Char_range _).1, (b64Char_range _).2.1, (b64Char_range _).2.2.1⟩
      · omega
  | b1 :: b2 :: b3 :: rest => by
      intro x hx
      simp only [base64Encode, List.cons_append, List.nil_append, List.mem_cons] at hx
      rcases hx with h | h | h | h | h
      · rw [h]
        exact ⟨(b64Char_range _).1, (b64Char_range _).2.1, (b64Char_range _).2.2.1⟩
      · rw [h]
        exact ⟨(b64Char_range _).1, (b64Char_range _).2.1, (b64Char_range _).2.2.1⟩
      · rw [h]
        exact ⟨(b64Char_range _).1, (b64Char_range _).2.1, (b64Char_range _).2.2.1⟩
      · rw [h]
        exact ⟨(b64Char_range _).1, (b64Char_range _).2.1, (b64Char_range _).2.2.1⟩
      · exact base64Encode_chars rest x h

theorem jsonStrDecode_quoted (body : List Nat) :
    jsonStrDecode (34 :: body ++ [34]) = jsonDecodeBody body := by
  rw [List.cons_append]
  simp only [jsonStrDecode, if_pos rfl, List.getLast?_concat, List.dropLast_concat,
    if_true, reduceIte]

/-- C2 (amended): `addBytes` output round-trips back to the original
bytes — JSON-string decoding for the printable path, JSON-string plus
base64 decoding for the base64 path — for every byte slice that is valid
UTF-8 or that is routed through base64.  (A slice that is invalid UTF-8
yet all-printable after replacement takes the string path and is NOT
recovered; see the counterexample.) -/
theorem addBytes_roundtrip (bs : List Nat) (hbyte : ∀ b ∈ bs, b < 256)
    (h : validUtf8 bs = true ∨ bytesPrintable bs = false) :
    decodedBack bs = some bs := by
  unfold decodedBack
  by_cases hp : bytesPrintable bs = true
  · rw [if_pos hp]
    have hvalid : validUtf8 bs = true := by
      rcases h with h | h
      · exact h
      · rw [hp] at h
        exact Bool.noConfusion h
    unfold addBytes
    by_cases hnil : bs = []
    · subst hnil
      rfl
    · rw [if_neg hnil, if_pos hp]
      unfold jsonEncodeString
      rw [jsonStrDecode_quoted]
      exact roundtrip_body bs.length bs le_rfl hvalid
  · rw [if_neg hp]
    have hnil : bs ≠ [] := by
      intro h0
      subst h0
      exact hp rfl
    unfold addBytes
    rw [if_neg hnil, if_neg hp]
    rw [jsonStrDecode_quoted]
    have hplain := jsonDecodeBody_plain_run (base64Encode bs) []
      (base64Encode_chars bs)
    rw [List.append_nil] at hplain
    rw [hplain]
    show base64Decode (base64Encode bs ++ []) = some bs
    rw [List.append_nil]
    exact base64_roundtrip bs hbyte

theorem addBytes_roundtrip_witness :
    ((∀ b ∈ ([0, 1] : List Nat), b < 256)
      ∧ (validUtf8 [0, 1] = true ∨ bytesPrintable [0, 1] = false))
    ∧ decodedBack [0, 1] = some [0, 1] :=
  ⟨⟨by decide, Or.inr (by decide)⟩,
   addBytes_roundtrip [0, 1] (by decide) (Or.inr (by decide))⟩

/-- C2 counterexample: the byte slice `[0xFF]` is invalid UTF-8, but its
single byte decodes to the printable replacement rune U+FFFD, so
`addBytes` routes it through the printable-string path; JSON-decoding the
emitted string yields the three UTF-8 bytes of U+FFFD, not the original
byte — the round-trip claimed for every byte slice fails here. -/
theorem addBytes_not_roundtrip_FF :
    decodedBack [255] = some [239, 191, 189]
    ∧ (some [239, 191, 189] : Option (List Nat)) ≠ some [255] :=
  ⟨by decide, by decide⟩

/-! ## Claim C9: development mode elides the empty attribute object -/

/-- `Buffer.Truncate` (`src/unnamed/part_015` lines 48-53): no-op when `n`
exceeds the length, otherwise keep the first `n` bytes. -/
def bufTruncate (b : List Nat) (n : Nat) : List Nat :=
  if n > b.length then b else b.take n

/-- The development-mode line prefix written through the text encoder
(`encodeDevelopment`, `src/handler.go` lines 217-235, with
`ReplaceAttr == nil` so the keys are ignored, a non-terminal writer —
`needColoredLevel`, lines 357-359, is then false and the level is
uncolored — and PC 0 so the source block is skipped): the formatted time
plus two spaces when the time is non-zero, the level string, then a tab
and the raw message when the message is non-empty (`textEncoder.addValue`,
`src/unnamed/part_000` lines 56-93). -/
def devPrefix (r : Record) : List Nat :=
  let p1 := match r.time with
    | none => []
    | some t => rfc3339Milli t ++ [32, 32]
  let p2 := p1 ++ levelString r.level
  if r.message = [] then p2 else p2 ++ 9 :: r.message

/-- The trailing attribute object of a development-mode line: tab, `{`,
the bytes contributed by the preformatted span, context attributes,
record attributes and `CloseGroups`, then `}` (`src/handler.go` lines
239-254). -/
def devAttrObject (pre : List Nat) (groups : List (List Nat))
    (ctxAttrs : AttrList) (r : Record) : List Nat :=
  let st0 : EncSt := ⟨devPrefix r ++ [9, 123], groups⟩
  let st4 := closeGroups
    (appendAttrs (appendAttrs (appendFormatted st0 pre) ctxAttrs) r.attrs)
  9 :: 123 :: (st4.buf.drop st0.buf.length ++ [125])

/-- `encodeDevelopment` (`src/handler.go` lines 215-270) for a record
with PC 0 (so the source and stacktrace blocks are skipped) and
`ReplaceAttr == nil`: the text prefix, a tab and `{`, the attribute
bytes, `CloseGroups`, `}`; the whole tail is truncated away when the
buffer grew by exactly the three bytes tab-`{`-`}` (lines 256-258), and
a final newline is appended unless the last byte already is one
(lines 260-262).  As in `encode`, none of the modelled behaviour reads
the configuration, so the handler argument is reduced to its
`preformattedGroupAttrs` span, its group stack and the context
attributes. -/
def encodeDevelopment (pre : List Nat) (groups : List (List Nat))
    (ctxAttrs : AttrList) (r : Record) : List Nat :=
  let p := devPrefix r
  let size := p.length
  let st0 : EncSt := ⟨p ++ [9, 123], groups⟩
  let st4 := closeGroups
    (appendAttrs (appendAttrs (appendFormatted st0 pre) ctxAttrs) r.attrs)
  let buf1 := st4.buf ++ [125]
  let buf2 := if buf1.length - size = 3 then bufTruncate buf1 size else buf1
  if buf2.getLast? = some 10 then buf2 else buf2 ++ [10]

/-- The encoder operations only ever append to the buffer; this is the
composition lemma for that fact. -/
theorem bufExt_trans {s1 s2 s3 : EncSt}
    (h1 : ∃ t, s2.buf = s1.buf ++ t) (h2 : ∃ t, s3.buf = s2.buf ++ t) :
    ∃ t, s3.buf = s1.buf ++ t := by
  obtain ⟨t1, e1⟩ := h1
  obtain ⟨t2, e2⟩ := h2
  exact ⟨t1 ++ t2, by rw [e2, e1, List.append_assoc]⟩

theorem addSeparator_ext (st : EncSt) :
    ∃ t, (addSeparator st).buf = st.buf ++ t := by
  unfold addSeparator
  cases h : st.buf.getLast? with
  | none => exact ⟨[], by simp⟩
  | some b =>
      by_cases hb : b ∈ sepSet
      · exact ⟨[], by simp [hb]⟩
      · exact ⟨[44], by simp [hb]⟩

theorem addKey_ext (st : EncSt) (key : List Nat) :
    ∃ t, (addKey st key).buf = st.buf ++ t := by
  obtain ⟨t, h⟩ := addSeparator_ext st
  exact ⟨t ++ (jsonEncodeString key ++ [58]),
    by simp [addKey, h, List.append_assoc]⟩

theorem openGroup_ext (st : EncSt) (g : List Nat) :
    ∃ t, (openGroup st g).buf = st.buf ++ t := by
  obtain ⟨t, h⟩ := addKey_ext st g
  exact ⟨t ++ [123], by simp [openGroup, h, List.append_assoc]⟩

theorem closeGroup_ext (st : EncSt) :
    ∃ t, (closeGroup st).buf = st.buf ++ t := by
  unfold closeGroup
  by_cases h : st.openGroups = []
  · exact ⟨[], by simp [h]⟩
  · exact ⟨[125], by simp [h]⟩

theorem iterate_closeGroup_ext (n : Nat) :
    ∀ st : EncSt, ∃ t, (Nat.iterate closeGroup n st).buf = st.buf ++ t := by
  induction n with
  | zero => intro st; exact ⟨[], by simp⟩
  | succ n ih =>
      intro st
      rw [Function.iterate_succ_apply]
      exact bufExt_trans (closeGroup_ext st) (ih (closeGroup st))

theorem closeGroups_ext (st : EncSt) :
    ∃ t, (closeGroups st).buf = st.buf ++ t := by
  unfold closeGroups
  exact iterate_closeGroup_ext _ st

theorem appendFormatted_ext (st : EncSt) (fm : List Nat) :
    ∃ t, (appendFormatted st fm).buf = st.buf ++ t := by
  unfold appendFormatted
  by_cases h : fm = []
  · exact ⟨[], by simp [h]⟩
  · obtain ⟨t, hs⟩ := addSeparator_ext st
    exact ⟨t ++ fm, by simp [h, hs, List.append_assoc]⟩

/-- Strong induction on term size, proving at once that `AppendAttr` and
its attribute-list loop only append to the buffer. -/
theorem appendExt_aux : ∀ n : Nat,
    (∀ a : Attr, sizeOf a ≤ n → ∀ st : EncSt,
        ∃ t, (appendAttr st a).buf = st.buf ++ t)
    ∧ (∀ l : AttrList, sizeOf l ≤ n → ∀ st : EncSt,
        ∃ t, (appendAttrs st l).buf = st.buf ++ t) := by
  intro n
  induction n with
  | zero =>
      constructor
      · intro a ha
        exfalso
        cases a with
        | mk key v => simp at ha
      · intro l hl st
        cases l with
        | nil =>
            refine ⟨[], ?_⟩
            simp [appendAttrs]
        | cons a rest => exfalso; simp at hl
  | succ n ih =>
      constructor
      · intro a ha st
        cases a with
        | mk key v =>
          by_cases hz : attrIsZero (.mk key v)
          · refine ⟨[], ?_⟩
            have heq : appendAttr st (.mk key v) = st := by
              unfold appendAttr
              rw [if_pos hz]
            rw [heq, List.append_nil]
          · cases v with
            | group g =>
                have hg : sizeOf g ≤ n := by simp at ha; omega
                by_cases hne : g.isNil = false ∧ ¬key = []
                · have heq : appendAttr st (.mk key (.group g))
                      = closeGroup (appendAttrs (openGroup st key) g) := by
                    unfold appendAttr
                    rw [if_neg hz]
                    simp [hne]
                  rw [heq]
                  exact bufExt_trans (openGroup_ext st key)
                    (bufExt_trans (ih.2 g hg (openGroup st key))
                      (closeGroup_ext (appendAttrs (openGroup st key) g)))
                · have heq : appendAttr st (.mk key (.group g))
                      = appendAttrs st g := by
                    unfold appendAttr
                    rw [if_neg hz]
                    simp [hne]
                  rw [heq]
                  exact ih.2 g hg st
            | str s =>
                obtain ⟨t, h⟩ := addKey_ext st key
                refine ⟨t ++ addValueBytes (.str s), ?_⟩
                unfold appendAttr
                rw [if_neg hz]
                simp [h, List.append_assoc]
            | int i =>
                obtain ⟨t, h⟩ := addKey_ext st key
                refine ⟨t ++ addValueBytes (.int i), ?_⟩
                unfold appendAttr
                rw [if_neg hz]
                simp [h, List.append_assoc]
            | uint m =>
                obtain ⟨t, h⟩ := addKey_ext st key
                refine ⟨t ++ addValueBytes (.uint m), ?_⟩
                unfold appendAttr
                rw [if_neg hz]
                simp [h, List.append_assoc]
            | bool b =>
                obtain ⟨t, h⟩ := addKey_ext st key
                refine ⟨t ++ addValueBytes (.bool b), ?_⟩
                unfold appendAttr
                rw [if_neg hz]
                simp [h, List.append_assoc]
            | float f =>
                obtain ⟨t, h⟩ := addKey_ext st key
                refine ⟨t ++ addValueBytes (.float f), ?_⟩
                unfold appendAttr
                rw [if_neg hz]
                simp [h, List.append_assoc]
            | duration d =>
                obtain ⟨t, h⟩ := addKey_ext st key
                refine ⟨t ++ addValueBytes (.duration d), ?_⟩
                unfold appendAttr
                rw [if_neg hz]
                simp [h, List.append_assoc]
            | time tm =>
                obtain ⟨t, h⟩ := addKey_ext st key
                refine ⟨t ++ addValueBytes (.time tm), ?_⟩
                unfold appendAttr
                rw [if_neg hz]
                simp [h, List.append_assoc]
            | any x =>
                obtain ⟨t, h⟩ := addKey_ext st key
                refine ⟨t ++ addValueBytes (.any x), ?_⟩
                unfold appendAttr
                rw [if_neg hz]
                simp [h, List.append_assoc]
      · intro l hl st
        cases l with
        | nil =>
            refine ⟨[], ?_⟩
            simp [appendAttrs]
        | cons a rest =>
            have ha : sizeOf a ≤ n := by simp at hl; omega
            have hr : sizeOf rest ≤ n := by simp at hl; omega
            simp only [appendAttrs]
            exact bufExt_trans (ih.1 a ha st)
              (ih.2 rest hr (appendAttr st a))

theorem appendAttr_ext (a : Attr) (st : EncSt) :
    ∃ t, (appendAttr st a).buf = st.buf ++ t :=
  (appendExt_aux (sizeOf a)).1 a (Nat.le_refl _) st

theorem appendAttrs_ext (l : AttrList) (st : EncSt) :
    ∃ t, (appendAttrs st l).buf = st.buf ++ t :=
  (appendExt_aux (sizeOf l)).2 l (Nat.le_refl _) st

/-- C9: in development mode, when the preformatted span, the context
attributes and the record attributes together contribute no bytes (the
trailing object is exactly `\t\x7b\x7d`), the tab and the braces are
truncated away and the line is the prefix followed by a newline (the
newline elided only if the raw message itself ends in one); when they
contribute at least one byte the trailing object is kept verbatim. -/
theorem devMode_empty_attrs_elided (pre : List Nat)
    (groups : List (List Nat)) (ctx : AttrList) (r : Record) :
    (devAttrObject pre groups ctx r = [9, 123, 125] →
       encodeDevelopment pre groups ctx r
         = devPrefix r
           ++ (if (devPrefix r).getLast? = some 10 then [] else [10]))
    ∧ (devAttrObject pre groups ctx r ≠ [9, 123, 125] →
       encodeDevelopment pre groups ctx r
         = devPrefix r ++ devAttrObject pre groups ctx r ++ [10]) := by
  obtain ⟨t, ht⟩ :
      ∃ t, (closeGroups (appendAttrs
              (appendAttrs
                (appendFormatted (⟨devPrefix r ++ [9, 123], groups⟩ : EncSt) pre)
                ctx) r.attrs)).buf
        = (devPrefix r ++ [9, 123]) ++ t :=
    bufExt_trans (appendFormatted_ext _ pre)
      (bufExt_trans (appendAttrs_ext ctx _)
        (bufExt_trans (appendAttrs_ext r.attrs _) (closeGroups_ext _)))
  have hobj : devAttrObject pre groups ctx r = 9 :: 123 :: (t ++ [125]) := by
    simp only [devAttrObject, ht]
    rw [List.drop_left]
  constructor
  · intro h
    rw [hobj] at h
    have htnil : t = [] := by
      have hlen := congrArg List.length h
      simpa using hlen
    subst htnil
    simp only [encodeDevelopment, ht, List.append_nil]
    have hlen : ((devPrefix r ++ [9, 123]) ++ [125]).length
        - (devPrefix r).length = 3 := by
      simp
    rw [if_pos hlen]
    have htr : bufTruncate ((devPrefix r ++ [9, 123]) ++ [125])
        (devPrefix r).length = devPrefix r := by
      unfold bufTruncate
      rw [if_neg (by simp)]
      rw [List.append_assoc, List.take_left]
    rw [htr]
    by_cases hl : (devPrefix r).getLast? = some 10
    · rw [if_pos hl, hl]
      simp
    · rw [if_neg hl, if_neg hl]
  · intro h
    rw [hobj] at h
    have htne : t ≠ [] := by
      intro hnil
      exact h (by simp [hnil])
    simp only [encodeDevelopment, ht]
    have hlen : (((devPrefix r ++ [9, 123]) ++ t) ++ [125]).length
        - (devPrefix r).length ≠ 3 := by
      have : 0 < t.length := List.length_pos.mpr htne
      simp only [List.length_append, List.length_cons]
      omega
    rw [if_neg hlen]
    have hlast : (((devPrefix r ++ [9, 123]) ++ t) ++ [125]).getLast?
        = some 125 := List.getLast?_concat _
    rw [hlast, if_neg (by simp)]
    rw [hobj]
    simp [List.append_assoc]

theorem devMode_empty_attrs_elided_witness :
    (encodeDevelopment [] [] .nil { level := 0, message := [109] }
       = devPrefix { level := 0, message := [109] }
         ++ (if (devPrefix { level := 0, message := [109] }).getLast? = some 10
             then [] else [10]))
    ∧ (encodeDevelopment [] [] .nil
         { level := 0, message := [109],
           attrs := .cons (.mk [107] (.int 1)) .nil }
       = devPrefix
           { level := 0, message := [109],
             attrs := .cons (.mk [107] (.int 1)) .nil }
         ++ devAttrObject [] [] .nil
             { level := 0, message := [109],
               attrs := .cons (.mk [107] (.int 1)) .nil }
         ++ [10]) :=
  ⟨(devMode_empty_attrs_elided [] [] .nil
      { level := 0, message := [109] }).1 (by decide),
   (devMode_empty_attrs_elided [] [] .nil
      { level := 0, message := [109],
        attrs := .cons (.mk [107] (.int 1)) .nil }).2 (by decide)⟩

/-! ## Claim C1: JSON syntactic validity of encoded lines

An executable byte-level JSON recognizer (strict grammar of RFC 8259
values with no interstitial whitespace), used as the formal meaning of
"parses as syntactically valid JSON".  It is a pushdown automaton: one
state per token position, a stack of open object/array frames. -/

/-- An open JSON container frame. -/
inductive JFrame where
  | obj
  | arr
  deriving Repr, DecidableEq

/-- Where a string being scanned returns to: a value position or an
object-key position. -/
inductive StrRet where
  | val
  | key
  deriving Repr, DecidableEq

/-- Recognizer states.  `lit_*` states spell out the pending suffix of
`true`/`false`/`null`; `num*` states are the phases of a JSON number. -/
inductive JState where
  | expectValue (stk : List JFrame)
  | expectValueOrClose (stk : List JFrame)
  | expectKeyOrClose (stk : List JFrame)
  | expectKey (stk : List JFrame)
  | expectColon (stk : List JFrame)
  | afterValue (stk : List JFrame)
  | inStr (ret : StrRet) (stk : List JFrame)
  | inStrEsc (ret : StrRet) (stk : List JFrame)
  | inStrU (n : Nat) (ret : StrRet) (stk : List JFrame)
  | lit_rue (stk : List JFrame)
  | lit_ue (stk : List JFrame)
  | lit_e (stk : List JFrame)
  | lit_alse (stk : List JFrame)
  | lit_lse (stk : List JFrame)
  | lit_se (stk : List JFrame)
  | lit_ull (stk : List JFrame)
  | lit_ll (stk : List JFrame)
  | lit_l (stk : List JFrame)
  | numMinus (stk : List JFrame)
  | numZero (stk : List JFrame)
  | numInt (stk : List JFrame)
  | numDot (stk : List JFrame)
  | numFrac (stk : List JFrame)
  | numE (stk : List JFrame)
  | numESign (stk : List JFrame)
  | numExp (stk : List JFrame)
  | fail
  deriving Repr, DecidableEq

def isDigit (b : Nat) : Bool := decide (48 ≤ b ∧ b ≤ 57)

def isHexDig (b : Nat) : Bool :=
  decide ((48 ≤ b ∧ b ≤ 57) ∨ (97 ≤ b ∧ b ≤ 102) ∨ (65 ≤ b ∧ b ≤ 70))

/-- State after the closing quote of a string. -/
def strDone (ret : StrRet) (stk : List JFrame) : JState :=
  match ret with
  | .val => .afterValue stk
  | .key => .expectColon stk

/-- Transition taken right after a complete value: a comma continues the
enclosing container, `\x7d` / `]` close it, anything else is an error. -/
def popDelim (stk : List JFrame) (b : Nat) : JState :=
  if b = 44 then
    match stk with
    | .obj :: _ => .expectKey stk
    | .arr :: _ => .expectValue stk
    | [] => .fail
  else if b = 125 then
    match stk with
    | .obj :: rest => .afterValue rest
    | _ => .fail
  else if b = 93 then
    match stk with
    | .arr :: rest => .afterValue rest
    | _ => .fail
  else .fail

/-- Transition on the first byte of a value. -/
def startValue (stk : List JFrame) (b : Nat) : JState :=
  if b = 123 then .expectKeyOrClose (.obj :: stk)
  else if b = 91 then .expectValueOrClose (.arr :: stk)
  else if b = 34 then .inStr .val stk
  else if b = 45 then .numMinus stk
  else if b = 48 then .numZero stk
  else if isDigit b then .numInt stk
  else if b = 116 then .lit_rue stk
  else if b = 102 then .lit_alse stk
  else if b = 110 then .lit_ull stk
  else .fail

/-- One byte of the JSON recognizer. -/
def stepJ : JState → Nat → JState
  | .fail, _ => .fail
  | .expectValue stk, b => startValue stk b
  | .expectValueOrClose stk, b =>
      if b = 93 then
        match stk with
        | .arr :: rest => .afterValue rest
        | _ => .fail
      else startValue stk b
  | .expectKeyOrClose stk, b =>
      if b = 34 then .inStr .key stk
      else if b = 125 then
        match stk with
        | .obj :: rest => .afterValue rest
        | _ => .fail
      else .fail
  | .expectKey stk, b => if b = 34 then .inStr .key stk else .fail
  | .expectColon stk, b => if b = 58 then .expectValue stk else .fail
  | .afterValue stk, b => popDelim stk b
  | .inStr ret stk, b =>
      if b = 34 then strDone ret stk
      else if b = 92 then .inStrEsc ret stk
      else if b < 32 then .fail
      else .inStr ret stk
  | .inStrEsc ret stk, b =>
      if b = 117 then .inStrU 4 ret stk
      else if b = 34 ∨ b = 92 ∨ b = 47 ∨ b = 98 ∨ b = 102 ∨ b = 110
          ∨ b = 114 ∨ b = 116 then .inStr ret stk
      else .fail
  | .inStrU n ret stk, b =>
      if isHexDig b then
        if n = 1 then .inStr ret stk else .inStrU (n - 1) ret stk
      else .fail
  | .lit_rue stk, b => if b = 114 then .lit_ue stk else .fail
  | .lit_ue stk, b => if b = 117 then .lit_e stk else .fail
  | .lit_e stk, b => if b = 101 then .afterValue stk else .fail
  | .lit_alse stk, b => if b = 97 then .lit_lse stk else .fail
  | .lit_lse stk, b => if b = 108 then .lit_se stk else .fail
  | .lit_se stk, b => if b = 115 then .lit_e stk else .fail
  | .lit_ull stk, b => if b = 117 then .lit_ll stk else .fail
  | .lit_ll stk, b => if b = 108 then .lit_l stk else .fail
  | .lit_l stk, b => if b = 108 then .afterValue stk else .fail
  | .numMinus stk, b =>
      if b = 48 then .numZero stk
      else if isDigit b then .numInt stk
      else .fail
  | .numZero stk, b =>
      if b = 46 then .numDot stk
      else if b = 101 ∨ b = 69 then .numE stk
      else popDelim stk b
  | .numInt stk, b =>
      if isDigit b then .numInt stk
      else if b = 46 then .numDot stk
      else if b = 101 ∨ b = 69 then .numE stk
      else popDelim stk b
  | .numDot stk, b => if isDigit b then .numFrac stk else .fail
  | .numFrac stk, b =>
      if isDigit b then .numFrac stk
      else if b = 101 ∨ b = 69 then .numE stk
      else popDelim stk b
  | .numE stk, b =>
      if b = 43 ∨ b = 45 then .numESign stk
      else if isDigit b then .numExp stk
      else .fail
  | .numESign stk, b => if isDigit b then .numExp stk else .fail
  | .numExp stk, b =>
      if isDigit b then .numExp stk
      else popDelim stk b

/-- Run the recognizer over a byte list. -/
def runJ (s : JState) (l : List Nat) : JState := l.foldl stepJ s

/-- States in which a complete top-level value has just ended. -/
def valueDone : JState → Bool
  | .afterValue [] => true
  | .numZero [] => true
  | .numInt [] => true
  | .numFrac [] => true
  | .numExp [] => true
  | _ => false

/-- A byte list is syntactically a single JSON value (strict grammar, no
surrounding whitespace). -/
def jsonValid (l : List Nat) : Bool := valueDone (runJ (.expectValue []) l)

-- Recognizer sanity checks.
example : jsonValid [123, 125] = true := by decide
example : jsonValid [123, 34, 97, 34, 58, 49, 50, 125] = true := by decide
example : jsonValid [91, 116, 114, 117, 101, 44, 110, 117, 108, 108, 93] = true := by decide
example : jsonValid [45, 49, 46, 53, 101, 43, 50] = true := by decide
example : jsonValid [78, 97, 78] = false := by decide
example : jsonValid [123, 34, 97, 34, 58, 49, 32, 34, 98, 34, 58, 50, 125] = false := by decide
example : jsonValid [123, 34, 97, 34, 58, 125] = false := by decide
example : jsonValid [48, 49] = false := by decide

theorem runJ_append (s : JState) (a b : List Nat) :
    runJ s (a ++ b) = runJ (runJ s a) b := by
  simp [runJ, List.foldl_append]

theorem runJ_cons (s : JState) (b : Nat) (l : List Nat) :
    runJ s (b :: l) = runJ (stepJ s b) l := rfl

theorem runJ_nil (s : JState) : runJ s [] = s := rfl

theorem runJ_fail (l : List Nat) : runJ .fail l = .fail := by
  induction l with
  | nil => rfl
  | cons b l ih => simpa [runJ_cons, stepJ] using ih

/-- Extend the frame stack below a state (used to transplant the run of a
spliced marshaler payload into a nested context). -/
def addStk (extra : List JFrame) : JState → JState
  | .expectValue stk => .expectValue (stk ++ extra)
  | .expectValueOrClose stk => .expectValueOrClose (stk ++ extra)
  | .expectKeyOrClose stk => .expectKeyOrClose (stk ++ extra)
  | .expectKey stk => .expectKey (stk ++ extra)
  | .expectColon stk => .expectColon (stk ++ extra)
  | .afterValue stk => .afterValue (stk ++ extra)
  | .inStr ret stk => .inStr ret (stk ++ extra)
  | .inStrEsc ret stk => .inStrEsc ret (stk ++ extra)
  | .inStrU n ret stk => .inStrU n ret (stk ++ extra)
  | .lit_rue stk => .lit_rue (stk ++ extra)
  | .lit_ue stk => .lit_ue (stk ++ extra)
  | .lit_e stk => .lit_e (stk ++ extra)
  | .lit_alse stk => .lit_alse (stk ++ extra)
  | .lit_lse stk => .lit_lse (stk ++ extra)
  | .lit_se stk => .lit_se (stk ++ extra)
  | .lit_ull stk => .lit_ull (stk ++ extra)
  | .lit_ll stk => .lit_ll (stk ++ extra)
  | .lit_l stk => .lit_l (stk ++ extra)
  | .numMinus stk => .numMinus (stk ++ extra)
  | .numZero stk => .numZero (stk ++ extra)
  | .numInt stk => .numInt (stk ++ extra)
  | .numDot stk => .numDot (stk ++ extra)
  | .numFrac stk => .numFrac (stk ++ extra)
  | .numE stk => .numE (stk ++ extra)
  | .numESign stk => .numESign (stk ++ extra)
  | .numExp stk => .numExp (stk ++ extra)
  | .fail => .fail

theorem startValue_addStk (extra stk : List JFrame) (b : Nat) :
    startValue (stk ++ extra) b = addStk extra (startValue stk b) := by
  unfold startValue
  split_ifs <;> simp [addStk]

theorem popDelim_addStk (extra stk : List JFrame) (b : Nat)
    (h : popDelim stk b ≠ .fail) :
    popDelim (stk ++ extra) b = addStk extra (popDelim stk b) := by
  unfold popDelim at h ⊢
  split_ifs at h ⊢ with h44 h125 h93
  · cases stk with
    | nil => simp at h
    | cons f rest => cases f <;> simp [addStk]
  · cases stk with
    | nil => simp at h
    | cons f rest =>
        cases f
        · simp [addStk]
        · simp at h
  · cases stk with
    | nil => simp at h
    | cons f rest =>
        cases f
        · simp at h
        · simp [addStk]
  · simp at h

theorem stepJ_addStk (extra : List JFrame) (s : JState) (b : Nat)
    (h : stepJ s b ≠ .fail) :
    stepJ (addStk extra s) b = addStk extra (stepJ s b) := by
  cases s with
  | expectValue stk =>
      have hL : stepJ (addStk extra (JState.expectValue stk)) b
          = startValue (stk ++ extra) b := by simp [stepJ, addStk]
      have hR : stepJ (JState.expectValue stk) b = startValue stk b := by
        simp [stepJ]
      rw [hL, hR, startValue_addStk]
  | expectValueOrClose stk =>
      by_cases h93 : b = 93
      · subst h93
        cases stk with
        | nil => simp [stepJ] at h
        | cons f rest =>
            cases f
            · simp [stepJ] at h
            · simp [stepJ, addStk]
      · have hL : stepJ (addStk extra (JState.expectValueOrClose stk)) b
            = startValue (stk ++ extra) b := by simp [stepJ, addStk, h93]
        have hR : stepJ (JState.expectValueOrClose stk) b = startValue stk b := by
          simp [stepJ, h93]
        rw [hL, hR, startValue_addStk]
  | expectKeyOrClose stk =>
      by_cases h34 : b = 34
      · simp [stepJ, addStk, h34]
      · by_cases h125 : b = 125
        · subst h125
          cases stk with
          | nil => simp [stepJ, h34] at h
          | cons f rest =>
              cases f
              · simp [stepJ, addStk, h34]
              · simp [stepJ, h34] at h
        · simp [stepJ, h34, h125] at h
  | expectKey stk =>
      by_cases h34 : b = 34
      · simp [stepJ, addStk, h34]
      · simp [stepJ, h34] at h
  | expectColon stk =>
      by_cases h58 : b = 58
      · simp [stepJ, addStk, h58]
      · simp [stepJ, h58] at h
  | afterValue stk =>
      have hL : stepJ (addStk extra (JState.afterValue stk)) b
          = popDelim (stk ++ extra) b := by simp [stepJ, addStk]
      have hR : stepJ (JState.afterValue stk) b = popDelim stk b := by
        simp [stepJ]
      rw [hR] at h
      rw [hL, hR]
      exact popDelim_addStk extra stk b h
  | inStr ret stk =>
      by_cases h34 : b = 34
      · subst h34
        cases ret <;> simp [stepJ, addStk, strDone]
      · by_cases h92 : b = 92
        · subst h92; simp [stepJ, addStk]
        · by_cases hlt : b < 32
          · simp [stepJ, h34, h92, hlt] at h
          · simp [stepJ, addStk, h34, h92, hlt]
  | inStrEsc ret stk =>
      by_cases h117 : b = 117
      · simp [stepJ, addStk, h117]
      · by_cases hesc : b = 34 ∨ b = 92 ∨ b = 47 ∨ b = 98 ∨ b = 102 ∨ b = 110
            ∨ b = 114 ∨ b = 116
        · rcases hesc with rfl | rfl | rfl | rfl | rfl | rfl | rfl | rfl <;>
            simp [stepJ, addStk]
        · simp [stepJ, h117, hesc] at h
  | inStrU n ret stk =>
      by_cases hx : isHexDig b
      · by_cases h1 : n = 1
        · simp [stepJ, addStk, hx, h1]
        · simp [stepJ, addStk, hx, h1]
      · simp [stepJ, hx] at h
  | lit_rue stk =>
      by_cases hc : b = 114
      · simp [stepJ, addStk, hc]
      · simp [stepJ, hc] at h
  | lit_ue stk =>
      by_cases hc : b = 117
      · simp [stepJ, addStk, hc]
      · simp [stepJ, hc] at h
  | lit_e stk =>
      by_cases hc : b = 101
      · simp [stepJ, addStk, hc]
      · simp [stepJ, hc] at h
  | lit_alse stk =>
      by_cases hc : b = 97
      · simp [stepJ, addStk, hc]
      · simp [stepJ, hc] at h
  | lit_lse stk =>
      by_cases hc : b = 108
      · simp [stepJ, addStk, hc]
      · simp [stepJ, hc] at h
  | lit_se stk =>
      by_cases hc : b = 115
      · simp [stepJ, addStk, hc]
      · simp [stepJ, hc] at h
  | lit_ull stk =>
      by_cases hc : b = 117
      · simp [stepJ, addStk, hc]
      · simp [stepJ, hc] at h
  | lit_ll stk =>
      by_cases hc : b = 108
      · simp [stepJ, addStk, hc]
      · simp [stepJ, hc] at h
  | lit_l stk =>
      by_cases hc : b = 108
      · simp [stepJ, addStk, hc]
      · simp [stepJ, hc] at h
  | numMinus stk =>
      by_cases h48 : b = 48
      · simp [stepJ, addStk, h48]
      · by_cases hd : isDigit b
        · simp [stepJ, addStk, h48, hd]
        · simp [stepJ, h48, hd] at h
  | numZero stk =>
      by_cases h46 : b = 46
      · simp [stepJ, addStk, h46]
      · by_cases hE : b = 101 ∨ b = 69
        · rcases hE with rfl | rfl <;> simp [stepJ, addStk]
        · have hL : stepJ (addStk extra (JState.numZero stk)) b
              = popDelim (stk ++ extra) b := by simp [stepJ, addStk, h46, hE]
          have hR : stepJ (JState.numZero stk) b = popDelim stk b := by
            simp [stepJ, h46, hE]
          rw [hR] at h
          rw [hL, hR]
          exact popDelim_addStk extra stk b h
  | numInt stk =>
      by_cases hd : isDigit b
      · simp [stepJ, addStk, hd]
      · by_cases h46 : b = 46
        · subst h46
          simp [stepJ, addStk, hd]
        · by_cases hE : b = 101 ∨ b = 69
          · rcases hE with rfl | rfl <;> simp [stepJ, addStk, isDigit]
          · have hL : stepJ (addStk extra (JState.numInt stk)) b
                = popDelim (stk ++ extra) b := by simp [stepJ, addStk, hd, h46, hE]
            have hR : stepJ (JState.numInt stk) b = popDelim stk b := by
              simp [stepJ, hd, h46, hE]
            rw [hR] at h
            rw [hL, hR]
            exact popDelim_addStk extra stk b h
  | numDot stk =>
      by_cases hd : isDigit b
      · simp [stepJ, addStk, hd]
      · simp [stepJ, hd] at h
  | numFrac stk =>
      by_cases hd : isDigit b
      · simp [stepJ, addStk, hd]
      · by_cases hE : b = 101 ∨ b = 69
        · rcases hE with rfl | rfl <;> simp [stepJ, addStk, isDigit]
        · have hL : stepJ (addStk extra (JState.numFrac stk)) b
              = popDelim (stk ++ extra) b := by simp [stepJ, addStk, hd, hE]
          have hR : stepJ (JState.numFrac stk) b = popDelim stk b := by
            simp [stepJ, hd, hE]
          rw [hR] at h
          rw [hL, hR]
          exact popDelim_addStk extra stk b h
  | numE stk =>
      by_cases hs : b = 43 ∨ b = 45
      · rcases hs with rfl | rfl <;> simp [stepJ, addStk]
      · by_cases hd : isDigit b
        · simp [stepJ, addStk, hs, hd]
        · simp [stepJ, hs, hd] at h
  | numESign stk =>
      by_cases hd : isDigit b
      · simp [stepJ, addStk, hd]
      · simp [stepJ, hd] at h
  | numExp stk =>
      by_cases hd : isDigit b
      · simp [stepJ, addStk, hd]
      · have hL : stepJ (addStk extra (JState.numExp stk)) b
            = popDelim (stk ++ extra) b := by simp [stepJ, addStk, hd]
        have hR : stepJ (JState.numExp stk) b = popDelim stk b := by
          simp [stepJ, hd]
        rw [hR] at h
        rw [hL, hR]
        exact popDelim_addStk extra stk b h
  | fail => exact absurd rfl h

theorem runJ_addStk (extra : List JFrame) :
    ∀ (l : List Nat) (s : JState), runJ s l ≠ .fail →
      runJ (addStk extra s) l = addStk extra (runJ s l) := by
  intro l
  induction l with
  | nil => intro s _; rfl
  | cons b l ih =>
      intro s h
      rw [runJ_cons] at h ⊢
      have hstep : stepJ s b ≠ .fail := by
        intro hf
        rw [hf, runJ_fail] at h
        exact h rfl
      rw [stepJ_addStk extra s b hstep]
      exact ih (stepJ s b) h

/-- The recognizer states reached right after a complete value in frame
stack `stk`. -/
def DoneSt (s : JState) (stk : List JFrame) : Prop :=
  s = .afterValue stk ∨ s = .numZero stk ∨ s = .numInt stk
    ∨ s = .numFrac stk ∨ s = .numExp stk

theorem DoneSt_comma (s : JState) (rest : List JFrame)
    (h : DoneSt s (.obj :: rest)) :
    stepJ s 44 = .expectKey (.obj :: rest) := by
  rcases h with rfl | rfl | rfl | rfl | rfl <;>
    simp [stepJ, popDelim, isDigit]

theorem DoneSt_closeBrace (s : JState) (rest : List JFrame)
    (h : DoneSt s (.obj :: rest)) :
    stepJ s 125 = .afterValue rest := by
  rcases h with rfl | rfl | rfl | rfl | rfl <;>
    simp [stepJ, popDelim, isDigit]

theorem DoneSt_commaArr (s : JState) (rest : List JFrame)
    (h : DoneSt s (.arr :: rest)) :
    stepJ s 44 = .expectValue (.arr :: rest) := by
  rcases h with rfl | rfl | rfl | rfl | rfl <;>
    simp [stepJ, popDelim, isDigit]

theorem DoneSt_closeBracket (s : JState) (rest : List JFrame)
    (h : DoneSt s (.arr :: rest)) :
    stepJ s 93 = .afterValue rest := by
  rcases h with rfl | rfl | rfl | rfl | rfl <;>
    simp [stepJ, popDelim, isDigit]

theorem DoneSt_addStk (s : JState) (stk : List JFrame)
    (h : DoneSt s []) : DoneSt (addStk stk s) stk := by
  rcases h with rfl | rfl | rfl | rfl | rfl <;>
    simp [DoneSt, addStk]

theorem DoneSt_startValue (stk' stk : List JFrame) (b : Nat)
    (h : DoneSt (startValue stk' b) stk) : isDigit b = true := by
  unfold startValue at h
  split_ifs at h with h1 h2 h3 h4 h5 h6
  · simp [DoneSt] at h
  · simp [DoneSt] at h
  · simp [DoneSt] at h
  · simp [DoneSt] at h
  · rw [h5]; decide
  · exact h6
  · simp [DoneSt] at h
  · simp [DoneSt] at h
  · simp [DoneSt] at h
  · simp [DoneSt] at h

theorem DoneSt_popDelim (stk' stk : List JFrame) (b : Nat)
    (h : DoneSt (popDelim stk' b) stk) : b = 125 ∨ b = 93 := by
  unfold popDelim at h
  split_ifs at h with h44 h125 h93
  · cases stk' with
    | nil => simp [DoneSt] at h
    | cons f r => cases f <;> simp [DoneSt] at h
  · exact Or.inl h125
  · exact Or.inr h93
  · simp [DoneSt] at h

/-- Any recognizer step that lands in a value-complete state consumed a
byte outside the separator-suppressing set `sepSet`; hence a spliced
checker-valid payload always ends in a byte after which `addSeparator`
writes its comma. -/
theorem DoneSt_last (s : JState) (b : Nat) (stk : List JFrame)
    (h : DoneSt (stepJ s b) stk) : ¬ b ∈ sepSet := by
  intro hb
  cases s with
  | expectValue stk' =>
      simp only [stepJ] at h
      have hd := DoneSt_startValue stk' stk b h
      fin_cases hb <;> simp [isDigit] at hd
  | expectValueOrClose stk' =>
      by_cases h93 : b = 93
      · subst h93; simp [sepSet] at hb
      · simp only [stepJ, if_neg h93] at h
        have hd := DoneSt_startValue stk' stk b h
        fin_cases hb <;> simp [isDigit] at hd
  | expectKeyOrClose stk' =>
      simp only [stepJ] at h
      split_ifs at h with h34 h125
      · simp [DoneSt] at h
      · subst h125; simp [sepSet] at hb
      · simp [DoneSt] at h
  | expectKey stk' =>
      simp only [stepJ] at h
      split_ifs at h <;> simp [DoneSt] at h
  | expectColon stk' =>
      simp only [stepJ] at h
      split_ifs at h <;> simp [DoneSt] at h
  | afterValue stk' =>
      simp only [stepJ] at h
      rcases DoneSt_popDelim stk' stk b h with rfl | rfl <;> simp [sepSet] at hb
  | inStr ret stk' =>
      simp only [stepJ] at h
      split_ifs at h with h34 h92 hlt
      · subst h34; simp [sepSet] at hb
      · simp [DoneSt] at h
      · simp [DoneSt] at h
      · simp [DoneSt] at h
  | inStrEsc ret stk' =>
      simp only [stepJ] at h
      split_ifs at h <;> simp [DoneSt] at h
  | inStrU n ret stk' =>
      simp only [stepJ] at h
      split_ifs at h <;> simp [DoneSt] at h
  | lit_rue stk' =>
      simp only [stepJ] at h
      split_ifs at h <;> simp [DoneSt] at h
  | lit_ue stk' =>
      simp only [stepJ] at h
      split_ifs at h <;> simp [DoneSt] at h
  | lit_e stk' =>
      simp only [stepJ] at h
      split_ifs at h with h101
      · subst h101; simp [sepSet] at hb
      · simp [DoneSt] at h
  | lit_alse stk' =>
      simp only [stepJ] at h
      split_ifs at h <;> simp [DoneSt] at h
  | lit_lse stk' =>
      simp only [stepJ] at h
      split_ifs at h <;> simp [DoneSt] at h
  | lit_se stk' =>
      simp only [stepJ] at h
      split_ifs at h <;> simp [DoneSt] at h
  | lit_ull stk' =>
      simp only [stepJ] at h
      split_ifs at h <;> simp [DoneSt] at h
  | lit_ll stk' =>
      simp only [stepJ] at h
      split_ifs at h <;> simp [DoneSt] at h
  | lit_l stk' =>
      simp only [stepJ] at h
      split_ifs at h with h108
      · subst h108; simp [sepSet] at hb
      · simp [DoneSt] at h
  | numMinus stk' =>
      simp only [stepJ] at h
      split_ifs at h with h48 hd
      · subst h48; simp [sepSet] at hb
      · fin_cases hb <;> simp [isDigit] at hd
      · simp [DoneSt] at h
  | numZero stk' =>
      simp only [stepJ] at h
      split_ifs at h with h46 hE
      · simp [DoneSt] at h
      · simp [DoneSt] at h
      · rcases DoneSt_popDelim stk' stk b h with rfl | rfl <;> simp [sepSet] at hb
  | numInt stk' =>
      simp only [stepJ] at h
      split_ifs at h with hd h46 hE
      · fin_cases hb <;> simp [isDigit] at hd
      · simp [DoneSt] at h
      · simp [DoneSt] at h
      · rcases DoneSt_popDelim stk' stk b h with rfl | rfl <;> simp [sepSet] at hb
  | numDot stk' =>
      simp only [stepJ] at h
      split_ifs at h with hd
      · fin_cases hb <;> simp [isDigit] at hd
      · simp [DoneSt] at h
  | numFrac stk' =>
      simp only [stepJ] at h
      split_ifs at h with hd hE
      · fin_cases hb <;> simp [isDigit] at hd
      · simp [DoneSt] at h
      · rcases DoneSt_popDelim stk' stk b h with rfl | rfl <;> simp [sepSet] at hb
  | numE stk' =>
      simp only [stepJ] at h
      split_ifs at h with hs hd
      · simp [DoneSt] at h
      · fin_cases hb <;> simp [isDigit] at hd
      · simp [DoneSt] at h
  | numESign stk' =>
      simp only [stepJ] at h
      split_ifs at h with hd
      · fin_cases hb <;> simp [isDigit] at hd
      · simp [DoneSt] at h
  | numExp stk' =>
      simp only [stepJ] at h
      split_ifs at h with hd
      · fin_cases hb <;> simp [isDigit] at hd
      · rcases DoneSt_popDelim stk' stk b h with rfl | rfl <;> simp [sepSet] at hb
  | fail =>
      simp only [stepJ] at h
      simp [DoneSt] at h

/-! ### Strings: the escaping engine always yields a syntactic JSON string -/

/-- Bytes that may stand unescaped inside a JSON string literal. -/
def strSafe (b : Nat) : Bool := decide (¬ b = 34 ∧ ¬ b = 92 ∧ ¬ b < 32)

theorem stepJ_inStr_safe (ret : StrRet) (stk : List JFrame) (b : Nat)
    (h : strSafe b = true) :
    stepJ (.inStr ret stk) b = .inStr ret stk := by
  simp [strSafe] at h
  simp [stepJ, h.1, h.2.1, h.2.2]

theorem runJ_inStr_safe (ret : StrRet) (stk : List JFrame) :
    ∀ l : List Nat, (∀ x ∈ l, strSafe x = true) →
      runJ (.inStr ret stk) l = .inStr ret stk := by
  intro l
  induction l with
  | nil => intro _; rfl
  | cons b bs ih =>
      intro h
      rw [runJ_cons, stepJ_inStr_safe ret stk b (h b (by simp))]
      exact ih (fun x hx => h x (by simp [hx]))

/-- Entering a string at a `34` and scanning safe content plus the closing
quote returns through `strDone`. -/
theorem runJ_quoted_safe (s0 : JState) (ret : StrRet) (stk : List JFrame)
    (content : List Nat) (hq : stepJ s0 34 = .inStr ret stk)
    (hc : ∀ x ∈ content, strSafe x = true) :
    runJ s0 (34 :: content ++ [34]) = strDone ret stk := by
  rw [List.cons_append, runJ_cons, hq, runJ_append,
    runJ_inStr_safe ret stk content hc]
  simp [runJ, stepJ]

theorem safeSet_strSafe (b : Nat) (h : safeSet b = true) : strSafe b = true := by
  have hall : safeSetList.all (fun x => strSafe x) = true := by decide
  have hmem : b ∈ safeSetList := by simpa [safeSet] using h
  exact List.all_eq_true.mp hall b hmem

theorem isHexDig_hexDigit (d : Nat) (h : d < 16) :
    isHexDig (hexDigit d) = true := by
  unfold hexDigit
  split_ifs with h10
  · simp [isHexDig]; omega
  · simp [isHexDig]; omega

theorem runJ_inStr_escByte (ret : StrRet) (stk : List JFrame) (b : Nat)
    (hb : b < 256) :
    runJ (.inStr ret stk) (escByte b) = .inStr ret stk := by
  unfold escByte
  split_ifs with h1 h2 h3 h4
  · rcases h1 with rfl | rfl <;> simp [runJ, stepJ]
  · simp [runJ, stepJ]
  · simp [runJ, stepJ]
  · simp [runJ, stepJ]
  · have hhi := isHexDig_hexDigit (b / 16) (by omega)
    have hlo := isHexDig_hexDigit (b % 16) (by omega)
    have hsplit : ([92, 117, 48, 48, hexDigit (b / 16), hexDigit (b % 16)] : List Nat)
        = [92, 117, 48, 48] ++ [hexDigit (b / 16), hexDigit (b % 16)] := rfl
    have hpre : runJ (.inStr ret stk) [92, 117, 48, 48] = .inStrU 2 ret stk := by
      simp [runJ, stepJ, isHexDig]
    rw [hsplit, runJ_append, hpre]
    simp [runJ, stepJ, hhi, hlo]

theorem runJ_inStr_esc202X (ret : StrRet) (stk : List JFrame) (c : Nat) :
    runJ (.inStr ret stk) (esc202X c) = .inStr ret stk := by
  have hlo := isHexDig_hexDigit (c % 16) (by omega)
  have hsplit : esc202X c = [92, 117, 50, 48, 50] ++ [hexDigit (c % 16)] := rfl
  have hpre : runJ (.inStr ret stk) [92, 117, 50, 48, 50] = .inStrU 1 ret stk := by
    simp [runJ, stepJ, isHexDig]
  rw [hsplit, runJ_append, hpre]
  simp [runJ, stepJ, hlo]

theorem runJ_inStr_escFFFD (ret : StrRet) (stk : List JFrame) :
    runJ (.inStr ret stk) escFFFD = .inStr ret stk := by
  simp [escFFFD, runJ, stepJ, isHexDig]

/-- The body produced by the escaping engine never leaves the in-string
state, for arbitrary input bytes. -/
theorem runJ_inStr_body (ret : StrRet) (stk : List JFrame) :
    ∀ (n : Nat) (s : List Nat), s.length ≤ n →
      runJ (.inStr ret stk) (jsonEncodeStringBody s) = .inStr ret stk := by
  intro n
  induction n with
  | zero =>
      intro s hs
      have : s = [] := List.length_eq_zero.mp (Nat.le_zero.mp hs)
      subst this
      rfl
  | succ n ih =>
      intro s hs
      match s with
      | [] => rfl
      | b :: bs =>
        have hbs : bs.length ≤ n := by simp at hs; omega
        rw [jsonEncodeStringBody_cons]
        by_cases hb : b < 0x80
        · rw [if_pos hb, runJ_append]
          by_cases hsafe : safeSet b
          · rw [if_pos hsafe]
            rw [runJ_cons, stepJ_inStr_safe ret stk b (safeSet_strSafe b hsafe)]
            exact ih bs hbs
          · rw [if_neg hsafe, runJ_inStr_escByte ret stk b (by omega)]
            exact ih bs hbs
        · rw [if_neg hb]
          dsimp only
          by_cases hf : (utf8DecodeFirst (b :: bs)).1 = 0xFFFD
              ∧ (utf8DecodeFirst (b :: bs)).2 = 1
          · rw [if_pos hf, runJ_append, runJ_inStr_escFFFD]
            exact ih bs hbs
          · rw [if_neg hf]
            have hdrop : (bs.drop ((utf8DecodeFirst (b :: bs)).2 - 1)).length ≤ n := by
              have := List.length_drop ((utf8DecodeFirst (b :: bs)).2 - 1) bs
              omega
            by_cases h28 : (utf8DecodeFirst (b :: bs)).1 = 0x2028
                ∨ (utf8DecodeFirst (b :: bs)).1 = 0x2029
            · rw [if_pos h28, runJ_append, runJ_inStr_esc202X]
              exact ih _ hdrop
            · rw [if_neg h28, runJ_append]
              have hn2 : 2 ≤ (utf8DecodeFirst (b :: bs)).2 := by
                rcases utf8DecodeFirst_cases b bs hb with hcase | hcase
                · exact absurd ⟨by rw [hcase], by rw [hcase]⟩ hf
                · exact hcase
              obtain ⟨htake, _, hge⟩ := utf8DecodeFirst_canon (b :: bs) hn2
              rw [htake, runJ_inStr_safe]
              · exact ih _ hdrop
              · intro x hx
                have := utf8Encode_range (utf8DecodeFirst (b :: bs)).1 hge x hx
                simp [strSafe]
                omega

/-- `jsonEncodeString` of ANY byte sequence scans as one complete JSON
string: this is the backbone of the validity claim for pathological
values. -/
theorem runJ_jsonEncodeString (s0 : JState) (ret : StrRet)
    (stk : List JFrame) (str : List Nat) (hq : stepJ s0 34 = .inStr ret stk) :
    runJ s0 (jsonEncodeString str) = strDone ret stk := by
  unfold jsonEncodeString
  rw [List.cons_append, runJ_cons, hq, runJ_append,
    runJ_inStr_body ret stk str.length str le_rfl]
  simp [runJ, stepJ]

/-! ### Numbers: decimal renderings scan as JSON numbers -/

theorem digitsAux_digits (f : Nat) :
    ∀ n, ∀ x ∈ digitsAux f n, 48 ≤ x ∧ x ≤ 57 := by
  induction f with
  | zero => intro n x hx; simp [digitsAux] at hx
  | succ f ih =>
      intro n x hx
      unfold digitsAux at hx
      split_ifs at hx with h0
      · simp at hx
      · rcases List.mem_cons.mp hx with rfl | hx
        · omega
        · exact ih (n / 10) x hx

theorem digitsAux_getLast (f : Nat) :
    ∀ n, n ≠ 0 → n ≤ f →
      ∃ d, (digitsAux f n).getLast? = some d ∧ 49 ≤ d ∧ d ≤ 57 := by
  induction f with
  | zero => intro n h0 hf; omega
  | succ f ih =>
      intro n h0 hf
      unfold digitsAux
      rw [if_neg h0]
      by_cases hq : n / 10 = 0
      · have hlt : n < 10 := by omega
        have hnil : digitsAux f (n / 10) = [] := by
          rw [hq]
          cases f <;> simp [digitsAux]
        rw [hnil]
        exact ⟨48 + n % 10, by simp, by omega, by omega⟩
      · obtain ⟨d, hd, h49, h57⟩ := ih (n / 10) hq (by omega)
        refine ⟨d, ?_, h49, h57⟩
        rw [List.getLast?_cons, hd]
        rfl

theorem runJ_numInt_digits (stk : List JFrame) :
    ∀ ds : List Nat, (∀ x ∈ ds, 48 ≤ x ∧ x ≤ 57) →
      runJ (.numInt stk) ds = .numInt stk := by
  intro ds
  induction ds with
  | nil => intro _; rfl
  | cons d ds ih =>
      intro h
      have hd := h d (by simp)
      rw [runJ_cons]
      have hstep : stepJ (JState.numInt stk) d = .numInt stk := by
        have hdig : isDigit d = true := by simp [isDigit]; omega
        simp [stepJ, hdig]
      rw [hstep]
      exact ih (fun x hx => h x (by simp [hx]))

theorem runJ_numFrac_digits (stk : List JFrame) :
    ∀ ds : List Nat, (∀ x ∈ ds, 48 ≤ x ∧ x ≤ 57) →
      runJ (.numFrac stk) ds = .numFrac stk := by
  intro ds
  induction ds with
  | nil => intro _; rfl
  | cons d ds ih =>
      intro h
      have hd := h d (by simp)
      rw [runJ_cons]
      have hstep : stepJ (JState.numFrac stk) d = .numFrac stk := by
        have hdig : isDigit d = true := by simp [isDigit]; omega
        simp [stepJ, hdig]
      rw [hstep]
      exact ih (fun x hx => h x (by simp [hx]))

/-- `natToDecimal n` is the digit `0` or a digit run led by `1`-`9`. -/
theorem natToDecimal_shape (n : Nat) :
    (n = 0 ∧ natToDecimal n = [48])
    ∨ ∃ d ds, natToDecimal n = d :: ds ∧ 49 ≤ d ∧ d ≤ 57
        ∧ (∀ x ∈ ds, 48 ≤ x ∧ x ≤ 57) := by
  by_cases h0 : n = 0
  · refine Or.inl ⟨h0, ?_⟩
    rw [h0]
    rfl
  · right
    obtain ⟨d, hd, h49, h57⟩ := digitsAux_getLast n n h0 le_rfl
    have hrev : (digitsAux n n).reverse.head? = some d := by
      rw [List.head?_reverse, hd]
    match hrw : (digitsAux n n).reverse with
    | [] => rw [hrw] at hrev; simp at hrev
    | a :: rest =>
        rw [hrw] at hrev
        simp at hrev
        subst hrev
        refine ⟨a, rest, ?_, h49, h57, ?_⟩
        · unfold natToDecimal
          rw [if_neg h0, hrw]
        · intro x hx
          have hxmem : x ∈ (digitsAux n n).reverse := by simp [hrw, hx]
          rw [List.mem_reverse] at hxmem
          exact digitsAux_digits n n x hxmem

theorem stepJ_startDigit (stk : List JFrame) (d : Nat)
    (h49 : 49 ≤ d) (h57 : d ≤ 57) :
    stepJ (JState.expectValue stk) d = .numInt stk := by
  have hdig : isDigit d = true := by simp [isDigit]; omega
  have h1 : ¬ d = 123 := by omega
  have h2 : ¬ d = 91 := by omega
  have h3 : ¬ d = 34 := by omega
  have h4 : ¬ d = 45 := by omega
  have h5 : ¬ d = 48 := by omega
  simp [stepJ, startValue, h1, h2, h3, h4, h5, hdig]

theorem runJ_natToDecimal (stk : List JFrame) (n : Nat) :
    runJ (.expectValue stk) (natToDecimal n) = .numZero stk
    ∨ runJ (.expectValue stk) (natToDecimal n) = .numInt stk := by
  rcases natToDecimal_shape n with ⟨_, hl⟩ | ⟨d, ds, hl, h49, h57, hds⟩
  · rw [hl]
    left
    simp [runJ, stepJ, startValue]
  · rw [hl, runJ_cons, stepJ_startDigit stk d h49 h57]
    right
    exact runJ_numInt_digits stk ds hds

theorem runJ_numMinus_natToDecimal (stk : List JFrame) (n : Nat) :
    runJ (.numMinus stk) (natToDecimal n) = .numZero stk
    ∨ runJ (.numMinus stk) (natToDecimal n) = .numInt stk := by
  rcases natToDecimal_shape n with ⟨_, hl⟩ | ⟨d, ds, hl, h49, h57, hds⟩
  · rw [hl]
    left
    simp [runJ, stepJ]
  · rw [hl, runJ_cons]
    right
    have hstep : stepJ (JState.numMinus stk) d = .numInt stk := by
      have hdig : isDigit d = true := by simp [isDigit]; omega
      have h48 : ¬ d = 48 := by omega
      simp [stepJ, h48, hdig]
    rw [hstep]
    exact runJ_numInt_digits stk ds hds

theorem runJ_intToDecimal (stk : List JFrame) (i : Int) :
    runJ (.expectValue stk) (intToDecimal i) = .numZero stk
    ∨ runJ (.expectValue stk) (intToDecimal i) = .numInt stk := by
  unfold intToDecimal
  split_ifs with hneg
  · rw [runJ_cons]
    have hstep : stepJ (JState.expectValue stk) 45 = .numMinus stk := by
      simp [stepJ, startValue]
    rw [hstep]
    exact runJ_numMinus_natToDecimal stk (-i).toNat
  · exact runJ_natToDecimal stk i.toNat

/-- The fractional tail `.`-digits of a finite float, entered from either
integer-part end state. -/
theorem runJ_fracTail (stk : List JFrame) (s : JState)
    (hs : s = .numZero stk ∨ s = .numInt stk) (ds : List Nat)
    (hne : ds ≠ []) (hds : ∀ x ∈ ds, 48 ≤ x ∧ x ≤ 57) :
    runJ s (46 :: ds) = .numFrac stk := by
  rw [runJ_cons]
  have hdot : stepJ s 46 = .numDot stk := by
    rcases hs with rfl | rfl <;> simp [stepJ, isDigit]
  rw [hdot]
  match ds, hne with
  | d :: rest, _ =>
    rw [runJ_cons]
    have hd := hds d (by simp)
    have hstep : stepJ (JState.numDot stk) d = .numFrac stk := by
      have hdig : isDigit d = true := by simp [isDigit]; omega
      simp [stepJ, hdig]
    rw [hstep]
    exact runJ_numFrac_digits stk rest (fun x hx => hds x (by simp [hx]))

/-- A finite float rendered by `strconv.AppendFloat` scans as a complete
JSON number. -/
theorem runJ_strconvFloat_finite (stk : List JFrame) (neg : Bool) (ip : Nat)
    (frac : List (Fin 10)) :
    DoneSt (runJ (.expectValue stk) (strconvFloat (.finite neg ip frac))) stk := by
  have hfd : ∀ x ∈ frac.map (fun d => 48 + d.val), 48 ≤ x ∧ x ≤ 57 := by
    intro x hx
    rw [List.mem_map] at hx
    obtain ⟨d, _, rfl⟩ := hx
    have := d.isLt
    omega
  have hint : runJ (.expectValue stk)
        ((if neg then [45] else []) ++ natToDecimal ip) = .numZero stk
      ∨ runJ (.expectValue stk)
        ((if neg then [45] else []) ++ natToDecimal ip) = .numInt stk := by
    cases neg with
    | false => simpa using runJ_natToDecimal stk ip
    | true =>
        have hl : ((if (true : Bool) = true then [45] else []) ++ natToDecimal ip : List Nat)
            = 45 :: natToDecimal ip := by simp
        rw [hl, runJ_cons]
        have hstep : stepJ (JState.expectValue stk) 45 = .numMinus stk := by
          simp [stepJ, startValue]
        rw [hstep]
        exact runJ_numMinus_natToDecimal stk ip
  have hform : strconvFloat (.finite neg ip frac)
      = ((if neg then [45] else []) ++ natToDecimal ip)
        ++ (if frac = [] then []
            else 46 :: frac.map (fun d => 48 + d.val)) := by
    simp [strconvFloat, List.append_assoc]
  rw [hform, runJ_append]
  by_cases hfrac : frac = []
  · rw [if_pos hfrac]
    rcases hint with h | h <;> rw [runJ_nil, h]
    · exact Or.inr (Or.inl rfl)
    · exact Or.inr (Or.inr (Or.inl rfl))
  · rw [if_neg hfrac,
      runJ_fracTail stk _ hint (frac.map (fun d => 48 + d.val))
        (by simpa using hfrac) hfd]
    exact Or.inr (Or.inr (Or.inr (Or.inl rfl)))

/-! ### The amended hypotheses: which values are JSON-representable -/

/-- A float64 the encoder can embed in JSON: `strconv.AppendFloat` output
for non-finite values (`NaN`, `+Inf`, `-Inf`) is not JSON. -/
def goodFloat : GoFloat → Bool
  | .finite _ _ _ => true
  | _ => false

def goodFloats : FloatList → Bool
  | .nil => true
  | .cons f rest => goodFloat f && goodFloats rest

/-- The `addAny` arms that splice foreign bytes must splice a strict
whitespace-free JSON value: a custom `MarshalJSON` result that passed
`json.Valid` (Go also tolerates surrounding whitespace there, which this
strict predicate excludes — a trailing space defeats `addSeparator`), and
the output of the reflective `json.Encoder` path. -/
def goodAny : GoAny → Bool
  | .jsonMarshaler (.ok r) => !r.valid || jsonValid r.data
  | .reflected (.ok data) => jsonValid data
  | .floatArr (some xs) => goodFloats xs
  | _ => true

def GoVal.isGroup : GoVal → Bool
  | .group _ => true
  | _ => false

mutual
def goodVal : GoVal → Bool
  | .float f => goodFloat f
  | .group attrs => goodAttrs attrs
  | .any a => goodAny a
  | _ => true

def goodAttr : Attr → Bool
  | .mk _ v => goodVal v

def goodAttrs : AttrList → Bool
  | .nil => true
  | .cons a rest => goodAttr a && goodAttrs rest
end

/-! ### Remaining value forms scan as complete JSON values -/

theorem valueDone_DoneSt (s : JState) (h : valueDone s = true) :
    DoneSt s [] := by
  unfold DoneSt
  cases s with
  | afterValue stk =>
      cases stk with
      | nil => simp
      | cons f r => simp [valueDone] at h
  | numZero stk =>
      cases stk with
      | nil => simp
      | cons f r => simp [valueDone] at h
  | numInt stk =>
      cases stk with
      | nil => simp
      | cons f r => simp [valueDone] at h
  | numFrac stk =>
      cases stk with
      | nil => simp
      | cons f r => simp [valueDone] at h
  | numExp stk =>
      cases stk with
      | nil => simp
      | cons f r => simp [valueDone] at h
  | expectValue stk => simp [valueDone] at h
  | expectValueOrClose stk => simp [valueDone] at h
  | expectKeyOrClose stk => simp [valueDone] at h
  | expectKey stk => simp [valueDone] at h
  | expectColon stk => simp [valueDone] at h
  | inStr ret stk => simp [valueDone] at h
  | inStrEsc ret stk => simp [valueDone] at h
  | inStrU n ret stk => simp [valueDone] at h
  | lit_rue stk => simp [valueDone] at h
  | lit_ue stk => simp [valueDone] at h
  | lit_e stk => simp [valueDone] at h
  | lit_alse stk => simp [valueDone] at h
  | lit_lse stk => simp [valueDone] at h
  | lit_se stk => simp [valueDone] at h
  | lit_ull stk => simp [valueDone] at h
  | lit_ll stk => simp [valueDone] at h
  | lit_l stk => simp [valueDone] at h
  | numMinus stk => simp [valueDone] at h
  | numDot stk => simp [valueDone] at h
  | numE stk => simp [valueDone] at h
  | numESign stk => simp [valueDone] at h
  | fail => simp [valueDone] at h

theorem DoneSt_ne_fail (s : JState) (stk : List JFrame) (h : DoneSt s stk) :
    s ≠ .fail := by
  rcases h with rfl | rfl | rfl | rfl | rfl <;> simp

/-- Any nonempty byte run that ends in a value-complete state ends in a
byte outside `sepSet`. -/
theorem run_done_last (s0 : JState) (l : List Nat) (stk : List JFrame)
    (hne : l ≠ []) (hdone : DoneSt (runJ s0 l) stk) :
    ∃ b, l.getLast? = some b ∧ ¬ b ∈ sepSet := by
  rcases List.eq_nil_or_concat l with rfl | ⟨ys, b, rfl⟩
  · exact absurd rfl hne
  · rw [List.concat_eq_append] at hdone ⊢
    rw [runJ_append] at hdone
    have hstep : runJ (runJ s0 ys) [b] = stepJ (runJ s0 ys) b := rfl
    rw [hstep] at hdone
    exact ⟨b, List.getLast?_concat _, DoneSt_last _ b stk hdone⟩

/-- A checker-valid payload spliced at a value position in any frame
context scans to a value-complete state. -/
theorem runJ_payload (stk : List JFrame) (data : List Nat)
    (h : jsonValid data = true) :
    DoneSt (runJ (.expectValue stk) data) stk ∧ data ≠ [] := by
  have hdone0 : DoneSt (runJ (.expectValue []) data) [] :=
    valueDone_DoneSt _ h
  have hne : data ≠ [] := by
    intro hdata
    rw [hdata] at h
    simp [jsonValid, runJ, valueDone] at h
  have hnf : runJ (.expectValue []) data ≠ .fail :=
    DoneSt_ne_fail _ _ hdone0
  have hev : (JState.expectValue stk) = addStk stk (.expectValue []) := by
    simp [addStk]
  rw [hev, runJ_addStk stk data (.expectValue []) hnf]
  exact ⟨DoneSt_addStk _ stk hdone0, hne⟩

theorem b64Char_strSafe (n : Nat) : strSafe (b64Char n) = true := by
  unfold b64Char
  split_ifs <;> simp [strSafe] <;> omega

theorem base64Encode_strSafe : ∀ bs : List Nat, ∀ x ∈ base64Encode bs,
    strSafe x = true
  | [] => by simp [base64Encode]
  | [b1] => by
      intro x hx
      simp only [base64Encode] at hx
      fin_cases hx
      · exact b64Char_strSafe _
      · exact b64Char_strSafe _
      · decide
      · decide
  | [b1, b2] => by
      intro x hx
      simp only [base64Encode] at hx
      fin_cases hx
      · exact b64Char_strSafe _
      · exact b64Char_strSafe _
      · exact b64Char_strSafe _
      · decide
  | b1 :: b2 :: b3 :: rest => by
      intro x hx
      rw [show base64Encode (b1 :: b2 :: b3 :: rest)
          = [b64Char (b1 / 4), b64Char (b1 % 4 * 16 + b2 / 16),
             b64Char (b2 % 16 * 4 + b3 / 64), b64Char (b3 % 64)]
            ++ base64Encode rest from rfl] at hx
      rcases List.mem_append.mp hx with hx | hx
      · fin_cases hx
        · exact b64Char_strSafe _
        · exact b64Char_strSafe _
        · exact b64Char_strSafe _
        · exact b64Char_strSafe _
      · exact base64Encode_strSafe rest x hx

theorem natToDecimal_digits (n : Nat) :
    ∀ x ∈ natToDecimal n, 48 ≤ x ∧ x ≤ 57 := by
  intro x hx
  unfold natToDecimal at hx
  split_ifs at hx with h0
  · simp at hx; omega
  · rw [List.mem_reverse] at hx
    exact digitsAux_digits n n x hx

theorem digit_strSafe (x : Nat) (h : 48 ≤ x ∧ x ≤ 57) : strSafe x = true := by
  simp [strSafe]; omega

theorem padDec_strSafe (w n : Nat) : ∀ x ∈ padDec w n, strSafe x = true := by
  intro x hx
  unfold padDec at hx
  rcases List.mem_append.mp hx with hx | hx
  · rw [List.eq_of_mem_replicate hx]; decide
  · exact digit_strSafe x (natToDecimal_digits n x hx)

theorem timeFrac_strSafe (d v : Nat) : ∀ x ∈ timeFrac d v, strSafe x = true := by
  intro x hx
  unfold timeFrac at hx
  split_ifs at hx
  · simp at hx
  · rcases List.mem_cons.mp hx with rfl | hx
    · decide
    · unfold dropTrailingZeros at hx
      rw [List.mem_reverse] at hx
      have hx2 := (List.dropWhile_sublist _).subset hx
      rw [List.mem_reverse] at hx2
      exact padDec_strSafe d v x hx2

theorem timeZoneSuffix_strSafe (tz : Int) :
    ∀ x ∈ timeZoneSuffix tz, strSafe x = true := by
  intro x hx
  unfold timeZoneSuffix at hx
  split_ifs at hx with h0 hneg
  · simp at hx; subst hx; decide
  · simp only [List.append_assoc, List.mem_append] at hx
    rcases hx with hx | hx | hx | hx
    · simp at hx; subst hx; decide
    · exact padDec_strSafe 2 _ x hx
    · simp at hx; subst hx; decide
    · exact padDec_strSafe 2 _ x hx
  · simp only [List.append_assoc, List.mem_append] at hx
    rcases hx with hx | hx | hx | hx
    · simp at hx; subst hx; decide
    · exact padDec_strSafe 2 _ x hx
    · simp at hx; subst hx; decide
    · exact padDec_strSafe 2 _ x hx

theorem rfc3339Milli_strSafe (t : GoTime) :
    ∀ x ∈ rfc3339Milli t, strSafe x = true := by
  intro x hx
  unfold rfc3339Milli at hx
  simp only [List.append_assoc, List.mem_append, List.mem_singleton] at hx
  rcases hx with hx | rfl | hx | rfl | hx | rfl | hx | rfl | hx | rfl | hx | hx | hx
  · exact padDec_strSafe _ _ x hx
  · decide
  · exact padDec_strSafe _ _ x hx
  · decide
  · exact padDec_strSafe _ _ x hx
  · decide
  · exact padDec_strSafe _ _ x hx
  · decide
  · exact padDec_strSafe _ _ x hx
  · decide
  · exact padDec_strSafe _ _ x hx
  · exact timeFrac_strSafe _ _ x hx
  · exact timeZoneSuffix_strSafe _ x hx

theorem rfc3339Nano_strSafe (t : GoTime) :
    ∀ x ∈ rfc3339Nano t, strSafe x = true := by
  intro x hx
  unfold rfc3339Nano at hx
  simp only [List.append_assoc, List.mem_append, List.mem_singleton] at hx
  rcases hx with hx | rfl | hx | rfl | hx | rfl | hx | rfl | hx | rfl | hx | hx | hx
  · exact padDec_strSafe _ _ x hx
  · decide
  · exact padDec_strSafe _ _ x hx
  · decide
  · exact padDec_strSafe _ _ x hx
  · decide
  · exact padDec_strSafe _ _ x hx
  · decide
  · exact padDec_strSafe _ _ x hx
  · decide
  · exact padDec_strSafe _ _ x hx
  · exact timeFrac_strSafe _ _ x hx
  · exact timeZoneSuffix_strSafe _ x hx

theorem levelString_strSafe (l : Int) :
    ∀ x ∈ levelString l, strSafe x = true := by
  have hstr : ∀ (base : List Nat), (∀ x ∈ base, strSafe x = true) →
      ∀ (v : Int), ∀ x ∈ levelStr base v, strSafe x = true := by
    intro base hbase v x hx
    unfold levelStr at hx
    split_ifs at hx with h0 hpos
    · exact hbase x hx
    · rcases List.mem_append.mp hx with hx | hx
      · exact hbase x hx
      · rcases List.mem_cons.mp hx with rfl | hx
        · decide
        · exact digit_strSafe x (natToDecimal_digits _ x hx)
    · rcases List.mem_append.mp hx with hx | hx
      · exact hbase x hx
      · rcases List.mem_cons.mp hx with rfl | hx
        · decide
        · exact digit_strSafe x (natToDecimal_digits _ x hx)
  intro x hx
  unfold levelString at hx
  split_ifs at hx
  · exact hstr _ (by decide) _ x hx
  · exact hstr _ (by decide) _ x hx
  · exact hstr _ (by decide) _ x hx
  · exact hstr _ (by decide) _ x hx

theorem runJ_jsonEncodeString_val (s0 : JState) (stk : List JFrame)
    (str : List Nat) (hq : stepJ s0 34 = .inStr .val stk) :
    runJ s0 (jsonEncodeString str) = .afterValue stk := by
  rw [runJ_jsonEncodeString s0 .val stk str hq]
  rfl

theorem runJ_jsonEncodeString_key (s0 : JState) (stk : List JFrame)
    (str : List Nat) (hq : stepJ s0 34 = .inStr .key stk) :
    runJ s0 (jsonEncodeString str) = .expectColon stk := by
  rw [runJ_jsonEncodeString s0 .key stk str hq]
  rfl

theorem runJ_quoted_safe_val (s0 : JState) (stk : List JFrame)
    (content : List Nat) (hq : stepJ s0 34 = .inStr .val stk)
    (hc : ∀ x ∈ content, strSafe x = true) :
    runJ s0 (34 :: content ++ [34]) = .afterValue stk := by
  rw [runJ_quoted_safe s0 .val stk content hq hc]
  rfl

theorem stepJ_expectValue_quote (stk : List JFrame) :
    stepJ (JState.expectValue stk) 34 = .inStr .val stk := by
  simp [stepJ, startValue]

theorem runJ_null (stk : List JFrame) :
    runJ (.expectValue stk) [110, 117, 108, 108] = .afterValue stk := by
  simp [runJ, stepJ, startValue, isDigit]

theorem runJ_true (stk : List JFrame) :
    runJ (.expectValue stk) [116, 114, 117, 101] = .afterValue stk := by
  simp [runJ, stepJ, startValue, isDigit]

theorem runJ_false (stk : List JFrame) :
    runJ (.expectValue stk) [102, 97, 108, 115, 101] = .afterValue stk := by
  simp [runJ, stepJ, startValue, isDigit]

/-- `addBytes` output scans as one complete JSON string for EVERY byte
slice: the printable path escapes everything, the base64 path only emits
alphabet characters. -/
theorem runJ_addBytes (stk : List JFrame) (bs : List Nat) :
    runJ (.expectValue stk) (addBytes bs) = .afterValue stk := by
  unfold addBytes
  split_ifs with hnil hpr
  · simp [runJ, stepJ, startValue, strDone]
  · exact runJ_jsonEncodeString_val _ stk bs (stepJ_expectValue_quote stk)
  · exact runJ_quoted_safe_val _ stk (base64Encode bs)
      (stepJ_expectValue_quote stk) (base64Encode_strSafe bs)

theorem runJ_strArrBody (stk : List JFrame) :
    ∀ xs : StrList,
      runJ (.afterValue (.arr :: stk)) (strArrBody false xs)
        = .afterValue (.arr :: stk)
  | .nil => rfl
  | .cons s rest => by
      rw [show strArrBody false (.cons s rest)
          = [44] ++ jsonEncodeString s ++ strArrBody false rest from rfl]
      rw [runJ_append, runJ_append]
      have h44 : runJ (.afterValue (.arr :: stk)) [44]
          = .expectValue (.arr :: stk) := by
        simp [runJ, stepJ, popDelim]
      rw [h44, runJ_jsonEncodeString_val _ (.arr :: stk) s
        (stepJ_expectValue_quote _)]
      exact runJ_strArrBody stk rest

theorem runJ_strArr (stk : List JFrame) (xs : StrList) :
    runJ (.expectValue stk) (91 :: strArrBody true xs ++ [93])
      = .afterValue stk := by
  rw [List.cons_append, runJ_cons]
  have h91 : stepJ (JState.expectValue stk) 91
      = .expectValueOrClose (.arr :: stk) := by
    simp [stepJ, startValue]
  rw [h91]
  cases xs with
  | nil => simp [strArrBody, runJ, stepJ]
  | cons s rest =>
      rw [show strArrBody true (.cons s rest)
          = jsonEncodeString s ++ strArrBody false rest from rfl]
      rw [List.append_assoc, runJ_append]
      have hq : stepJ (JState.expectValueOrClose (.arr :: stk)) 34
          = .inStr .val (.arr :: stk) := by
        simp [stepJ, startValue]
      rw [runJ_jsonEncodeString_val _ (.arr :: stk) s hq, runJ_append,
        runJ_strArrBody stk rest]
      simp [runJ, stepJ, popDelim]

theorem runJ_floatArrBody (stk : List JFrame) :
    ∀ xs : FloatList, goodFloats xs = true →
      ∀ s : JState, DoneSt s (.arr :: stk) →
        DoneSt (runJ s (floatArrBody false xs)) (.arr :: stk)
  | .nil => by
      intro _ s hs
      exact hs
  | .cons f rest => by
      intro hg s hs
      simp only [goodFloats, Bool.and_eq_true] at hg
      obtain ⟨neg, ip, frac, rfl⟩ : ∃ neg ip frac, f = .finite neg ip frac := by
        cases f with
        | finite neg ip frac => exact ⟨neg, ip, frac, rfl⟩
        | nan => simp [goodFloat] at hg
        | posInf => simp [goodFloat] at hg
        | negInf => simp [goodFloat] at hg
      rw [show floatArrBody false (.cons (.finite neg ip frac) rest)
          = [44] ++ strconvFloat (.finite neg ip frac)
            ++ floatArrBody false rest from rfl]
      rw [runJ_append, runJ_append]
      have h44 : runJ s [44] = .expectValue (.arr :: stk) := by
        rw [show runJ s [44] = stepJ s 44 from rfl]
        exact DoneSt_commaArr s stk hs
      rw [h44]
      exact runJ_floatArrBody stk rest hg.2 _
        (runJ_strconvFloat_finite (.arr :: stk) neg ip frac)

theorem stepJ_evoc_eq (stk : List JFrame) (b : Nat) (hb : ¬ b = 93) :
    stepJ (JState.expectValueOrClose stk) b = stepJ (JState.expectValue stk) b := by
  simp [stepJ, hb]

theorem strconvFloat_finite_head (neg : Bool) (ip : Nat) (frac : List (Fin 10)) :
    ∃ b rest, strconvFloat (.finite neg ip frac) = b :: rest
      ∧ (b = 45 ∨ (48 ≤ b ∧ b ≤ 57)) := by
  unfold strconvFloat
  cases neg with
  | true =>
      refine ⟨45, natToDecimal ip ++ (if frac = [] then []
        else 46 :: frac.map (fun d => 48 + d.val)), ?_, Or.inl rfl⟩
      simp
  | false =>
      rcases natToDecimal_shape ip with ⟨_, hl⟩ | ⟨d, ds, hl, h49, h57, _⟩
      · refine ⟨48, (if frac = [] then []
          else 46 :: frac.map (fun d => 48 + d.val)), ?_, Or.inr (by omega)⟩
        simp [hl]
      · refine ⟨d, ds ++ (if frac = [] then []
          else 46 :: frac.map (fun d => 48 + d.val)), ?_, Or.inr ⟨by omega, h57⟩⟩
        simp [hl]

theorem runJ_floatArr (stk : List JFrame) (xs : FloatList)
    (hg : goodFloats xs = true) :
    DoneSt (runJ (.expectValue stk) (91 :: floatArrBody true xs ++ [93])) stk := by
  rw [List.cons_append, runJ_cons]
  have h91 : stepJ (JState.expectValue stk) 91
      = .expectValueOrClose (.arr :: stk) := by
    simp [stepJ, startValue]
  rw [h91]
  cases xs with
  | nil =>
      simp only [floatArrBody, List.nil_append]
      have : runJ (.expectValueOrClose (.arr :: stk)) [93] = .afterValue stk := by
        simp [runJ, stepJ]
      rw [this]
      exact Or.inl rfl
  | cons f rest =>
      simp only [goodFloats, Bool.and_eq_true] at hg
      obtain ⟨neg, ip, frac, rfl⟩ : ∃ neg ip frac, f = .finite neg ip frac := by
        cases f with
        | finite neg ip frac => exact ⟨neg, ip, frac, rfl⟩
        | nan => simp [goodFloat] at hg
        | posInf => simp [goodFloat] at hg
        | negInf => simp [goodFloat] at hg
      rw [show floatArrBody true (.cons (.finite neg ip frac) rest)
          = strconvFloat (.finite neg ip frac) ++ floatArrBody false rest from rfl]
      obtain ⟨b, brest, hhead, hb⟩ := strconvFloat_finite_head neg ip frac
      have hb93 : ¬ b = 93 := by rcases hb with rfl | hb <;> omega
      rw [List.append_assoc, runJ_append, hhead, runJ_cons,
        stepJ_evoc_eq (.arr :: stk) b hb93, ← runJ_cons, ← hhead]
      have hmid := runJ_floatArrBody stk rest hg.2 _
        (runJ_strconvFloat_finite (.arr :: stk) neg ip frac)
      rw [runJ_append]
      have hclose : runJ (runJ (runJ (.expectValue (.arr :: stk))
            (strconvFloat (.finite neg ip frac))) (floatArrBody false rest)) [93]
          = .afterValue stk := DoneSt_closeBracket _ stk hmid
      rw [hclose]
      exact Or.inl rfl

theorem jsonEncodeString_ne_nil (str : List Nat) :
    jsonEncodeString str ≠ [] := by
  simp [jsonEncodeString]

theorem natToDecimal_ne_nil (n : Nat) : natToDecimal n ≠ [] := by
  rcases natToDecimal_shape n with ⟨_, hl⟩ | ⟨d, ds, hl, _, _, _⟩ <;> simp [hl]

theorem intToDecimal_ne_nil (i : Int) : intToDecimal i ≠ [] := by
  unfold intToDecimal
  split_ifs
  · simp
  · exact natToDecimal_ne_nil _

theorem addBytes_ne_nil (bs : List Nat) : addBytes bs ≠ [] := by
  unfold addBytes
  split_ifs
  · simp
  · exact jsonEncodeString_ne_nil bs
  · simp

/-- Every modelled `addAny` arm, under the amended hypotheses, emits a
complete JSON value. -/
theorem runJ_addAnyBytes (stk : List JFrame) (a : GoAny)
    (ha : goodAny a = true) :
    DoneSt (runJ (.expectValue stk) (addAnyBytes a)) stk
    ∧ addAnyBytes a ≠ [] := by
  cases a with
  | untypedNil =>
      refine ⟨?_, by simp [addAnyBytes]⟩
      rw [show addAnyBytes .untypedNil = [110, 117, 108, 108] from rfl, runJ_null]
      exact Or.inl rfl
  | nilPtr =>
      refine ⟨?_, by simp [addAnyBytes]⟩
      rw [show addAnyBytes .nilPtr = [110, 117, 108, 108] from rfl, runJ_null]
      exact Or.inl rfl
  | bytes bs =>
      refine ⟨?_, addBytes_ne_nil bs⟩
      rw [show addAnyBytes (.bytes bs) = addBytes bs from rfl, runJ_addBytes]
      exact Or.inl rfl
  | jsonMarshaler res =>
      cases res with
      | error e =>
          refine ⟨?_, jsonEncodeString_ne_nil _⟩
          rw [show addAnyBytes (.jsonMarshaler (.error e))
              = jsonEncodeString (errPrefix ++ e) from rfl,
            runJ_jsonEncodeString_val _ stk _ (stepJ_expectValue_quote stk)]
          exact Or.inl rfl
      | ok r =>
          by_cases hvalid : r.valid
          · have hdata : jsonValid r.data = true := by
              simpa [goodAny, hvalid] using ha
            have hform : addAnyBytes (.jsonMarshaler (.ok r)) = r.data := by
              rw [show addAnyBytes (.jsonMarshaler (.ok r))
                  = (if r.valid then r.data
                     else jsonEncodeString (errInvalidPrefix ++ r.data)) from rfl,
                if_pos hvalid]
            rw [hform]
            exact runJ_payload stk r.data hdata
          · have hform : addAnyBytes (.jsonMarshaler (.ok r))
                = jsonEncodeString (errInvalidPrefix ++ r.data) := by
              rw [show addAnyBytes (.jsonMarshaler (.ok r))
                  = (if r.valid then r.data
                     else jsonEncodeString (errInvalidPrefix ++ r.data)) from rfl,
                if_neg hvalid]
            refine ⟨?_, by rw [hform]; exact jsonEncodeString_ne_nil _⟩
            rw [hform,
              runJ_jsonEncodeString_val _ stk _ (stepJ_expectValue_quote stk)]
            exact Or.inl rfl
  | textMarshaler res =>
      cases res with
      | error e =>
          refine ⟨?_, jsonEncodeString_ne_nil _⟩
          rw [show addAnyBytes (.textMarshaler (.error e))
              = jsonEncodeString (errPrefix ++ e) from rfl,
            runJ_jsonEncodeString_val _ stk _ (stepJ_expectValue_quote stk)]
          exact Or.inl rfl
      | ok data =>
          refine ⟨?_, jsonEncodeString_ne_nil _⟩
          rw [show addAnyBytes (.textMarshaler (.ok data))
              = jsonEncodeString data from rfl,
            runJ_jsonEncodeString_val _ stk _ (stepJ_expectValue_quote stk)]
          exact Or.inl rfl
  | err msg =>
      refine ⟨?_, jsonEncodeString_ne_nil _⟩
      rw [show addAnyBytes (.err msg) = jsonEncodeString msg from rfl,
        runJ_jsonEncodeString_val _ stk _ (stepJ_expectValue_quote stk)]
      exact Or.inl rfl
  | strArr o =>
      cases o with
      | none =>
          refine ⟨?_, by simp [addAnyBytes]⟩
          rw [show addAnyBytes (.strArr none) = [110, 117, 108, 108] from rfl,
            runJ_null]
          exact Or.inl rfl
      | some xs =>
          refine ⟨?_, by simp [addAnyBytes]⟩
          rw [show addAnyBytes (.strArr (some xs))
              = 91 :: strArrBody true xs ++ [93] from rfl, runJ_strArr]
          exact Or.inl rfl
  | floatArr o =>
      cases o with
      | none =>
          refine ⟨?_, by simp [addAnyBytes]⟩
          rw [show addAnyBytes (.floatArr none) = [110, 117, 108, 108] from rfl,
            runJ_null]
          exact Or.inl rfl
      | some xs =>
          have hg : goodFloats xs = true := by simpa [goodAny] using ha
          refine ⟨?_, by simp [addAnyBytes]⟩
          rw [show addAnyBytes (.floatArr (some xs))
              = 91 :: floatArrBody true xs ++ [93] from rfl]
          exact runJ_floatArr stk xs hg
  | reflected res =>
      cases res with
      | error e =>
          refine ⟨?_, jsonEncodeString_ne_nil _⟩
          rw [show addAnyBytes (.reflected (.error e))
              = jsonEncodeString (errPrefix ++ e) from rfl,
            runJ_jsonEncodeString_val _ stk _ (stepJ_expectValue_quote stk)]
          exact Or.inl rfl
      | ok data =>
          have hdata : jsonValid data = true := by simpa [goodAny] using ha
          rw [show addAnyBytes (.reflected (.ok data)) = data from rfl]
          exact runJ_payload stk data hdata

/-- Every non-group slog value, under the amended hypotheses, is encoded
by `addValue` as a complete JSON value. -/
theorem runJ_addValueBytes (stk : List JFrame) (v : GoVal)
    (hv : goodVal v = true) (hng : v.isGroup = false) :
    DoneSt (runJ (.expectValue stk) (addValueBytes v)) stk
    ∧ addValueBytes v ≠ [] := by
  cases v with
  | str s2 =>
      refine ⟨?_, jsonEncodeString_ne_nil _⟩
      rw [show addValueBytes (.str s2) = jsonEncodeString s2 from rfl,
        runJ_jsonEncodeString_val _ stk _ (stepJ_expectValue_quote stk)]
      exact Or.inl rfl
  | int i =>
      refine ⟨?_, intToDecimal_ne_nil i⟩
      rw [show addValueBytes (.int i) = intToDecimal i from rfl]
      rcases runJ_intToDecimal stk i with h | h <;> rw [h]
      · exact Or.inr (Or.inl rfl)
      · exact Or.inr (Or.inr (Or.inl rfl))
  | uint n =>
      refine ⟨?_, natToDecimal_ne_nil n⟩
      rw [show addValueBytes (.uint n) = natToDecimal n from rfl]
      rcases runJ_natToDecimal stk n with h | h <;> rw [h]
      · exact Or.inr (Or.inl rfl)
      · exact Or.inr (Or.inr (Or.inl rfl))
  | bool b =>
      cases b with
      | true =>
          refine ⟨?_, by simp [addValueBytes]⟩
          rw [show addValueBytes (.bool true) = [116, 114, 117, 101] from rfl,
            runJ_true]
          exact Or.inl rfl
      | false =>
          refine ⟨?_, by simp [addValueBytes]⟩
          rw [show addValueBytes (.bool false)
              = [102, 97, 108, 115, 101] from rfl, runJ_false]
          exact Or.inl rfl
  | float f =>
      obtain ⟨neg, ip, frac, rfl⟩ : ∃ neg ip frac, f = .finite neg ip frac := by
        cases f with
        | finite neg ip frac => exact ⟨neg, ip, frac, rfl⟩
        | nan => simp [goodVal, goodFloat] at hv
        | posInf => simp [goodVal, goodFloat] at hv
        | negInf => simp [goodVal, goodFloat] at hv
      obtain ⟨b, brest, hhead, _⟩ := strconvFloat_finite_head neg ip frac
      refine ⟨?_, by simp [addValueBytes, hhead]⟩
      rw [show addValueBytes (.float (.finite neg ip frac))
          = strconvFloat (.finite neg ip frac) from rfl]
      exact runJ_strconvFloat_finite stk neg ip frac
  | duration d =>
      refine ⟨?_, intToDecimal_ne_nil d⟩
      rw [show addValueBytes (.duration d) = intToDecimal d from rfl]
      rcases runJ_intToDecimal stk d with h | h <;> rw [h]
      · exact Or.inr (Or.inl rfl)
      · exact Or.inr (Or.inr (Or.inl rfl))
  | time t =>
      refine ⟨?_, by simp [addValueBytes]⟩
      rw [show addValueBytes (.time t) = 34 :: rfc3339Nano t ++ [34] from rfl,
        runJ_quoted_safe_val _ stk _ (stepJ_expectValue_quote stk)
          (rfc3339Nano_strSafe t)]
      exact Or.inl rfl
  | group g => simp [GoVal.isGroup] at hng
  | any a =>
      have ha : goodAny a = true := by simpa [goodVal] using hv
      rw [show addValueBytes (.any a) = addAnyBytes a from rfl]
      exact runJ_addAnyBytes stk a ha

/-! ### The buffer invariant maintained by the JSON encoder -/

/-- The frame stack the recognizer is inside while the encoder builds a
line: the outer record object plus one object frame per open group. -/
def objStack (st : EncSt) : List JFrame :=
  List.replicate (st.openGroups.length + 1) JFrame.obj

theorem objStack_cons (st : EncSt) :
    JFrame.obj :: objStack st
      = List.replicate (st.openGroups.length + 1 + 1) JFrame.obj := by
  simp [objStack, List.replicate_succ]

/-- Invariant: scanning the buffer from scratch leaves the recognizer
either right after the `\x7b` of the innermost open object (buffer ends in
`\x7b`), or right after a complete member (buffer ends in a byte that
forces the next separator comma). -/
def EncInv (st : EncSt) : Prop :=
  (runJ (.expectValue []) st.buf = .expectKeyOrClose (objStack st)
    ∧ st.buf.getLast? = some 123)
  ∨ (DoneSt (runJ (.expectValue []) st.buf) (objStack st)
    ∧ ∃ b, st.buf.getLast? = some b ∧ ¬ b ∈ sepSet)

/-- After `addSeparator` the recognizer expects an object key. -/
def KeyReady (st : EncSt) : Prop :=
  runJ (.expectValue []) st.buf = .expectKeyOrClose (objStack st)
  ∨ runJ (.expectValue []) st.buf = .expectKey (objStack st)

theorem addSeparator_inv (st : EncSt) (h : EncInv st) :
    KeyReady (addSeparator st)
    ∧ (addSeparator st).openGroups = st.openGroups := by
  refine ⟨?_, addSeparator_openGroups st⟩
  rcases h with ⟨hrun, hlast⟩ | ⟨hdone, b, hlast, hb⟩
  · have hsep : addSeparator st = st := by
      unfold addSeparator
      rw [hlast]
      dsimp only
      split_ifs with hc
      · rfl
      · exact absurd (by decide) hc
    rw [hsep]
    exact Or.inl hrun
  · have hsep : addSeparator st = { st with buf := st.buf ++ [44] } := by
      unfold addSeparator
      rw [hlast]
      dsimp only
      split_ifs with hc
      · exact absurd (List.mem_of_elem_eq_true hc) hb
      · rfl
    rw [hsep]
    right
    have hstk : objStack { st with buf := st.buf ++ [44] } = objStack st := rfl
    rw [hstk]
    show runJ (.expectValue []) (st.buf ++ [44]) = _
    rw [runJ_append,
      show runJ (runJ (.expectValue []) st.buf) [44]
        = stepJ (runJ (.expectValue []) st.buf) 44 from rfl]
    have hcons : objStack st
        = JFrame.obj :: List.replicate st.openGroups.length JFrame.obj := by
      rw [objStack, List.replicate_succ]
    rw [hcons] at hdone ⊢
    exact DoneSt_comma _ _ hdone

theorem addKey_openGroups (st : EncSt) (k : List Nat) :
    (addKey st k).openGroups = st.openGroups := by
  unfold addKey
  simp [addSeparator_openGroups]

theorem KeyReady_quote (st : EncSt) (h : KeyReady st) :
    stepJ (runJ (.expectValue []) st.buf) 34 = .inStr .key (objStack st) := by
  rcases h with h | h <;> rw [h] <;> simp [stepJ]

/-- After `addKey` the recognizer expects the member value. -/
theorem addKey_inv (st : EncSt) (k : List Nat) (h : EncInv st) :
    runJ (.expectValue []) (addKey st k).buf = .expectValue (objStack st)
    ∧ (addKey st k).openGroups = st.openGroups := by
  refine ⟨?_, addKey_openGroups st k⟩
  obtain ⟨hready, hog⟩ := addSeparator_inv st h
  have hstk : objStack (addSeparator st) = objStack st := by
    unfold objStack
    rw [hog]
  unfold KeyReady at hready
  rw [hstk] at hready
  show runJ (.expectValue [])
      (((addSeparator st).buf ++ jsonEncodeString k) ++ [58]) = _
  rw [runJ_append, runJ_append]
  have hkey : runJ (runJ (.expectValue []) (addSeparator st).buf)
      (jsonEncodeString k) = .expectColon (objStack st) := by
    apply runJ_jsonEncodeString_key
    rcases hready with h1 | h1 <;> rw [h1] <;> simp [stepJ]
  rw [hkey]
  simp [runJ, stepJ]

theorem appendAttr_value_inv (st : EncSt) (key : List Nat) (v : GoVal)
    (hv : goodVal v = true) (hng : v.isGroup = false) (hInv : EncInv st) :
    EncInv { addKey st key with buf := (addKey st key).buf ++ addValueBytes v }
    ∧ ({ addKey st key with
          buf := (addKey st key).buf ++ addValueBytes v } : EncSt).openGroups
        = st.openGroups := by
  obtain ⟨hrun, hog⟩ := addKey_inv st key hInv
  obtain ⟨hdone, hne⟩ := runJ_addValueBytes (objStack st) v hv hng
  refine ⟨?_, addKey_openGroups st key⟩
  right
  have hstk : objStack { addKey st key with
      buf := (addKey st key).buf ++ addValueBytes v } = objStack st := by
    unfold objStack
    simp [addKey_openGroups]
  rw [hstk]
  constructor
  · show DoneSt (runJ (.expectValue [])
      ((addKey st key).buf ++ addValueBytes v)) (objStack st)
    rw [runJ_append, hrun]
    exact hdone
  · obtain ⟨b, hbl, hbs⟩ := run_done_last (JState.expectValue (objStack st))
      (addValueBytes v) (objStack st) hne hdone
    refine ⟨b, ?_, hbs⟩
    show ((addKey st key).buf ++ addValueBytes v).getLast? = some b
    rw [List.getLast?_append_of_ne_nil _ hne]
    exact hbl

theorem openGroup_inv (st : EncSt) (g : List Nat) (h : EncInv st) :
    EncInv (openGroup st g)
    ∧ (openGroup st g).openGroups = st.openGroups ++ [g] := by
  obtain ⟨hrun, hog⟩ := addKey_inv st g h
  have hogs : (openGroup st g).openGroups = st.openGroups ++ [g] := by
    unfold openGroup
    simp [addKey_openGroups]
  refine ⟨Or.inl ⟨?_, ?_⟩, hogs⟩
  · show runJ (.expectValue []) ((addKey st g).buf ++ [123])
      = .expectKeyOrClose (objStack (openGroup st g))
    rw [runJ_append, hrun,
      show runJ (JState.expectValue (objStack st)) [123]
        = stepJ (JState.expectValue (objStack st)) 123 from rfl]
    have hstep : stepJ (JState.expectValue (objStack st)) 123
        = .expectKeyOrClose (.obj :: objStack st) := by
      simp [stepJ, startValue]
    rw [hstep]
    congr 1
    unfold objStack
    rw [hogs]
    simp [List.replicate_succ]
  · show ((addKey st g).buf ++ [123]).getLast? = some 123
    simp

theorem closeGroup_inv (st2 : EncSt) (hne : st2.openGroups ≠ [])
    (h : EncInv st2) :
    EncInv (closeGroup st2)
    ∧ (closeGroup st2).openGroups = st2.openGroups.dropLast := by
  have hcg : closeGroup st2
      = { buf := st2.buf ++ [125], openGroups := st2.openGroups.dropLast } := by
    unfold closeGroup
    rw [if_neg hne]
  rw [hcg]
  refine ⟨?_, rfl⟩
  right
  have hlen : st2.openGroups.length = st2.openGroups.dropLast.length + 1 := by
    have h1 := List.length_dropLast st2.openGroups
    have hpos : 0 < st2.openGroups.length := List.length_pos.mpr hne
    omega
  have hold : objStack st2
      = JFrame.obj :: List.replicate (st2.openGroups.dropLast.length + 1)
          JFrame.obj := by
    unfold objStack
    rw [hlen]
    simp [List.replicate_succ]
  have hstate : runJ (.expectValue []) (st2.buf ++ [125])
      = .afterValue (List.replicate (st2.openGroups.dropLast.length + 1)
          JFrame.obj) := by
    rw [runJ_append,
      show runJ (runJ (.expectValue []) st2.buf) [125]
        = stepJ (runJ (.expectValue []) st2.buf) 125 from rfl]
    rcases h with ⟨hrun, _⟩ | ⟨hdone, _⟩
    · rw [hrun, hold]
      simp [stepJ]
    · rw [hold] at hdone
      exact DoneSt_closeBrace _ _ hdone
  refine ⟨?_, 125, by simp, by decide⟩
  rw [show objStack
      { buf := st2.buf ++ [125], openGroups := st2.openGroups.dropLast }
    = List.replicate (st2.openGroups.dropLast.length + 1) JFrame.obj from rfl]
  show DoneSt (runJ (.expectValue []) (st2.buf ++ [125])) _
  rw [hstate]
  exact Or.inl rfl

/-- Strong induction: `AppendAttr` and its loop preserve the buffer
invariant and the group stack, for attributes satisfying the amended
hypotheses. -/
theorem appendJ_aux : ∀ n : Nat,
    (∀ a : Attr, sizeOf a ≤ n → goodAttr a = true → ∀ st : EncSt, EncInv st →
        EncInv (appendAttr st a)
        ∧ (appendAttr st a).openGroups = st.openGroups)
    ∧ (∀ l : AttrList, sizeOf l ≤ n → goodAttrs l = true → ∀ st : EncSt,
        EncInv st →
        EncInv (appendAttrs st l)
        ∧ (appendAttrs st l).openGroups = st.openGroups) := by
  intro n
  induction n with
  | zero =>
      constructor
      · intro a ha
        exfalso
        cases a with
        | mk key v => simp at ha
      · intro l hl hg st hInv
        cases l with
        | nil => exact ⟨hInv, rfl⟩
        | cons a rest => exfalso; simp at hl
  | succ n ih =>
      constructor
      · intro a ha hg st hInv
        cases a with
        | mk key v =>
          by_cases hz : attrIsZero (.mk key v)
          · have heq : appendAttr st (.mk key v) = st := by
              unfold appendAttr
              rw [if_pos hz]
            rw [heq]
            exact ⟨hInv, rfl⟩
          · cases v with
            | group g =>
                have hgood : goodAttrs g = true := by
                  simpa [goodAttr, goodVal] using hg
                have hsz : sizeOf g ≤ n := by simp at ha; omega
                by_cases hne : g.isNil = false ∧ ¬key = []
                · have heq : appendAttr st (.mk key (.group g))
                      = closeGroup (appendAttrs (openGroup st key) g) := by
                    unfold appendAttr
                    rw [if_neg hz]
                    simp [hne]
                  rw [heq]
                  obtain ⟨hInv1, hog1⟩ := openGroup_inv st key hInv
                  obtain ⟨hInv2, hog2⟩ := ih.2 g hsz hgood _ hInv1
                  have hne2 : (appendAttrs (openGroup st key) g).openGroups
                      ≠ [] := by
                    rw [hog2, hog1]
                    simp
                  obtain ⟨hInv3, hog3⟩ := closeGroup_inv _ hne2 hInv2
                  refine ⟨hInv3, ?_⟩
                  rw [hog3, hog2, hog1]
                  simp
                · have heq : appendAttr st (.mk key (.group g))
                      = appendAttrs st g := by
                    unfold appendAttr
                    rw [if_neg hz]
                    simp [hne]
                  rw [heq]
                  exact ih.2 g hsz hgood st hInv
            | str s2 =>
                have heq : appendAttr st (.mk key (.str s2))
                    = { addKey st key with
                        buf := (addKey st key).buf
                          ++ addValueBytes (.str s2) } := by
                  unfold appendAttr
                  rw [if_neg hz]
                rw [heq]
                exact appendAttr_value_inv st key (.str s2) rfl rfl hInv
            | int i =>
                have heq : appendAttr st (.mk key (.int i))
                    = { addKey st key with
                        buf := (addKey st key).buf
                          ++ addValueBytes (.int i) } := by
                  unfold appendAttr
                  rw [if_neg hz]
                rw [heq]
                exact appendAttr_value_inv st key (.int i) rfl rfl hInv
            | uint m =>
                have heq : appendAttr st (.mk key (.uint m))
                    = { addKey st key with
                        buf := (addKey st key).buf
                          ++ addValueBytes (.uint m) } := by
                  unfold appendAttr
                  rw [if_neg hz]
                rw [heq]
                exact appendAttr_value_inv st key (.uint m) rfl rfl hInv
            | bool b =>
                have heq : appendAttr st (.mk key (.bool b))
                    = { addKey st key with
                        buf := (addKey st key).buf
                          ++ addValueBytes (.bool b) } := by
                  unfold appendAttr
                  rw [if_neg hz]
                rw [heq]
                exact appendAttr_value_inv st key (.bool b) rfl rfl hInv
            | float f =>
                have hv : goodFloat f = true := by
                  simpa [goodAttr, goodVal] using hg
                have heq : appendAttr st (.mk key (.float f))
                    = { addKey st key with
                        buf := (addKey st key).buf
                          ++ addValueBytes (.float f) } := by
                  unfold appendAttr
                  rw [if_neg hz]
                rw [heq]
                exact appendAttr_value_inv st key (.float f)
                  (by simpa [goodVal] using hv) rfl hInv
            | duration d =>
                have heq : appendAttr st (.mk key (.duration d))
                    = { addKey st key with
                        buf := (addKey st key).buf
                          ++ addValueBytes (.duration d) } := by
                  unfold appendAttr
                  rw [if_neg hz]
                rw [heq]
                exact appendAttr_value_inv st key (.duration d) rfl rfl hInv
            | time t =>
                have heq : appendAttr st (.mk key (.time t))
                    = { addKey st key with
                        buf := (addKey st key).buf
                          ++ addValueBytes (.time t) } := by
                  unfold appendAttr
                  rw [if_neg hz]
                rw [heq]
                exact appendAttr_value_inv st key (.time t) rfl rfl hInv
            | any x =>
                have hv : goodAny x = true := by
                  simpa [goodAttr, goodVal] using hg
                have heq : appendAttr st (.mk key (.any x))
                    = { addKey st key with
                        buf := (addKey st key).buf
                          ++ addValueBytes (.any x) } := by
                  unfold appendAttr
                  rw [if_neg hz]
                rw [heq]
                exact appendAttr_value_inv st key (.any x)
                  (by simpa [goodVal] using hv) rfl hInv
      · intro l hl hg st hInv
        cases l with
        | nil => exact ⟨hInv, rfl⟩
        | cons a rest =>
            have hsa : sizeOf a ≤ n := by simp at hl; omega
            have hsr : sizeOf rest ≤ n := by simp at hl; omega
            simp only [goodAttrs, Bool.and_eq_true] at hg
            simp only [appendAttrs]
            obtain ⟨h1, o1⟩ := ih.1 a hsa hg.1 st hInv
            obtain ⟨h2, o2⟩ := ih.2 rest hsr hg.2 _ h1
            exact ⟨h2, by rw [o2, o1]⟩

theorem appendAttrs_inv (l : AttrList) (hg : goodAttrs l = true)
    (st : EncSt) (hInv : EncInv st) :
    EncInv (appendAttrs st l)
    ∧ (appendAttrs st l).openGroups = st.openGroups :=
  (appendJ_aux (sizeOf l)).2 l (Nat.le_refl _) hg st hInv

theorem appendQuoted_inv (st : EncSt) (key content : List Nat)
    (hc : ∀ x ∈ content, strSafe x = true) (hInv : EncInv st) :
    EncInv { addKey st key with
        buf := (addKey st key).buf ++ 34 :: content ++ [34] }
    ∧ ({ addKey st key with
        buf := (addKey st key).buf ++ 34 :: content ++ [34] } : EncSt).openGroups
      = st.openGroups := by
  obtain ⟨hrun, hog⟩ := addKey_inv st key hInv
  refine ⟨?_, addKey_openGroups st key⟩
  right
  have hstk : objStack { addKey st key with
      buf := (addKey st key).buf ++ 34 :: content ++ [34] } = objStack st := by
    unfold objStack
    simp [addKey_openGroups]
  rw [hstk]
  constructor
  · show DoneSt (runJ (.expectValue [])
      ((addKey st key).buf ++ 34 :: content ++ [34])) (objStack st)
    rw [show (addKey st key).buf ++ 34 :: content ++ [34]
        = (addKey st key).buf ++ (34 :: content ++ [34]) from by
      simp [List.append_assoc]]
    rw [runJ_append, hrun,
      runJ_quoted_safe_val _ (objStack st) content
        (stepJ_expectValue_quote _) hc]
    exact Or.inl rfl
  · refine ⟨34, ?_, by decide⟩
    show ((addKey st key).buf ++ 34 :: content ++ [34]).getLast? = some 34
    rw [show (addKey st key).buf ++ 34 :: content ++ [34]
        = ((addKey st key).buf ++ (34 :: content)) ++ [34] from by
      simp [List.append_assoc]]
    exact List.getLast?_concat _

theorem appendTime_inv (st : EncSt) (key : List Nat) (t : GoTime)
    (hInv : EncInv st) :
    EncInv (appendTime st key t)
    ∧ (appendTime st key t).openGroups = st.openGroups :=
  appendQuoted_inv st key (rfc3339Milli t) (rfc3339Milli_strSafe t) hInv

theorem appendLevel_inv (st : EncSt) (key : List Nat) (l : Int)
    (hInv : EncInv st) :
    EncInv (appendLevel st key l)
    ∧ (appendLevel st key l).openGroups = st.openGroups :=
  appendQuoted_inv st key (levelString l) (levelString_strSafe l) hInv

theorem appendMessage_inv (st : EncSt) (key msg : List Nat)
    (hInv : EncInv st) :
    EncInv (appendMessage st key msg)
    ∧ (appendMessage st key msg).openGroups = st.openGroups := by
  obtain ⟨hrun, hog⟩ := addKey_inv st key hInv
  refine ⟨?_, addKey_openGroups st key⟩
  right
  have hstk : objStack (appendMessage st key msg) = objStack st := by
    unfold objStack appendMessage
    simp [addKey_openGroups]
  rw [hstk]
  constructor
  · show DoneSt (runJ (.expectValue [])
      ((addKey st key).buf ++ jsonEncodeString msg)) (objStack st)
    rw [runJ_append, hrun,
      runJ_jsonEncodeString_val _ (objStack st) msg (stepJ_expectValue_quote _)]
    exact Or.inl rfl
  · refine ⟨34, ?_, by decide⟩
    show ((addKey st key).buf ++ jsonEncodeString msg).getLast? = some 34
    rw [List.getLast?_append_of_ne_nil _ (jsonEncodeString_ne_nil msg)]
    unfold jsonEncodeString
    exact List.getLast?_concat _

theorem closeGroups_noop (st : EncSt) (h : st.openGroups = []) :
    closeGroups st = st := by
  unfold closeGroups
  rw [h]
  simp [closeGroup, h]

/-- C1 (amended): on a fresh handler, for every configuration, record and
attribute trees whose floats are all finite and whose spliced marshaler
payloads are strict JSON values, the encoded line is a complete JSON value
followed by exactly one newline.  The recognizer `jsonValid` defines
"parses as syntactically valid JSON". -/
theorem encode_emits_valid_json (c : Config) (ctx : AttrList) (r : Record)
    (hctx : goodAttrs ctx = true) (hrec : goodAttrs r.attrs = true) :
    jsonValid ((encode c [] [] ctx r).dropLast) = true
    ∧ (encode c [] [] ctx r).getLast? = some 10 := by
  have hInv0 : EncInv (⟨[123], []⟩ : EncSt) := by
    left
    constructor
    · show stepJ (JState.expectValue []) 123 = _
      simp [stepJ, startValue, objStack]
    · rfl
  have hstep1 : ∀ st1 : EncSt,
      (st1 = match r.time with
        | none => (⟨[123], []⟩ : EncSt)
        | some t => appendTime ⟨[123], []⟩ c.timeKey t) →
      EncInv st1 ∧ st1.openGroups = [] := by
    intro st1 h1
    cases ht : r.time with
    | none =>
        rw [ht] at h1
        exact ⟨h1 ▸ hInv0, by rw [h1]⟩
    | some t =>
        rw [ht] at h1
        obtain ⟨hi, ho⟩ := appendTime_inv ⟨[123], []⟩ c.timeKey t hInv0
        exact ⟨h1 ▸ hi, by rw [h1, ho]⟩
  obtain ⟨hInv1, hog1⟩ := hstep1 _ rfl
  obtain ⟨hInv2, hog2⟩ := appendLevel_inv _ c.levelKey r.level hInv1
  obtain ⟨hInv3, hog3⟩ := appendMessage_inv _ c.messageKey r.message hInv2
  have hfm : appendFormatted (appendMessage
      (appendLevel (match r.time with
        | none => (⟨[123], []⟩ : EncSt)
        | some t => appendTime ⟨[123], []⟩ c.timeKey t) c.levelKey r.level)
      c.messageKey r.message) []
      = appendMessage (appendLevel (match r.time with
        | none => (⟨[123], []⟩ : EncSt)
        | some t => appendTime ⟨[123], []⟩ c.timeKey t) c.levelKey r.level)
      c.messageKey r.message := by
    simp [appendFormatted]
  obtain ⟨hInv5, hog5⟩ := appendAttrs_inv ctx hctx _ hInv3
  obtain ⟨hInv6, hog6⟩ := appendAttrs_inv r.attrs hrec _ hInv5
  set st6 := appendAttrs (appendAttrs (appendMessage
      (appendLevel (match r.time with
        | none => (⟨[123], []⟩ : EncSt)
        | some t => appendTime ⟨[123], []⟩ c.timeKey t) c.levelKey r.level)
      c.messageKey r.message) ctx) r.attrs with hst6
  have hog : st6.openGroups = [] := by
    rw [hst6, hog6, hog5, hog3, hog2, hog1]
  have henc : encode c [] [] ctx r = st6.buf ++ [125, 10] := by
    show (closeGroups (appendAttrs (appendAttrs (appendFormatted
        (appendMessage (appendLevel (match r.time with
            | none => (⟨[123], []⟩ : EncSt)
            | some t => appendTime ⟨[123], []⟩ c.timeKey t)
          c.levelKey r.level) c.messageKey r.message) []) ctx) r.attrs)).buf
      ++ [125, 10] = st6.buf ++ [125, 10]
    rw [hfm, ← hst6, closeGroups_noop _ hog]
  have hstk6 : objStack st6 = [JFrame.obj] := by
    unfold objStack
    rw [hog]
    rfl
  have hfinal : runJ (.expectValue []) (st6.buf ++ [125])
      = .afterValue [] := by
    rw [runJ_append,
      show runJ (runJ (.expectValue []) st6.buf) [125]
        = stepJ (runJ (.expectValue []) st6.buf) 125 from rfl]
    rcases hInv6 with ⟨hrun, _⟩ | ⟨hdone, _⟩
    · rw [hst6] at hrun hstk6 ⊢
      rw [hrun, hstk6]
      simp [stepJ]
    · rw [hst6] at hdone hstk6 ⊢
      rw [hstk6] at hdone
      exact DoneSt_closeBrace _ [] hdone
  constructor
  · rw [henc,
      show st6.buf ++ [125, 10] = (st6.buf ++ [125]) ++ [10] from by simp,
      List.dropLast_concat]
    unfold jsonValid
    rw [hfinal]
    rfl
  · rw [henc,
      show st6.buf ++ [125, 10] = (st6.buf ++ [125]) ++ [10] from by simp]
    exact List.getLast?_concat _

theorem encode_emits_valid_json_witness :
    (goodAttrs AttrList.nil = true
      ∧ goodAttrs (.cons (.mk [97] (.str [255]))
          (.cons (.mk [98] (.any .nilPtr))
            (.cons (.mk [103] (.group (.cons (.mk [101] (.group .nil)) .nil)))
              (.cons (.mk [102] (.float (.finite true 1 [(5 : Fin 10)])))
                .nil)))) = true)
    ∧ (jsonValid ((encode {} [] [] .nil
        { level := 0, message := [104, 105],
          attrs := .cons (.mk [97] (.str [255]))
            (.cons (.mk [98] (.any .nilPtr))
              (.cons (.mk [103] (.group (.cons (.mk [101] (.group .nil)) .nil)))
                (.cons (.mk [102] (.float (.finite true 1 [(5 : Fin 10)])))
                  .nil))) }).dropLast) = true
      ∧ (encode {} [] [] .nil
        { level := 0, message := [104, 105],
          attrs := .cons (.mk [97] (.str [255]))
            (.cons (.mk [98] (.any .nilPtr))
              (.cons (.mk [103] (.group (.cons (.mk [101] (.group .nil)) .nil)))
                (.cons (.mk [102] (.float (.finite true 1 [(5 : Fin 10)])))
                  .nil))) }).getLast? = some 10) :=
  ⟨⟨by decide, by decide⟩,
   encode_emits_valid_json {} .nil
     { level := 0, message := [104, 105],
       attrs := .cons (.mk [97] (.str [255]))
         (.cons (.mk [98] (.any .nilPtr))
           (.cons (.mk [103] (.group (.cons (.mk [101] (.group .nil)) .nil)))
             (.cons (.mk [102] (.float (.finite true 1 [(5 : Fin 10)])))
               .nil))) }
     (by decide) (by decide)⟩

/-- C1 counterexample: a NaN float64 attribute makes the emitted line
invalid JSON (`strconv.AppendFloat` writes the bare token `NaN`); a
custom marshaler returning `1 ` — accepted by `json.Valid`, which allows
trailing whitespace — leaves the buffer ending in a space, so the next
field gets no separator comma and the line is invalid as well. -/
theorem nan_float_breaks_json :
    jsonValid ((encode {} [] [] .nil
      { level := 0, message := [],
        attrs := .cons (.mk [102] (.float .nan)) .nil }).dropLast) = false
    ∧ jsonValid ((encode {} [] [] .nil
      { level := 0, message := [],
        attrs := .cons (.mk [107]
            (.any (.jsonMarshaler (.ok ⟨[49, 32], true⟩))))
          (.cons (.mk [106] (.int 2)) .nil) }).dropLast) = false :=
  ⟨by decide, by decide⟩

end Zlog
